import Mathlib

/-!
# Chickadee file system read path (`k-chkfs.cc`)

A shallow embedding of the buffer cache (`bufcache::get_disk_block`,
`bufcache::put_block`), of the inode lock (`inode::lock_read`,
`inode::unlock_read`, `inode::lock_write`, `inode::unlock_write`) and of the
file-system layer built on them (`clean_inode_block`, `chkfsstate::get_inode`,
`chkfsstate::put_inode`, `chkfsstate::get_data_page`, `chkfsstate::lookup`,
`chickadeefs_read_file_data`), followed by theorems about them.

The embedding is sequential: one kernel task runs each operation to
completion, spinlocks and interrupt state carry no data and are left out.
The kernel heap, the page allocator, the disk and the buffer-cache table are
explicit components of a `World` value that every operation takes and returns.
The inode lock functions are given pass by pass, with the atomic exchange as
one step, so that a change of the lock word by another task can be placed
between two passes. Loops whose length depends on the data take a fuel
argument; the theorems say how much fuel is enough.
-/

namespace Chickadee

/-! ## Constants and layouts of the headers -/

/-- Modelled from the spec: the compile-time constants and record layouts of
`chickadeefs.hh` and `k-chkfs.hh`, which `k-chkfs.cc` includes and whose
values it does not fix. They are parameters of the embedding: the block
size `B`, the number `Nd` of direct block numbers of an inode, the number of
inodes per block, `sizeof(inode)`, the byte offset of the superblock in block
0, the byte offsets of the fields the code reads (`sb_*` inside the
superblock, `ino_*` inside an inode) and the block number `clear()` writes
into a slot. -/
structure Geometry where
  blocksize : Nat
  ndirect : Nat
  inodesperblock : Nat
  inodesize : Nat
  superblock_offset : Nat
  sb_ninodes : Nat
  sb_inode_bn : Nat
  ino_size : Nat
  ino_mlock : Nat
  ino_mref : Nat
  ino_direct : Nat
  ino_indirect : Nat
  ino_indirect2 : Nat
  emptyblock : Nat

/-- Modelled from the spec: `nindirect`, the number of block numbers in an
indirect block, `Ni = B/4` (block numbers are 4 bytes). -/
def Geometry.nindirect (K : Geometry) : Nat := K.blocksize / 4

/-! ## Data model -/

/-- Modelled from the spec: the flag word of a slot, `{loading, loaded}`; the
bit values of `bufentry::f_loading` and `bufentry::f_loaded` are in the missing
header, so the word is kept as its two named bits. -/
structure bufflags where
  f_loading : Bool
  f_loaded : Bool
deriving DecidableEq, Repr

/-- No flag set: a fresh slot. -/
def bufflags.none : bufflags := ⟨false, false⟩

/-- One slot `e_[i]` of the buffer cache. `buf_` is a page address, `none`
standing for `nullptr`. -/
structure bufentry where
  bn_ : Nat
  ref_ : Nat
  flags_ : bufflags
  buf_ : Option Nat
deriving DecidableEq, Repr

/-- Modelled from the spec: `bufentry::clear()`, defined in the missing header:
"clears the slot (bn, buf, flags all reset)". -/
def bufentry.clear (K : Geometry) (e : bufentry) : bufentry :=
  { e with bn_ := K.emptyblock, flags_ := bufflags.none, buf_ := Option.none }

/-- Calls the cache makes to its external collaborators, in order. -/
inductive Event where
  | kalloc (r : Option Nat)
  | kfree (p : Nat)
  | disk_read (off : Nat)
deriving DecidableEq, Repr

/-- The state the code runs on: the slot table `e_` of the buffer cache, the
contents `mem` of the kernel pages (a page address gives its bytes), the pages
the allocator has `free`, and the log of calls to allocator and disk. -/
structure World where
  e_ : List bufentry
  mem : Nat → List Nat
  free : List Nat
  events : List Event

/-- The buffer cache as constructed: every slot unreferenced and clear. -/
def empty_cache (K : Geometry) (ne : Nat) : List bufentry :=
  List.replicate ne ⟨K.emptyblock, 0, bufflags.none, Option.none⟩

/-- Store `e` into slot `i`. -/
def World.set_slot (w : World) (i : Nat) (e : bufentry) : World :=
  { w with e_ := w.e_.set i e }

/-! ## External collaborators -/

/-- Modelled from the spec: the page allocator `kalloc`, an external
collaborator ("`alloc(size) → page | none`"): it hands out the first free page,
or `nullptr` when it has none. -/
def kalloc (w : World) : Option Nat × World :=
  match w.free with
  | [] => (Option.none, { w with events := w.events ++ [Event.kalloc Option.none] })
  | x :: rest => (some x, { w with free := rest, events := w.events ++ [Event.kalloc (some x)] })

/-- Modelled from the spec: the page allocator `kfree` ("`free(page)`"): the
page goes back to the allocator; `kfree(nullptr)` does nothing. -/
def kfree (w : World) (p : Option Nat) : World :=
  match p with
  | Option.none => w
  | some x => { w with free := x :: w.free, events := w.events ++ [Event.kfree x] }

/-- The `sz` bytes of the disk from byte offset `off` on. -/
def disk_bytes (disk : Nat → Nat) (sz off : Nat) : List Nat :=
  (List.range sz).map (fun k => disk (off + k))

/-- Modelled from the spec: the block device, `sata_disk->read(x, sz, off)`:
a synchronous read of `sz` bytes at byte offset `off` into page `x`. -/
def sata_read (disk : Nat → Nat) (w : World) (x sz off : Nat) : World :=
  { w with mem := Function.update w.mem x (disk_bytes disk sz off),
           events := w.events ++ [Event.disk_read off] }

/-! ## Buffer cache -/

/-- The predicate handed to `block_until` in `get_disk_block`:
`(e_[i].flags_ & bufentry::f_loading) != 0`. -/
def wait_pred (f : bufflags) : Bool := f.f_loading

/-- Apply the optional cleaner to page `x`. -/
def run_cleaner (cleaner : Option (List Nat → List Nat)) (w : World) (x : Nat) : World :=
  match cleaner with
  | Option.none => w
  | some c => { w with mem := Function.update w.mem x (c (w.mem x)) }

/-- The `while (!(e_[i].flags_ & f_loaded))` loop of `get_disk_block` together
with the return that follows it, for slot `i` and block `bn`. The outer result
`none` stands for a call that does not return: the fuel counts loop
iterations, and a task whose `block_until` predicate already holds goes round
the loop again without any change of state. The result carries the returned
pointer. -/
def load_loop (K : Geometry) (disk : Nat → Nat) (cleaner : Option (List Nat → List Nat))
    (bn i : Nat) : Nat → World → Option (Option Nat × World)
  | 0, _ => Option.none
  | fuel + 1, w =>
    match w.e_[i]? with
    | Option.none => Option.none
    | some e =>
      if e.flags_.f_loaded then
        some (e.buf_, w)
      else if !e.flags_.f_loading then
        match kalloc w with
        | (Option.none, w1) => some (Option.none, w1)
        | (some x, w1) =>
          let e1 : bufentry := { e with flags_ := { e.flags_ with f_loading := true } }
          let w2 := sata_read disk (w1.set_slot i e1) x K.blocksize (bn * K.blocksize)
          let e2 : bufentry :=
            { e1 with flags_ := { e1.flags_ with f_loading := false, f_loaded := true },
                      buf_ := some x }
          load_loop K disk cleaner bn i fuel (run_cleaner cleaner (w2.set_slot i e2) x)
      else if wait_pred e.flags_ then
        load_loop K disk cleaner bn i fuel w
      else
        Option.none

/-- The slot `get_disk_block` settles on under the cache lock, with the table
after `e_[i].bn_ = bn; e_[i].buf_ = nullptr` (for a claimed free slot) and
`++e_[i].ref_`; `none` when the cache is full. -/
def find_slot (es : List bufentry) (bn : Nat) : Option (Nat × List bufentry) :=
  let i := es.findIdx (fun e => e.ref_ != 0 && e.bn_ == bn)
  match es[i]? with
  | some e => some (i, es.set i { e with ref_ := e.ref_ + 1 })
  | Option.none =>
    let j := es.findIdx (fun e => e.ref_ == 0)
    match es[j]? with
    | Option.none => Option.none
    | some e => some (j, es.set j { e with bn_ := bn, buf_ := Option.none, ref_ := e.ref_ + 1 })

/-- The function `bufcache::get_disk_block(bn, cleaner)`. The result is `none` when
the call does not return, and otherwise the returned pointer (`none` for
`nullptr`) and the state after the call. Two loop iterations are all a
returning call makes (`load_loop_fuel`). -/
def get_disk_block (K : Geometry) (disk : Nat → Nat) (w : World) (bn : Nat)
    (cleaner : Option (List Nat → List Nat)) : Option (Option Nat × World) :=
  match find_slot w.e_ bn with
  | Option.none => some (Option.none, w)
  | some (i, es) => load_loop K disk cleaner bn i 2 { w with e_ := es }

/-- The function `bufcache::put_block(buf)`. The result is `none` when
`assert(i != ne)` fails. -/
def put_block (K : Geometry) (w : World) (buf : Option Nat) : Option World :=
  match buf with
  | Option.none => some w
  | some p =>
    let i := w.e_.findIdx (fun e => e.ref_ != 0 && e.buf_ == some p)
    match w.e_[i]? with
    | Option.none => Option.none
    | some e =>
      let e1 : bufentry := { e with ref_ := e.ref_ - 1 }
      if e1.ref_ = 0 then
        some ((kfree w e1.buf_).set_slot i (e1.clear K))
      else
        some (w.set_slot i e1)

/-! ## Typed views of a page -/

/-- Conversion to `blocknum_t`, a 32-bit unsigned integer. -/
def blocknum (n : Nat) : Nat := n % 2 ^ 32

/-- The little-endian `uint32_t` stored at byte offset `o` of a page. -/
def read32 (bs : List Nat) (o : Nat) : Nat :=
  bs.getD o 0 % 256 + 256 * (bs.getD (o + 1) 0 % 256)
    + 65536 * (bs.getD (o + 2) 0 % 256) + 16777216 * (bs.getD (o + 3) 0 % 256)

/-- Store the `uint32_t` value `v` at byte offset `o` of a page. -/
def write32 (bs : List Nat) (o v : Nat) : List Nat :=
  (((bs.set o (v % 256)).set (o + 1) (v / 256 % 256)).set (o + 2) (v / 65536 % 256)).set
    (o + 3) (v / 16777216 % 256)

/-- A pointer to an inode inside a resident inode block: the page of the block
and the index of the inode in it (`ino += inum % inodesperblock`). -/
structure inode_ptr where
  page : Nat
  idx : Nat
deriving DecidableEq, Repr

/-- The `uint32_t` field at offset `fld` of the inode `ino` points to. -/
def ino_field (K : Geometry) (w : World) (ino : inode_ptr) (fld : Nat) : Nat :=
  read32 (w.mem ino.page) (ino.idx * K.inodesize + fld)

/-! ## Inodes -/

/-- The function `clean_inode_block(buf)`: `is[i].mlock = is[i].mref = 0` for every inode
of the block. -/
def clean_inode_block (K : Geometry) (buf : List Nat) : List Nat :=
  (List.range K.inodesperblock).foldl
    (fun b i => write32 (write32 b (i * K.inodesize + K.ino_mref) 0)
      (i * K.inodesize + K.ino_mlock) 0) buf

/-- Lines 190-197 of `get_inode`: fetch block 0, read `inode_bn` and `ninodes`
from the superblock, release block 0. The result is `none` when
`assert(superblock_data)` fails. -/
def read_superblock (K : Geometry) (disk : Nat → Nat) (w : World) :
    Option ((Nat × Nat) × World) :=
  match get_disk_block K disk w 0 Option.none with
  | some (some sbp, w1) =>
    let inode_bn := read32 (w1.mem sbp) (K.superblock_offset + K.sb_inode_bn)
    let ninodes := read32 (w1.mem sbp) (K.superblock_offset + K.sb_ninodes)
    (put_block K w1 (some sbp)).map (fun w2 => ((inode_bn, ninodes), w2))
  | _ => Option.none

/-- The function `chkfsstate::get_inode(inum)`. The inode block is fetched by
`bc.get_disk_block(inode_bn + inum / inodesperblock)`, with no cleaner
argument. -/
def get_inode (K : Geometry) (disk : Nat → Nat) (w : World) (inum : Nat) :
    Option (Option inode_ptr × World) :=
  match read_superblock K disk w with
  | Option.none => Option.none
  | some ((inode_bn, ninodes), w2) =>
    if 0 < inum ∧ inum < ninodes then
      match get_disk_block K disk w2 (blocknum (inode_bn + inum / K.inodesperblock))
          Option.none with
      | Option.none => Option.none
      | some (Option.none, w3) => some (Option.none, w3)
      | some (some p, w3) => some (some ⟨p, inum % K.inodesperblock⟩, w3)
    else
      some (Option.none, w2)

/-- The function `chkfsstate::put_inode(ino)`: `ROUNDDOWN(ino, PAGESIZE)` is the page
the inode lies in. -/
def put_inode (K : Geometry) (w : World) (ino : Option inode_ptr) : Option World :=
  match ino with
  | Option.none => some w
  | some i => put_block K w (some i.page)

/-- Lines 229-255 of `get_data_page`: the data block number `databn` for byte
offset `off` of inode `ino`. The result is `none` when an assertion fails. -/
def get_data_page_databn (K : Geometry) (disk : Nat → Nat) (w : World) (ino : inode_ptr)
    (off : Nat) : Option (Nat × World) :=
  let bi := (off / K.blocksize) % 2 ^ 32
  if ino_field K w ino K.ino_size ≤ off then
    some (0, w)
  else if bi < K.ndirect then
    some (ino_field K w ino (K.ino_direct + 4 * bi), w)
  else if bi < K.ndirect + K.nindirect then
    match get_disk_block K disk w (ino_field K w ino K.ino_indirect) Option.none with
    | some (some indirect_data, w1) =>
      let databn := read32 (w1.mem indirect_data) (4 * (bi - K.ndirect))
      (put_block K w1 (some indirect_data)).map (fun w2 => (databn, w2))
    | _ => Option.none
  else
    match get_disk_block K disk w (ino_field K w ino K.ino_indirect2) Option.none with
    | some (some indirect2_data, w1) =>
      let bi2 := bi - (K.ndirect + K.nindirect)
      let databn := read32 (w1.mem indirect2_data) (4 * (bi2 / K.nindirect))
      match get_disk_block K disk w1 databn Option.none with
      | some (some indirect_data, w2) =>
        let databn := read32 (w2.mem indirect_data) (4 * (bi2 % K.nindirect))
        match put_block K w2 (some indirect_data) with
        | some w3 => (put_block K w3 (some indirect2_data)).map (fun w4 => (databn, w4))
        | Option.none => Option.none
      | _ => Option.none
    | _ => Option.none

/-- The function `chkfsstate::get_data_page(ino, off, n_valid_bytes)`: the returned
page and the value stored in `*n_valid_bytes`. The result is `none` when an
assertion fails. -/
def get_data_page (K : Geometry) (disk : Nat → Nat) (w : World) (ino : inode_ptr)
    (off : Nat) : Option ((Option Nat × Nat) × World) :=
  if off % K.blocksize ≠ 0 then Option.none
  else
    match get_data_page_databn K disk w ino off with
    | Option.none => Option.none
    | some (databn, w1) =>
      match (if databn ≠ 0 then get_disk_block K disk w1 databn Option.none
             else some (Option.none, w1)) with
      | Option.none => Option.none
      | some (data, w2) =>
        let size := ino_field K w2 ino K.ino_size
        let n :=
          if data.isSome ∧ size > off + K.blocksize then K.blocksize
          else if data.isSome then size - off
          else 0
        some ((data, n), w2)

/-! ## Invariants and observations -/

/-- Invariant I1: at most one slot with `ref > 0` holds any given block number. -/
def I1 (w : World) : Prop :=
  ∀ (i j : Nat) (e1 e2 : bufentry), w.e_[i]? = some e1 → w.e_[j]? = some e2 →
    e1.ref_ ≠ 0 → e2.ref_ ≠ 0 → e1.bn_ = e2.bn_ → i = j

/-- Invariant I2: a slot with `ref == 0` has no buffer and clear flags. -/
def I2 (w : World) : Prop :=
  ∀ e ∈ w.e_, e.ref_ = 0 → e.buf_ = Option.none ∧ e.flags_ = bufflags.none

/-- A slot at rest: unreferenced and clear, or referenced and loaded. -/
def slot_ok (e : bufentry) : Prop :=
  if e.ref_ = 0 then e.buf_ = Option.none ∧ e.flags_ = bufflags.none
  else (∃ p, e.buf_ = some p) ∧ e.flags_ = ⟨false, true⟩

/-- A well-formed state between calls: I1, every slot at rest, no page in two
slots, and the allocator's free pages distinct and in no slot. -/
def WF (w : World) : Prop :=
  I1 w ∧ (∀ e ∈ w.e_, slot_ok e) ∧
  (∀ (i j : Nat) (e1 e2 : bufentry) (p : Nat), w.e_[i]? = some e1 → w.e_[j]? = some e2 →
    e1.buf_ = some p → e2.buf_ = some p → i = j) ∧
  w.free.Nodup ∧ (∀ e ∈ w.e_, ∀ p, e.buf_ = some p → p ∉ w.free)

/-- The slot the cache finds for block `bn`: the first slot with `ref_ != 0` and
`bn_ == bn`, as in the first loop of `get_disk_block`. -/
def World.slot_of (w : World) (bn : Nat) : Option bufentry :=
  w.e_.find? (fun e => e.ref_ != 0 && e.bn_ == bn)

/-- The number of references held on block `bn`: the `ref_` of its slot, 0 when
the block is not resident. -/
def World.refs (w : World) (bn : Nat) : Nat :=
  match w.slot_of bn with
  | some e => e.ref_
  | Option.none => 0

/-- The number of references held on the buffer at page `p`, over all slots. -/
def World.page_refs (w : World) (p : Nat) : Nat :=
  (w.e_.map (fun e => if e.buf_ = some p then e.ref_ else 0)).sum

/-- The number of slots with `ref == 0`. -/
def World.nfree (w : World) : Nat :=
  (w.e_.map (fun e => if e.ref_ = 0 then 1 else 0)).sum

/-- Block `bn` is resident in page `p`. -/
def World.holds (w : World) (bn p : Nat) : Prop :=
  ∃ e, w.slot_of bn = some e ∧ e.buf_ = some p

/-- Page `p` is the buffer of a resident block. -/
def World.pinned (w : World) (p : Nat) : Prop := ∃ bn, w.holds bn p

/-- Block `bn` as the cache presents it: the resident buffer when the block is
resident, the bytes on disk otherwise (what a fetch would load). -/
def cached_block (K : Geometry) (disk : Nat → Nat) (w : World) (bn : Nat) : List Nat :=
  match w.slot_of bn with
  | some e =>
    match e.buf_ with
    | some p => w.mem p
    | Option.none => disk_bytes disk K.blocksize (bn * K.blocksize)
  | Option.none => disk_bytes disk K.blocksize (bn * K.blocksize)

/-- Two states with the same cache contents: the same slot for every block, the
same number of free slots, the same free pages and the same bytes in every
pinned page. -/
def Same (w w1 : World) : Prop :=
  (∀ b : Nat, w1.slot_of b = w.slot_of b) ∧ w1.nfree = w.nfree ∧ w1.free = w.free ∧
  (∀ q : Nat, w.pinned q → w1.mem q = w.mem q)

/-- A fetch of block `bn` can succeed: the block is resident, or there is a free
slot and a free page. -/
def can_fetch (w : World) (bn : Nat) : Prop :=
  (∃ e ∈ w.e_, e.ref_ ≠ 0 ∧ e.bn_ = bn) ∨ ((∃ e ∈ w.e_, e.ref_ = 0) ∧ w.free ≠ [])

/-! ## Sequences of cache operations -/

/-- A call to the cache. -/
inductive Op where
  | get (bn : Nat) (cleaner : Option (List Nat → List Nat))
  | put (p : Nat)

/-- Run a sequence of calls; the result carries the final state, the non-null
pointers the `get`s returned and the pointers that were `put`. It is `none`
when a call does not return or a `put` fails its assertion. -/
def run (K : Geometry) (disk : Nat → Nat) : World → List Op → Option (World × List Nat × List Nat)
  | w, [] => some (w, [], [])
  | w, Op.get bn c :: ops =>
    match get_disk_block K disk w bn c with
    | Option.none => Option.none
    | some (r, w1) =>
      (run K disk w1 ops).map (fun t => (t.1, r.toList ++ t.2.1, t.2.2))
  | w, Op.put p :: ops =>
    match put_block K w (some p) with
    | Option.none => Option.none
    | some w1 => (run K disk w1 ops).map (fun t => (t.1, t.2.1, p :: t.2.2))

/-- The states the cache reaches from the empty cache by `get` and `put`. -/
inductive Reachable (K : Geometry) (disk : Nat → Nat) : World → Prop where
  | init (ne : Nat) (mem : Nat → List Nat) (free : List Nat) :
      Reachable K disk ⟨empty_cache K ne, mem, free, []⟩
  | get (w : World) (bn : Nat) (c : Option (List Nat → List Nat)) (r : Option Nat) (w1 : World) :
      Reachable K disk w → get_disk_block K disk w bn c = some (r, w1) → Reachable K disk w1
  | put (w : World) (p : Nat) (w1 : World) :
      Reachable K disk w → put_block K w (some p) = some w1 → Reachable K disk w1

/-- The call `put_block(p)`, `n` times in a row. -/
def put_n (K : Geometry) (w : World) (p : Nat) : Nat → Option World
  | 0 => some w
  | n + 1 => (put_block K w (some p)).bind (fun w1 => put_n K w1 p n)

/-! ## A small disk image for concrete evaluation -/

/-- A small geometry: 64-byte blocks (16 block numbers per indirect block), one
direct block number per inode, two 24-byte inodes per block; the superblock at
the start of block 0 with `ninodes` at offset 0 and `inode_bn` at offset 4; an
inode laid out as `size, mlock, mref, direct[1], indirect, indirect2`. -/
def K0 : Geometry :=
  { blocksize := 64, ndirect := 1, inodesperblock := 2, inodesize := 24,
    superblock_offset := 0, sb_ninodes := 0, sb_inode_bn := 4,
    ino_size := 0, ino_mlock := 4, ino_mref := 8, ino_direct := 12,
    ino_indirect := 16, ino_indirect2 := 20, emptyblock := 4294967295 }

/-- A disk given by the bytes that are not zero. -/
def disk_of (tbl : List (Nat × Nat)) : Nat → Nat :=
  fun k => (tbl.lookup k).getD 0

/-- A disk image for `K0`: the superblock (block 0) has `ninodes = 4` and
`inode_bn = 1`; inode 1 (block 1, index 1, byte 88) has `size = 1200`,
`mlock = 7`, `mref = 9`, `direct[0] = 5`, `indirect = 6`, `indirect2 = 7`; the
indirect block 6 has entry 2 equal to 9; the double-indirect block 7 has entry
0 equal to 8, and block 8 has entry 1 equal to 10. -/
def disk0 : Nat → Nat :=
  disk_of [(0, 4), (4, 1),
    (88, 176), (89, 4), (92, 7), (96, 9), (100, 5), (104, 6), (108, 7),
    (6 * 64 + 8, 9), (7 * 64, 8), (8 * 64 + 4, 10), (5 * 64, 104), (5 * 64 + 1, 105)]

/-- A cache of `ne` slots before its first use, with the free pages `free`. -/
def boot (K : Geometry) (ne : Nat) (free : List Nat) : World :=
  ⟨empty_cache K ne, fun _ => [], free, []⟩

/-! ## States after a call -/

/-- The bytes a load installs: the block read from disk, with the cleaner applied
when there is one. -/
def apply_cleaner (cleaner : Option (List Nat → List Nat)) (bytes : List Nat) : List Nat :=
  match cleaner with
  | Option.none => bytes
  | some f => f bytes

/-- The state after block `bn` was loaded into slot `i` through the free page
`x`: the slot (whose entry was `e` when the loop began) is loaded with buffer
`x`. -/
def loaded_world (K : Geometry) (disk : Nat → Nat) (c : Option (List Nat → List Nat))
    (w : World) (bn i : Nat) (e : bufentry) (x : Nat) (rest : List Nat) : World :=
  { e_ := w.e_.set i { e with flags_ := ⟨false, true⟩, buf_ := some x },
    mem := Function.update w.mem x
      (apply_cleaner c (disk_bytes disk K.blocksize (bn * K.blocksize))),
    free := rest,
    events := w.events ++ [Event.kalloc (some x), Event.disk_read (bn * K.blocksize)] }

/-- The state after `get_disk_block` found block `bn` resident in slot `i`
(entry `e`): one more reference on the slot. -/
def hit_world (w : World) (i : Nat) (e : bufentry) : World :=
  { w with e_ := w.e_.set i { e with ref_ := e.ref_ + 1 } }

/-- The state after `get_disk_block` claimed slot `j` (entry `e`) for block `bn`
and loaded it through the free page `x`. -/
def miss_world (K : Geometry) (disk : Nat → Nat) (c : Option (List Nat → List Nat))
    (w : World) (bn j : Nat) (e : bufentry) (x : Nat) (rest : List Nat) : World :=
  { e_ := w.e_.set j ⟨bn, e.ref_ + 1, ⟨false, true⟩, some x⟩,
    mem := Function.update w.mem x
      (apply_cleaner c (disk_bytes disk K.blocksize (bn * K.blocksize))),
    free := rest,
    events := w.events ++ [Event.kalloc (some x), Event.disk_read (bn * K.blocksize)] }

/-- The state after `get_disk_block` claimed slot `j` (entry `e`) for block `bn`
and `kalloc` returned `nullptr`. -/
def leak_world (w : World) (bn j : Nat) (e : bufentry) : World :=
  { w with e_ := w.e_.set j { e with bn_ := bn, buf_ := Option.none, ref_ := e.ref_ + 1 },
           events := w.events ++ [Event.kalloc Option.none] }

/-- The state after `put_block` dropped one of several references on slot `i`
(entry `e`). -/
def dec_world (w : World) (i : Nat) (e : bufentry) : World :=
  { w with e_ := w.e_.set i { e with ref_ := e.ref_ - 1 } }

/-- The state after `put_block` dropped the last reference on slot `i`, whose
buffer was page `p`: the page is freed and the slot cleared. -/
def drop_world (K : Geometry) (w : World) (i p : Nat) : World :=
  { w with e_ := w.e_.set i ⟨K.emptyblock, 0, bufflags.none, Option.none⟩,
           free := p :: w.free,
           events := w.events ++ [Event.kfree p] }

/-- The field `ninodes` of the superblock, read from block 0 as the cache presents it. -/
def superblock_ninodes (K : Geometry) (disk : Nat → Nat) (w : World) : Nat :=
  read32 (cached_block K disk w 0) (K.superblock_offset + K.sb_ninodes)

/-- The field `inode_bn` of the superblock, read from block 0 as the cache presents it. -/
def superblock_inode_bn (K : Geometry) (disk : Nat → Nat) (w : World) : Nat :=
  read32 (cached_block K disk w 0) (K.superblock_offset + K.sb_inode_bn)

/-- The block of inode `inum`: `inode_bn + inum / inodesperblock` as a block number. -/
def inode_block (K : Geometry) (disk : Nat → Nat) (w : World) (inum : Nat) : Nat :=
  blocknum (superblock_inode_bn K disk w + inum / K.inodesperblock)

/-- The address map of the spec, for byte offset `off` of inode `ino`: with
`bi = off / B`, `direct[bi]` when `bi < Nd`; entry `bi - Nd` of block
`ino->indirect` when `Nd ≤ bi < Nd + Ni`; otherwise entry
`(bi - Nd - Ni) mod Ni` of the block named by entry `(bi - Nd - Ni) / Ni` of
block `ino->indirect2`. Blocks are read as the cache presents them. -/
def address_map (K : Geometry) (disk : Nat → Nat) (w : World) (ino : inode_ptr) (off : Nat) :
    Nat :=
  let bi := off / K.blocksize
  if bi < K.ndirect then
    ino_field K w ino (K.ino_direct + 4 * bi)
  else if bi < K.ndirect + K.nindirect then
    read32 (cached_block K disk w (ino_field K w ino K.ino_indirect)) (4 * (bi - K.ndirect))
  else
    read32
      (cached_block K disk w
        (read32 (cached_block K disk w (ino_field K w ino K.ino_indirect2))
          (4 * ((bi - K.ndirect - K.nindirect) / K.nindirect))))
      (4 * ((bi - K.ndirect - K.nindirect) % K.nindirect))

/-- A cache of three slots before its first use, with three free pages. -/
def state0 : World := boot K0 3 [100, 200, 300]

/-- The state `state0` after `get_disk_block(1)`: the inode block 1 is resident in page
100 with one reference. -/
def state1 : World :=
  miss_world K0 disk0 Option.none state0 1 0 ⟨K0.emptyblock, 0, bufflags.none, Option.none⟩
    100 [200, 300]

/-- Inode 1 of `disk0` in `state1`: index 1 of the page of block 1. -/
def ino1 : inode_ptr := ⟨100, 1⟩

/-- A cache of one slot, which holds block 5 in page 100 with two references. -/
def state_full : World :=
  ⟨[⟨5, 2, ⟨false, true⟩, some 100⟩], fun _ => [], [], []⟩

/-- A matched sequence of calls: block 5 twice, block 6 once, each page put back
as often as it was returned. -/
def ops0 : List Op :=
  [Op.get 5 Option.none, Op.get 5 Option.none, Op.put 100, Op.get 6 (some (clean_inode_block K0)),
   Op.put 200, Op.put 100]

/-! ## The inode lock -/

/-- The value `uint32_t(-1)` of the lock word of a write-locked inode. -/
def MAX32 : Nat := 2 ^ 32 - 1

/-- The call `mlock.compare_exchange_weak(v, desired)` on the lock word `m`: whether it
succeeded, the lock word after it and the value of `v` after it. The exchange
succeeds only when `m == v`, and may fail although `m == v` (`weak_fail`); a
failed exchange stores the current word in `v`. -/
def compare_exchange_weak (m v desired : Nat) (weak_fail : Bool) : Bool × Nat × Nat :=
  if m = v ∧ weak_fail = false then (true, desired, v) else (false, m, m)

/-- How one pass through the loop of a lock function ends: the function returns, or
goes round again with the local variable `v`. -/
inductive Pass where
  | returned
  | again (v : Nat)
deriving DecidableEq, Repr

/-- One pass through the `while (1)` loop of `inode::lock_read()` with local value `v`
and lock word `m`: the outcome and the lock word after it. When
`v == uint32_t(-1)` the task yields and `v` keeps its value; otherwise the
exchange of `v` for `v + 1` is tried. -/
def lock_read_pass (v m : Nat) (weak_fail : Bool) : Pass × Nat :=
  if v = MAX32 then (Pass.again v, m)
  else
    match compare_exchange_weak m v ((v + 1) % 2 ^ 32) weak_fail with
    | (true, m1, _) => (Pass.returned, m1)
    | (false, m1, v1) => (Pass.again v1, m1)

/-- One pass through the loop of `inode::unlock_read()`: the exchange of `v` for
`v - 1` (in 32 bits). -/
def unlock_read_pass (v m : Nat) (weak_fail : Bool) : Pass × Nat :=
  match compare_exchange_weak m v ((v + 2 ^ 32 - 1) % 2 ^ 32) weak_fail with
  | (true, m1, _) => (Pass.returned, m1)
  | (false, m1, v1) => (Pass.again v1, m1)

/-- One pass through the loop of `inode::lock_write()`: the exchange of 0 for
`uint32_t(-1)`; after a failure the task yields and sets `v = 0`. -/
def lock_write_pass (m : Nat) (weak_fail : Bool) : Pass × Nat :=
  match compare_exchange_weak m 0 MAX32 weak_fail with
  | (true, m1, _) => (Pass.returned, m1)
  | (false, m1, _) => (Pass.again 0, m1)

/-- The function `inode::unlock_write()`: the lock word after `mlock.store(0)`; `none`
when the assertion `mlock == uint32_t(-1)` fails. -/
def unlock_write_store (m : Nat) : Option Nat :=
  if m = MAX32 then some 0 else Option.none

/-- The loop of `inode::lock_read()` from local value `v` and lock word `m`, while no
other task writes the word and no exchange fails spuriously: the lock word
when the function returns, `none` when it has not returned after `fuel`
passes. -/
def lock_read_loop : Nat → Nat → Nat → Option Nat
  | 0, _, _ => Option.none
  | fuel + 1, v, m =>
    match lock_read_pass v m false with
    | (Pass.returned, m1) => some m1
    | (Pass.again v1, m1) => lock_read_loop fuel v1 m1

/-- The loop of `inode::unlock_read()`, likewise. -/
def unlock_read_loop : Nat → Nat → Nat → Option Nat
  | 0, _, _ => Option.none
  | fuel + 1, v, m =>
    match unlock_read_pass v m false with
    | (Pass.returned, m1) => some m1
    | (Pass.again v1, m1) => unlock_read_loop fuel v1 m1

/-- Store the `uint32_t` value `v` in the field at offset `fld` of the inode `ino`
points to. -/
def store_field (K : Geometry) (w : World) (ino : inode_ptr) (fld v : Nat) : World :=
  { w with
    mem := Function.update w.mem ino.page
      (write32 (w.mem ino.page) (ino.idx * K.inodesize + fld) v) }

/-- The function `inode::lock_read()` on the inode `ino` points to, run without
interference: `v = mlock.load()`, then the loop. One pass decides: the
exchange succeeds, or `v == uint32_t(-1)` and the function never returns
(`none`). -/
def lock_read (K : Geometry) (w : World) (ino : inode_ptr) : Option World :=
  let v := ino_field K w ino K.ino_mlock
  (lock_read_loop 1 v v).map (fun m1 => store_field K w ino K.ino_mlock m1)

/-- The function `inode::unlock_read()` on the inode `ino` points to, run without
interference; `none` when `assert(v != 0 && v != uint32_t(-1))` fails. -/
def unlock_read (K : Geometry) (w : World) (ino : inode_ptr) : Option World :=
  let v := ino_field K w ino K.ino_mlock
  if v = 0 ∨ v = MAX32 then Option.none
  else (unlock_read_loop 1 v v).map (fun m1 => store_field K w ino K.ino_mlock m1)

/-! ## The last branch of `get_data_page` -/

/-- The index at which `get_data_page` reads the double-indirect block:
`bi / nindirect` after `bi -= ndirect + nindirect`, for `bi = off / blocksize`
as an `unsigned`. -/
def outer_index (K : Geometry) (off : Nat) : Nat :=
  ((off / K.blocksize) % 2 ^ 32 - (K.ndirect + K.nindirect)) / K.nindirect

/-- The call `get_data_page(ino, off)` takes its last branch, which reads the
double-indirect block: `off < size` and `bi` is below neither `ndirect` nor
`ndirect + nindirect`. -/
def reads_indirect2 (K : Geometry) (w : World) (ino : inode_ptr) (off : Nat) : Prop :=
  ¬ ino_field K w ino K.ino_size ≤ off ∧ ¬ (off / K.blocksize) % 2 ^ 32 < K.ndirect ∧
  ¬ (off / K.blocksize) % 2 ^ 32 < K.ndirect + K.nindirect

instance (K : Geometry) (w : World) (ino : inode_ptr) (off : Nat) :
    Decidable (reads_indirect2 K w ino off) := by
  unfold reads_indirect2; infer_instance

/-! ## Directories and file reads -/

/-- Modelled from the spec: the layout of `chickadeefs::dirent`, a packed record of
`inum` and `name[N]`. The header that declares it is not part of the sources
at hand, so `sizeof(dirent)`, the offsets of the two fields and the size `N` of
the name field are parameters. -/
structure DirentLayout where
  direntsize : Nat
  de_inum : Nat
  de_name : Nat
  namesize : Nat

/-- The test `strcmp(s, t) == 0` on the bytes `s` and `t` that memory holds from the
two pointers on: the bytes are compared as `unsigned char`, pair by pair, up to
the first pair that differs or the NUL that ends both strings. The result is
`none` when the comparison runs past the bytes given: the embedding does not
say what lies behind the end of a page or of the buffer of `filename`. -/
def strcmp_eq : List Nat → List Nat → Option Bool
  | [], _ => Option.none
  | _ :: _, [] => Option.none
  | a :: s, b :: t =>
    if a % 256 ≠ b % 256 then some false
    else if a % 256 = 0 then some true
    else strcmp_eq s t

/-- The inner loop of `lookup`, from entry `i` of the directory page: the value of
`in` when the loop ends. Entry `i` is examined when `i * sizeof(*dirent) < bsz`;
`strcmp` is called on the bytes of the page from `dirent->name` on, and only
when `dirent->inum` is not 0. The fuel counts iterations; `none` stands for a
loop that has not ended or a `strcmp` that runs past the page. -/
def scan_dirents (D : DirentLayout) (page : List Nat) (bsz : Nat) (filename : List Nat) :
    Nat → Nat → Option Nat
  | 0, _ => Option.none
  | fuel + 1, i =>
    if i * D.direntsize < bsz then
      if read32 page (i * D.direntsize + D.de_inum) ≠ 0 then
        match strcmp_eq (page.drop (i * D.direntsize + D.de_name)) filename with
        | Option.none => Option.none
        | some true => some (read32 page (i * D.direntsize + D.de_inum))
        | some false => scan_dirents D page bsz filename fuel (i + 1)
      else scan_dirents D page bsz filename fuel (i + 1)
    else some 0

/-- The outer loop of `chkfsstate::lookup(dirino, filename)` from directory offset
`diroff` (`in` is 0 when an iteration begins): the returned `in`. The bytes
`filename` are those memory holds from the pointer `filename` on. The fuel
counts iterations of the outer loop, and the inner loop gets `bsz + 1`
iterations, which is all it makes when `sizeof(*dirent)` is not 0; `none`
stands for a failed assertion, a loop that has not ended or a `strcmp` that
runs past the bytes given. -/
def lookup_loop (K : Geometry) (D : DirentLayout) (disk : Nat → Nat) (dirino : inode_ptr)
    (filename : List Nat) : Nat → Nat → World → Option (Nat × World)
  | 0, _, _ => Option.none
  | fuel + 1, diroff, w =>
    match get_data_page K disk w dirino diroff with
    | Option.none => Option.none
    | some ((Option.none, _), w1) => some (0, w1)
    | some ((some directory_data, bsz), w1) =>
      match scan_dirents D (w1.mem directory_data) bsz filename (bsz + 1) 0 with
      | Option.none => Option.none
      | some found =>
        match put_block K w1 (some directory_data) with
        | Option.none => Option.none
        | some w2 =>
          if found ≠ 0 then some (found, w2)
          else lookup_loop K D disk dirino filename fuel (diroff + K.blocksize) w2

/-- The function `chkfsstate::lookup(dirino, filename)`. -/
def lookup (K : Geometry) (D : DirentLayout) (disk : Nat → Nat) (fuel : Nat) (w : World)
    (dirino : inode_ptr) (filename : List Nat) : Option (Nat × World) :=
  lookup_loop K D disk dirino filename fuel 0 w

/-- The call `memcpy(dst + pos, src, n)` for the `n` bytes `src`: the buffer `dst`
after it. -/
def memcpy (dst : List Nat) (pos : Nat) (src : List Nat) : List Nat :=
  dst.take pos ++ src ++ dst.drop (pos + src.length)

/-- The `while (sz > 0 && ino)` loop of `chickadeefs_read_file_data` for a non-null
`ino`: the final `nread` and the buffer. The fuel counts iterations. -/
def read_loop (K : Geometry) (disk : Nat → Nat) (ino : inode_ptr) :
    Nat → Nat → Nat → Nat → List Nat → World → Option ((Nat × List Nat) × World)
  | 0, _, _, _, _, _ => Option.none
  | fuel + 1, sz, off, nread, buf, w =>
    if sz = 0 then some ((nread, buf), w)
    else
      let blockoff := off - off % K.blocksize
      match get_data_page K disk w ino blockoff with
      | Option.none => Option.none
      | some ((Option.none, _), w1) => some ((nread, buf), w1)
      | some ((some data, bsz), w1) =>
        let boff := off - blockoff
        let ncopy := if bsz > boff then min (bsz - boff) sz else 0
        let buf1 := if bsz > boff then memcpy buf nread (((w1.mem data).drop boff).take ncopy)
                    else buf
        match put_block K w1 (some data) with
        | Option.none => Option.none
        | some w2 =>
          if ncopy = 0 then some ((nread, buf1), w2)
          else read_loop K disk ino fuel (sz - ncopy) (off + ncopy) (nread + ncopy) buf1 w2

/-- Lines 320-322 of `chickadeefs_read_file_data`: `get_inode(1)`, the assertion and
`lock_read()` on the root directory's inode. -/
def lock_root (K : Geometry) (disk : Nat → Nat) (w : World) : Option (inode_ptr × World) :=
  match get_inode K disk w 1 with
  | some (some dirino, w1) => (lock_read K w1 dirino).map (fun w2 => (dirino, w2))
  | _ => Option.none

/-- Lines 320-330 of `chickadeefs_read_file_data`: the root directory is locked and
searched for `filename`, unlocked and released, and the inode the search
names is fetched. -/
def open_file (K : Geometry) (D : DirentLayout) (disk : Nat → Nat) (fuel : Nat) (w : World)
    (filename : List Nat) : Option (Option inode_ptr × World) :=
  match lock_root K disk w with
  | Option.none => Option.none
  | some (dirino, w2) =>
    match lookup K D disk fuel w2 dirino filename with
    | Option.none => Option.none
    | some (inum, w3) =>
      match unlock_read K w3 dirino with
      | Option.none => Option.none
      | some w4 =>
        match put_inode K w4 (some dirino) with
        | Option.none => Option.none
        | some w5 => get_inode K disk w5 inum

/-- Lines 331-370 of `chickadeefs_read_file_data` for a non-null `ino`: the inode is
read-locked, the loop copies, the inode is unlocked and released. -/
def read_inode (K : Geometry) (disk : Nat → Nat) (fuel : Nat) (w : World) (ino : inode_ptr)
    (buf : List Nat) (sz off : Nat) : Option ((Nat × List Nat) × World) :=
  match lock_read K w ino with
  | Option.none => Option.none
  | some w1 =>
    match read_loop K disk ino fuel sz off 0 buf w1 with
    | Option.none => Option.none
    | some (r, w2) =>
      match unlock_read K w2 ino with
      | Option.none => Option.none
      | some w3 => (put_inode K w3 (some ino)).map (fun w4 => (r, w4))

/-- The function `chickadeefs_read_file_data(filename, buf, sz, off)`: the returned
`nread` and the buffer `buf` after the call. The fuel bounds the iterations of
each loop. -/
def chickadeefs_read_file_data (K : Geometry) (D : DirentLayout) (disk : Nat → Nat)
    (fuel : Nat) (w : World) (filename : List Nat) (buf : List Nat) (sz off : Nat) :
    Option ((Nat × List Nat) × World) :=
  match open_file K D disk fuel w filename with
  | Option.none => Option.none
  | some (Option.none, w1) => some ((0, buf), w1)
  | some (some ino, w1) => read_inode K disk fuel w1 ino buf sz off

/-! ## Files and directories as the cache presents them -/

/-- The fetches `get_data_page(ino, off)` makes can succeed: for `off < size`, the
fetch of `ino->indirect` in the single-indirect range; in the double-indirect
range the fetch of `ino->indirect2` and, in the state that fetch leaves, the
fetch of the block its selected entry names; and the fetch of the data block
when its number is not 0. -/
def page_fetch_ok (K : Geometry) (disk : Nat → Nat) (w : World) (ino : inode_ptr) (off : Nat) :
    Prop :=
  off < ino_field K w ino K.ino_size →
    (K.ndirect ≤ off / K.blocksize → off / K.blocksize < K.ndirect + K.nindirect →
      can_fetch w (ino_field K w ino K.ino_indirect)) ∧
    (K.ndirect + K.nindirect ≤ off / K.blocksize →
      can_fetch w (ino_field K w ino K.ino_indirect2) ∧
      ∀ (p : Nat) (w1 : World),
        get_disk_block K disk w (ino_field K w ino K.ino_indirect2) Option.none
          = some (some p, w1) →
        can_fetch w1 (read32 (cached_block K disk w (ino_field K w ino K.ino_indirect2))
          (4 * ((off / K.blocksize - K.ndirect - K.nindirect) / K.nindirect)))) ∧
    (address_map K disk w ino off ≠ 0 → can_fetch w (address_map K disk w ino off))

/-- The translation of byte offset `off` of inode `ino` meets no hole before the
data block number and stays in range: in the single-indirect range
`ino->indirect` is not 0; in the double-indirect range the block index is
below `Nd + Ni + Ni*Ni`, and neither `ino->indirect2` nor the entry of the
double-indirect block it selects is 0. -/
def path_ok (K : Geometry) (disk : Nat → Nat) (w : World) (ino : inode_ptr) (off : Nat) : Prop :=
  (K.ndirect ≤ off / K.blocksize → off / K.blocksize < K.ndirect + K.nindirect →
    ino_field K w ino K.ino_indirect ≠ 0) ∧
  (K.ndirect + K.nindirect ≤ off / K.blocksize →
    off / K.blocksize < K.ndirect + K.nindirect + K.nindirect * K.nindirect ∧
    ino_field K w ino K.ino_indirect2 ≠ 0 ∧
    read32 (cached_block K disk w (ino_field K w ino K.ino_indirect2))
      (4 * ((off / K.blocksize - K.ndirect - K.nindirect) / K.nindirect)) ≠ 0)

instance (K : Geometry) (disk : Nat → Nat) (w : World) (ino : inode_ptr) (off : Nat) :
    Decidable (path_ok K disk w ino off) := by
  unfold path_ok; infer_instance

/-- The data block number of the spec for byte offset `off` of inode `ino`, with 0
for a hole. It follows the address map of the spec ("`bi < Nd` → `direct[bi]`;
`Nd ≤ bi < Nd+Ni` → single-indirect block entry `bi − Nd`;
`Nd+Ni ≤ bi < Nd + Ni + Ni*Ni` → double-indirect: outer entry `(bi−Nd−Ni)/Ni`,
inner entry `(bi−Nd−Ni) mod Ni`; above that → out of range") and its rule that
"a block number of 0 denotes a hole", which holds of `indirect`, of `indirect2`
and of an outer entry as it does of a data block number: behind a block number
0 there is no block. Blocks are read as the cache presents them. -/
def spec_block (K : Geometry) (disk : Nat → Nat) (w : World) (ino : inode_ptr) (off : Nat) :
    Nat :=
  if off / K.blocksize < K.ndirect then
    ino_field K w ino (K.ino_direct + 4 * (off / K.blocksize))
  else if off / K.blocksize < K.ndirect + K.nindirect then
    if ino_field K w ino K.ino_indirect = 0 then 0
    else read32 (cached_block K disk w (ino_field K w ino K.ino_indirect))
      (4 * (off / K.blocksize - K.ndirect))
  else if off / K.blocksize < K.ndirect + K.nindirect + K.nindirect * K.nindirect then
    if ino_field K w ino K.ino_indirect2 = 0 then 0
    else if read32 (cached_block K disk w (ino_field K w ino K.ino_indirect2))
        (4 * ((off / K.blocksize - K.ndirect - K.nindirect) / K.nindirect)) = 0 then 0
    else read32
      (cached_block K disk w
        (read32 (cached_block K disk w (ino_field K w ino K.ino_indirect2))
          (4 * ((off / K.blocksize - K.ndirect - K.nindirect) / K.nindirect))))
      (4 * ((off / K.blocksize - K.ndirect - K.nindirect) % K.nindirect))
  else 0

/-- From logical block `k0` of inode `ino` up to and including its first hole, and
before the end of the file, no translation meets a zero index block number or
an index out of range (`path_ok`): only a data block number is 0 at a hole. -/
def paths_ok (K : Geometry) (disk : Nat → Nat) (w : World) (ino : inode_ptr) (k0 : Nat) : Prop :=
  ∀ k : Nat, k0 ≤ k → k * K.blocksize < ino_field K w ino K.ino_size →
    (∀ j : Nat, k0 ≤ j → j < k → spec_block K disk w ino (j * K.blocksize) ≠ 0) →
    path_ok K disk w ino (k * K.blocksize)

/-- The data page of logical block `k` of inode `ino` with its count of valid
bytes, `min(B, size - k*B)`; there is none past the end of the file and at a
hole. -/
def page_at (K : Geometry) (disk : Nat → Nat) (w : World) (ino : inode_ptr) (k : Nat) :
    Option (List Nat × Nat) :=
  if k * K.blocksize < ino_field K w ino K.ino_size ∧
      spec_block K disk w ino (k * K.blocksize) ≠ 0 then
    some (cached_block K disk w (spec_block K disk w ino (k * K.blocksize)),
      min K.blocksize (ino_field K w ino K.ino_size - k * K.blocksize))
  else Option.none

/-- The data pages of at most `n` logical blocks from block `k` on, up to the first
hole or the end of the file. -/
def file_pages (K : Geometry) (disk : Nat → Nat) (w : World) (ino : inode_ptr) :
    Nat → Nat → List (List Nat × Nat)
  | 0, _ => []
  | n + 1, k =>
    match page_at K disk w ino k with
    | Option.none => []
    | some pg => pg :: file_pages K disk w ino n (k + 1)

/-- The name of entry `i` of a directory page: the bytes of its name field
`name[N]` up to the first NUL ("C-string equality, truncated to the fixed field
size"). -/
def entry_name (D : DirentLayout) (page : List Nat) (i : Nat) : List Nat :=
  (((page.drop (i * D.direntsize + D.de_name)).take D.namesize).map (fun b => b % 256)).takeWhile
    (fun b => b != 0)

/-- The name field of entry `i` of a directory page holds a C string: one of its `N`
bytes is NUL, and lies inside the page. -/
def name_ends (D : DirentLayout) (page : List Nat) (i : Nat) : Prop :=
  ∃ j : Nat, j < D.namesize ∧
    (i * D.direntsize + D.de_name + j < page.length ∧
      page.getD (i * D.direntsize + D.de_name + j) 0 % 256 = 0)

instance (D : DirentLayout) (page : List Nat) (i : Nat) : Decidable (name_ends D page i) := by
  unfold name_ends; infer_instance

/-- The directory entries of a page in byte order, as pairs of `inum` and name: the
entries that begin among the valid bytes. -/
def dirents_of (D : DirentLayout) (pg : List Nat × Nat) : List (Nat × List Nat) :=
  ((List.range pg.2).filter (fun i => decide (i * D.direntsize < pg.2))).map
    (fun i => (read32 pg.1 (i * D.direntsize + D.de_inum), entry_name D pg.1 i))

/-- The first entry of a list of directory entries whose `inum` is not 0 and whose
name is `name`: its `inum`, or 0 when there is none. -/
def first_match (es : List (Nat × List Nat)) (name : List Nat) : Nat :=
  match es.find? (fun e => e.1 != 0 && e.2 == name) with
  | some e => e.1
  | Option.none => 0

/-- The entries of directory `dirino` in byte order over its data blocks, up to the
first hole or the end of the file. -/
def dir_entries (K : Geometry) (D : DirentLayout) (disk : Nat → Nat) (w : World)
    (dirino : inode_ptr) : List (Nat × List Nat) :=
  ((file_pages K disk w dirino (ino_field K w dirino K.ino_size / K.blocksize + 1) 0).map
    (dirents_of D)).flatten

/-- What `lookup` is to return by the spec: the `inum` of the first entry of the
directory with a non-zero `inum` and the name `name`, 0 when there is none. -/
def lookup_spec (K : Geometry) (D : DirentLayout) (disk : Nat → Nat) (w : World)
    (dirino : inode_ptr) (name : List Nat) : Nat :=
  first_match (dir_entries K D disk w dirino) name

/-- Every entry in use (`inum != 0`) of a directory page holds a C string in its name
field. -/
def page_names_ok (D : DirentLayout) (pg : List Nat × Nat) : Prop :=
  ∀ i ∈ List.range pg.2, i * D.direntsize < pg.2 →
    read32 pg.1 (i * D.direntsize + D.de_inum) ≠ 0 → name_ends D pg.1 i

instance (D : DirentLayout) (pg : List Nat × Nat) : Decidable (page_names_ok D pg) := by
  unfold page_names_ok; infer_instance

/-- Every entry in use of directory `dirino`, over its data blocks up to the first
hole or the end of the file, holds a C string in its name field. -/
def names_ok (K : Geometry) (D : DirentLayout) (disk : Nat → Nat) (w : World)
    (dirino : inode_ptr) : Prop :=
  ∀ pg ∈ file_pages K disk w dirino (ino_field K w dirino K.ino_size / K.blocksize + 1) 0,
    page_names_ok D pg

instance (K : Geometry) (D : DirentLayout) (disk : Nat → Nat) (w : World) (dirino : inode_ptr) :
    Decidable (names_ok K D disk w dirino) := by
  unfold names_ok; infer_instance

/-- The first hole at or after logical block `k` and before the end of the file. -/
def first_hole (K : Geometry) (disk : Nat → Nat) (w : World) (ino : inode_ptr) (k : Nat) :
    Option Nat :=
  (List.range' k (ino_field K w ino K.ino_size / K.blocksize + 1 - k)).find?
    (fun h => decide (h * K.blocksize < ino_field K w ino K.ino_size) &&
      (spec_block K disk w ino (h * K.blocksize) == 0))

/-- The offset `E` at which a read that starts at `off` ends: `h * B` for the first
hole `h` at or after block `off / B` and before the end of the file, `size`
when there is no such hole. -/
def read_end (K : Geometry) (disk : Nat → Nat) (w : World) (ino : inode_ptr) (off : Nat) : Nat :=
  match first_hole K disk w ino (off / K.blocksize) with
  | some h => h * K.blocksize
  | Option.none => ino_field K w ino K.ino_size

/-- The byte at offset `x` of the file: byte `x mod B` of the data block of logical
block `x / B`. -/
def file_byte (K : Geometry) (disk : Nat → Nat) (w : World) (ino : inode_ptr) (x : Nat) : Nat :=
  (cached_block K disk w (spec_block K disk w ino x)).getD (x % K.blocksize) 0

/-- The `n` bytes of the file from offset `off` on. -/
def file_bytes (K : Geometry) (disk : Nat → Nat) (w : World) (ino : inode_ptr) (off n : Nat) :
    List Nat :=
  (List.range n).map (fun j => file_byte K disk w ino (off + j))

/-- Every pinned page holds `B` bytes. -/
def Bytes (K : Geometry) (w : World) : Prop :=
  ∀ q : Nat, w.pinned q → (w.mem q).length = K.blocksize ∧ ∀ x ∈ w.mem q, x < 256

/-- The `uint32_t` field at offset `fld` of inode `inum`, read from the inode's block
as the cache presents it. -/
def inode_word (K : Geometry) (disk : Nat → Nat) (w : World) (inum fld : Nat) : Nat :=
  read32 (cached_block K disk w (inode_block K disk w inum))
    (inum % K.inodesperblock * K.inodesize + fld)

/-- There are `n` free slots and `n` free pages. -/
def room (w : World) (n : Nat) : Prop := n ≤ w.nfree ∧ n ≤ w.free.length

/-! ## A disk image with a root directory -/

/-- A directory entry layout for `K0`: 16-byte entries, `inum` at offset 0 and a
12-byte `name` at offset 4. -/
def D0 : DirentLayout := { direntsize := 16, de_inum := 0, de_name := 4, namesize := 12 }

/-- A disk image for `K0` and `D0`. The superblock has `ninodes = 6` and
`inode_bn = 1`. Inode 1, the root directory, has `size = 80`, `direct[0] = 4`
and `indirect = 5`, and block 5 has entry 0 equal to 6: block 4 holds the
entries `(0, "b")`, `(2, "hi")`, `(3, "a")`, `(4, "big")` and block 6 the entry
`(5, "z")`. Inode 2 has `size = 100`, `mlock = 3`, `direct[0] = 7`,
`indirect = 8`, and block 8 has entry 0 equal to 9. Inode 3 has `size = 200`,
`direct[0] = 7` and `indirect = 0`. Inode 4 has `size = 20000`,
`direct[0] = 7`, `indirect = 8`, `indirect2 = 10`, and block 10 has entry 0
equal to 8. Inode 5 has `size = 130`, `direct[0] = 7`, `indirect = 11`, and
block 11 has entry 0 equal to 0 and entry 1 equal to 9. Byte `j` of block 7 is
`j + 1` and byte `j` of block 9 is `100 + j`. -/
def disk1 : Nat → Nat := fun k =>
  if 448 ≤ k ∧ k < 512 then k - 447
  else if 576 ≤ k ∧ k < 640 then k - 476
  else disk_of [(0, 6), (4, 1),
    (88, 80), (100, 4), (104, 5), (320, 6),
    (260, 98), (272, 2), (276, 104), (277, 105), (288, 3), (292, 97),
    (304, 4), (308, 98), (309, 105), (310, 103), (384, 5), (388, 122),
    (128, 100), (132, 3), (140, 7), (144, 8), (512, 9),
    (152, 200), (164, 7),
    (192, 32), (193, 78), (204, 7), (208, 8), (212, 10), (640, 8),
    (216, 130), (228, 7), (232, 11), (708, 9)] k

/-- A cache of four slots before its first use, with four free pages. -/
def state4 : World := boot K0 4 [100, 200, 300, 400]

/-- A geometry with 4096-byte blocks: 1024 block numbers per indirect block, nine
direct block numbers, 64 inodes of 64 bytes per block. -/
def K1 : Geometry :=
  { blocksize := 4096, ndirect := 9, inodesperblock := 64, inodesize := 64,
    superblock_offset := 512, sb_ninodes := 24, sb_inode_bn := 36,
    ino_size := 4, ino_mlock := 12, ino_mref := 16, ino_direct := 20,
    ino_indirect := 56, ino_indirect2 := 60, emptyblock := 4294967295 }

/-- A disk image for `K1`. The superblock has `ninodes = 8` and `inode_bn = 2`. Inode
1 (block 2, index 1, byte 8256) has `size = 5000000` and `indirect2 = 3`; block
3 has entry 0 equal to 4, and block 4 has entry 67 equal to 5. -/
def disk3 : Nat → Nat :=
  disk_of [(536, 8), (548, 2), (8260, 64), (8261, 75), (8262, 76), (8316, 3),
    (12288, 4), (16652, 5)]

/-- The state after `get_disk_block(2)` on the disk `disk3`, from a cache of three
slots and three free pages: the inode block 2 is resident in page 100 with one
reference. -/
def state6 : World :=
  miss_world K1 disk3 Option.none (boot K1 3 [100, 200, 300]) 2 0
    ⟨K1.emptyblock, 0, bufflags.none, Option.none⟩ 100 [200, 300]

/-- The state `state4` after `get_disk_block(1)` on the disk `disk1`: the block of the
root directory's inode is resident in page 100 with one reference. -/
def state5 : World :=
  miss_world K0 disk1 Option.none state4 1 0 ⟨K0.emptyblock, 0, bufflags.none, Option.none⟩
    100 [200, 300, 400]

/-- The root directory's inode (inode 1) in `state5`: index 1 of page 100. -/
def rootino : inode_ptr := ⟨100, 1⟩

/-- The number of bytes a read of `sz` bytes at offset `off` is to return by the
spec: `min(sz, E - off)` when `off < E`, 0 otherwise, for `E = read_end`. -/
def read_count (K : Geometry) (disk : Nat → Nat) (w : World) (ino : inode_ptr) (sz off : Nat) :
    Nat :=
  if off < read_end K disk w ino off then min sz (read_end K disk w ino off - off) else 0

/-- The disk image `disk1` with `indirect = 0` in inode 1, the root directory: the
directory keeps `size = 80` and `direct[0] = 4`, and its second block, of the
single-indirect range, is a hole. -/
def disk2 : Nat → Nat := fun k => if 104 ≤ k ∧ k < 108 then 0 else disk1 k

/-- The cache fetches `chickadeefs_read_file_data(filename, ...)` makes can succeed,
for a `filename` that points to the bytes of `name` and a NUL: the fetch of
block 0 and of the block of the root directory's inode; with that inode fetched
and read-locked, every fetch `get_data_page` makes for the directory; the fetch
of the block of the inode the directory names for `name`; and, with that inode
fetched and read-locked, every fetch `get_data_page` makes for the file. -/
def read_fetch_ok (K : Geometry) (D : DirentLayout) (disk : Nat → Nat) (fuel : Nat) (w : World)
    (name rest : List Nat) : Prop :=
  can_fetch w 0 ∧ can_fetch w (inode_block K disk w 1) ∧
  ∀ (dirino : inode_ptr) (w2 : World), lock_root K disk w = some (dirino, w2) →
    (∀ k : Nat, page_fetch_ok K disk w2 dirino (k * K.blocksize)) ∧
    can_fetch w (inode_block K disk w (lookup_spec K D disk w2 dirino name)) ∧
    ∀ (ino : inode_ptr) (w6 : World),
      open_file K D disk fuel w (name ++ 0 :: rest) = some (some ino, w6) →
      ∀ k : Nat, page_fetch_ok K disk
        (store_field K w6 ino K.ino_mlock (ino_field K w6 ino K.ino_mlock + 1)) ino
        (k * K.blocksize)

/-- No writer holds the lock of the root directory's inode or of the inode the
directory names for `name`, and their reader counts can grow by one: both lock
words, as the cache presents them, are below `uint32_t(-1) - 1`. -/
def read_locks_ok (K : Geometry) (D : DirentLayout) (disk : Nat → Nat) (w : World)
    (name : List Nat) : Prop :=
  inode_word K disk w 1 K.ino_mlock + 1 < MAX32 ∧
  ∀ (dirino : inode_ptr) (w2 : World), lock_root K disk w = some (dirino, w2) →
    inode_word K disk w (lookup_spec K D disk w2 dirino name) K.ino_mlock + 1 < MAX32

/-- The root directory and the file a read of `name` at offset `off` goes through meet
no zero index block number: with the root directory's inode fetched and
read-locked, `paths_ok` from block 0 and `names_ok` hold of the directory; and
with the file's inode fetched and read-locked, `paths_ok` holds of the file from
block `off / B`. -/
def read_paths_ok (K : Geometry) (D : DirentLayout) (disk : Nat → Nat) (fuel : Nat) (w : World)
    (name rest : List Nat) (off : Nat) : Prop :=
  ∀ (dirino : inode_ptr) (w2 : World), lock_root K disk w = some (dirino, w2) →
    paths_ok K disk w2 dirino 0 ∧ names_ok K D disk w2 dirino ∧
    ∀ (ino : inode_ptr) (w6 : World),
      open_file K D disk fuel w (name ++ 0 :: rest) = some (some ino, w6) →
      paths_ok K disk (store_field K w6 ino K.ino_mlock (ino_field K w6 ino K.ino_mlock + 1))
        ino (off / K.blocksize)

/-! # Theorems -/

/-! ## Index search -/

theorem lt_length_of_getElem? {α : Type} {l : List α} {i : Nat} {a : α} (h : l[i]? = some a) :
    i < l.length := by
  rcases Nat.lt_or_ge i l.length with h1 | h1
  · exact h1
  · rw [List.getElem?_eq_none h1] at h; cases h

theorem findIdx_sound {α : Type} (p : α → Bool) (l : List α) (i : Nat) (a : α)
    (hidx : l.findIdx p = i) (hi : l[i]? = some a) :
    p a = true ∧ ∀ (k : Nat) (b : α), k < i → l[k]? = some b → p b = false := by
  subst hidx
  refine ⟨List.findIdx_of_getElem?_eq_some hi, ?_⟩
  intro k b hk hb
  have h1 := List.not_of_lt_findIdx hk
  obtain ⟨h2, h3⟩ := List.getElem?_eq_some.mp hb
  rw [← h3]; exact h1

theorem findIdx_first {α : Type} (p : α → Bool) (l : List α) (i : Nat) (a : α)
    (hi : l[i]? = some a) (hp : p a = true)
    (hfirst : ∀ (k : Nat) (b : α), k < i → l[k]? = some b → p b = false) :
    l.findIdx p = i := by
  have hlt := lt_length_of_getElem? hi
  rw [List.findIdx_eq hlt]
  obtain ⟨h2, h3⟩ := List.getElem?_eq_some.mp hi
  refine ⟨by rw [h3]; exact hp, ?_⟩
  intro j hj
  exact hfirst j _ hj (List.getElem?_eq_getElem _)

theorem findIdx_none {α : Type} (p : α → Bool) (l : List α)
    (h : ∀ a ∈ l, p a = false) : l[l.findIdx p]? = Option.none := by
  rw [List.findIdx_eq_length.mpr h]; simp

theorem findIdx_some {α : Type} (p : α → Bool) (l : List α) (a : α) (ha : a ∈ l)
    (hp : p a = true) : ∃ b, l[l.findIdx p]? = some b := by
  have h := List.findIdx_lt_length.mpr ⟨a, ha, hp⟩
  exact ⟨_, List.getElem?_eq_getElem h⟩

/-! ## The slot search of `get_disk_block` -/

theorem find_slot_hit (es : List bufentry) (bn i : Nat) (e : bufentry)
    (hi : es[i]? = some e) (hidx : es.findIdx (fun e => e.ref_ != 0 && e.bn_ == bn) = i) :
    find_slot es bn = some (i, es.set i { e with ref_ := e.ref_ + 1 }) := by
  simp [find_slot, hidx, hi]

theorem findIdx_bn_absent (es : List bufentry) (bn : Nat)
    (hno : ∀ x ∈ es, ¬ (x.ref_ ≠ 0 ∧ x.bn_ = bn)) :
    es.findIdx (fun e => e.ref_ != 0 && e.bn_ == bn) = es.length := by
  rw [List.findIdx_eq_length]
  intro x hx
  have := hno x hx
  simp only [ne_eq, not_and] at this
  simpa using this

theorem find_slot_miss (es : List bufentry) (bn j : Nat) (e : bufentry)
    (hno : ∀ x ∈ es, ¬ (x.ref_ ≠ 0 ∧ x.bn_ = bn))
    (hj : es[j]? = some e) (hidx : es.findIdx (fun e => e.ref_ == 0) = j) :
    find_slot es bn
      = some (j, es.set j { e with bn_ := bn, buf_ := Option.none, ref_ := e.ref_ + 1 }) := by
  simp [find_slot, findIdx_bn_absent es bn hno, hidx, hj]

theorem find_slot_full (es : List bufentry) (bn : Nat)
    (hno : ∀ x ∈ es, ¬ (x.ref_ ≠ 0 ∧ x.bn_ = bn)) (hfull : ∀ x ∈ es, x.ref_ ≠ 0) :
    find_slot es bn = Option.none := by
  have h2 : es.findIdx (fun e => e.ref_ == 0) = es.length := by
    rw [List.findIdx_eq_length]
    intro x hx
    simpa using hfull x hx
  simp [find_slot, findIdx_bn_absent es bn hno, h2]

/-! ## The load loop of `get_disk_block` -/

theorem load_loop_loaded (K : Geometry) (disk : Nat → Nat) (c : Option (List Nat → List Nat))
    (bn i fuel : Nat) (w : World) (e : bufentry)
    (hi : w.e_[i]? = some e) (hl : e.flags_.f_loaded = true) :
    load_loop K disk c bn i (fuel + 1) w = some (e.buf_, w) := by
  simp [load_loop, hi, hl]

theorem load_loop_load (K : Geometry) (disk : Nat → Nat) (c : Option (List Nat → List Nat))
    (bn i fuel : Nat) (w : World) (e : bufentry) (x : Nat) (rest : List Nat)
    (hi : w.e_[i]? = some e) (hl : e.flags_.f_loaded = false) (hg : e.flags_.f_loading = false)
    (hfree : w.free = x :: rest) :
    load_loop K disk c bn i (fuel + 2) w = some (some x, loaded_world K disk c w bn i e x rest) := by
  have hlt : i < w.e_.length := lt_length_of_getElem? hi
  cases c with
  | none =>
    simp [load_loop, hi, hl, hg, kalloc, hfree, World.set_slot, sata_read, run_cleaner,
      loaded_world, hlt, apply_cleaner]
  | some f =>
    simp [load_loop, hi, hl, hg, kalloc, hfree, World.set_slot, sata_read, run_cleaner,
      loaded_world, hlt, apply_cleaner]

theorem load_loop_alloc_fail (K : Geometry) (disk : Nat → Nat) (c : Option (List Nat → List Nat))
    (bn i fuel : Nat) (w : World) (e : bufentry)
    (hi : w.e_[i]? = some e) (hl : e.flags_.f_loaded = false) (hg : e.flags_.f_loading = false)
    (hfree : w.free = []) :
    load_loop K disk c bn i (fuel + 1) w
      = some (Option.none, { w with events := w.events ++ [Event.kalloc Option.none] }) := by
  simp [load_loop, hi, hl, hg, kalloc, hfree]

/-- A task that finds `f_loading` set and `f_loaded` clear never leaves the
loop, whatever the fuel: its `block_until` predicate holds at once. -/
theorem load_loop_spin (K : Geometry) (disk : Nat → Nat) (c : Option (List Nat → List Nat))
    (bn i : Nat) (w : World) (e : bufentry)
    (hi : w.e_[i]? = some e) (hl : e.flags_.f_loaded = false) (hg : e.flags_.f_loading = true) :
    ∀ fuel, load_loop K disk c bn i fuel w = Option.none := by
  intro fuel
  induction fuel with
  | zero => rfl
  | succ n ih => simp [load_loop, hi, hl, hg, wait_pred, ih]

/-- Two iterations of the loop are enough: more fuel never changes the result. -/
theorem load_loop_fuel (K : Geometry) (disk : Nat → Nat) (c : Option (List Nat → List Nat))
    (bn i : Nat) (w : World) (fuel : Nat) :
    load_loop K disk c bn i (fuel + 2) w = load_loop K disk c bn i 2 w := by
  cases hi : w.e_[i]? with
  | none => simp [load_loop, hi]
  | some e =>
    cases hl : e.flags_.f_loaded with
    | true => rw [load_loop_loaded K disk c bn i (fuel + 1) w e hi hl,
                  load_loop_loaded K disk c bn i 1 w e hi hl]
    | false =>
      cases hg : e.flags_.f_loading with
      | true =>
        rw [load_loop_spin K disk c bn i w e hi hl hg, load_loop_spin K disk c bn i w e hi hl hg]
      | false =>
        cases hf : w.free with
        | nil => rw [load_loop_alloc_fail K disk c bn i (fuel + 1) w e hi hl hg hf,
                     load_loop_alloc_fail K disk c bn i 1 w e hi hl hg hf]
        | cons x rest => rw [load_loop_load K disk c bn i fuel w e x rest hi hl hg hf,
                             load_loop_load K disk c bn i 0 w e x rest hi hl hg hf]

/-! ## The outcomes of `get_disk_block` -/

/-- Hit: the first referenced slot holding `bn` is loaded. -/
theorem get_disk_block_hit (K : Geometry) (disk : Nat → Nat) (w : World) (bn : Nat)
    (c : Option (List Nat → List Nat)) (i : Nat) (e : bufentry)
    (hi : w.e_[i]? = some e) (hidx : w.e_.findIdx (fun e => e.ref_ != 0 && e.bn_ == bn) = i)
    (hl : e.flags_.f_loaded = true) :
    get_disk_block K disk w bn c = some (e.buf_, hit_world w i e) := by
  have hlt := lt_length_of_getElem? hi
  unfold get_disk_block
  rw [find_slot_hit w.e_ bn i e hi hidx]
  simp only
  rw [load_loop_loaded K disk c bn i 1 _ { e with ref_ := e.ref_ + 1 } (by simp [hlt]) hl]
  rfl

/-- Miss: no referenced slot holds `bn`, the first free slot is clear and the
allocator has a page. -/
theorem get_disk_block_miss (K : Geometry) (disk : Nat → Nat) (w : World) (bn : Nat)
    (c : Option (List Nat → List Nat)) (j : Nat) (e : bufentry) (x : Nat) (rest : List Nat)
    (hno : ∀ a ∈ w.e_, ¬ (a.ref_ ≠ 0 ∧ a.bn_ = bn))
    (hj : w.e_[j]? = some e) (hidx : w.e_.findIdx (fun e => e.ref_ == 0) = j)
    (hclear : e.flags_ = bufflags.none) (hfree : w.free = x :: rest) :
    get_disk_block K disk w bn c = some (some x, miss_world K disk c w bn j e x rest) := by
  have hlt := lt_length_of_getElem? hj
  unfold get_disk_block
  rw [find_slot_miss w.e_ bn j e hno hj hidx]
  simp only
  have h := load_loop_load K disk c bn j 0
    { w with e_ := w.e_.set j { e with bn_ := bn, buf_ := Option.none, ref_ := e.ref_ + 1 } }
    { e with bn_ := bn, buf_ := Option.none, ref_ := e.ref_ + 1 } x rest (by simp [hlt])
    (by simp [hclear, bufflags.none]) (by simp [hclear, bufflags.none]) hfree
  rw [h]
  simp [loaded_world, miss_world]

/-- Allocation failure: as for a miss, but the allocator has no page. The claimed
slot keeps the reference. -/
theorem get_disk_block_alloc_fail (K : Geometry) (disk : Nat → Nat) (w : World) (bn : Nat)
    (c : Option (List Nat → List Nat)) (j : Nat) (e : bufentry)
    (hno : ∀ a ∈ w.e_, ¬ (a.ref_ ≠ 0 ∧ a.bn_ = bn))
    (hj : w.e_[j]? = some e) (hidx : w.e_.findIdx (fun e => e.ref_ == 0) = j)
    (hclear : e.flags_ = bufflags.none) (hfree : w.free = []) :
    get_disk_block K disk w bn c = some (Option.none, leak_world w bn j e) := by
  have hlt := lt_length_of_getElem? hj
  unfold get_disk_block
  rw [find_slot_miss w.e_ bn j e hno hj hidx]
  simp only
  have h := load_loop_alloc_fail K disk c bn j 1
    { w with e_ := w.e_.set j { e with bn_ := bn, buf_ := Option.none, ref_ := e.ref_ + 1 } }
    { e with bn_ := bn, buf_ := Option.none, ref_ := e.ref_ + 1 } (by simp [hlt])
    (by simp [hclear, bufflags.none]) (by simp [hclear, bufflags.none]) hfree
  rw [h]
  rfl

/-- Cache full: every slot is referenced and none holds `bn`. -/
theorem get_disk_block_full (K : Geometry) (disk : Nat → Nat) (w : World) (bn : Nat)
    (c : Option (List Nat → List Nat))
    (hno : ∀ a ∈ w.e_, ¬ (a.ref_ ≠ 0 ∧ a.bn_ = bn)) (hfull : ∀ a ∈ w.e_, a.ref_ ≠ 0) :
    get_disk_block K disk w bn c = some (Option.none, w) := by
  unfold get_disk_block
  rw [find_slot_full w.e_ bn hno hfull]

/-! ## The outcomes of `put_block` -/

theorem put_block_dec (K : Geometry) (w : World) (p i : Nat) (e : bufentry)
    (hi : w.e_[i]? = some e) (hidx : w.e_.findIdx (fun e => e.ref_ != 0 && e.buf_ == some p) = i)
    (href : e.ref_ - 1 ≠ 0) :
    put_block K w (some p) = some (dec_world w i e) := by
  simp [put_block, hidx, hi, href, dec_world, World.set_slot]

theorem put_block_drop (K : Geometry) (w : World) (p i : Nat) (e : bufentry)
    (hi : w.e_[i]? = some e) (hidx : w.e_.findIdx (fun e => e.ref_ != 0 && e.buf_ == some p) = i)
    (href : e.ref_ - 1 = 0) :
    put_block K w (some p) = some (drop_world K w i p) := by
  have hp := (findIdx_sound _ _ _ _ hidx hi).1
  simp only [bne_iff_ne, ne_eq, Bool.and_eq_true, decide_eq_true_eq, beq_iff_eq] at hp
  simp [put_block, hidx, hi, href, drop_world, World.set_slot, kfree, hp.2, bufentry.clear]

/-- Every returning `put_block(p)` is one of the two outcomes, on the first
referenced slot whose buffer is `p`. -/
theorem put_block_cases (K : Geometry) (w : World) (p : Nat) (w1 : World)
    (h : put_block K w (some p) = some w1) :
    ∃ (i : Nat) (e : bufentry), w.e_[i]? = some e ∧ e.ref_ ≠ 0 ∧ e.buf_ = some p ∧
      w.e_.findIdx (fun e => e.ref_ != 0 && e.buf_ == some p) = i ∧
      ((e.ref_ = 1 ∧ w1 = drop_world K w i p) ∨ (2 ≤ e.ref_ ∧ w1 = dec_world w i e)) := by
  cases hi : w.e_[w.e_.findIdx (fun e => e.ref_ != 0 && e.buf_ == some p)]? with
  | none => simp [put_block, hi] at h
  | some e =>
    have hp := (findIdx_sound _ _ _ _ rfl hi).1
    simp only [bne_iff_ne, ne_eq, Bool.and_eq_true, decide_eq_true_eq, beq_iff_eq] at hp
    refine ⟨_, e, hi, hp.1, hp.2, rfl, ?_⟩
    by_cases href : e.ref_ - 1 = 0
    · left
      rw [put_block_drop K w p _ e hi rfl href] at h
      exact ⟨by omega, (Option.some.inj h).symm⟩
    · right
      rw [put_block_dec K w p _ e hi rfl href] at h
      exact ⟨by omega, (Option.some.inj h).symm⟩

/-! ## What any call changes in the slot table -/

/-- The load loop changes at most slot `i`, and there only `flags_` and `buf_`. -/
theorem load_loop_table (K : Geometry) (disk : Nat → Nat) (c : Option (List Nat → List Nat))
    (bn i : Nat) (fuel : Nat) (w : World) (e : bufentry) (r : Option Nat) (w1 : World)
    (hi : w.e_[i]? = some e) (h : load_loop K disk c bn i fuel w = some (r, w1)) :
    ∃ e1 : bufentry, w1.e_ = w.e_.set i e1 ∧ e1.bn_ = e.bn_ ∧ e1.ref_ = e.ref_ := by
  have hlt := lt_length_of_getElem? hi
  have hself : w.e_.set i e = w.e_ := by
    apply List.ext_getElem? ; intro k
    by_cases hk : i = k
    · subst hk; simp [hi, hlt]
    · simp [List.getElem?_set_ne hk]
  cases fuel with
  | zero => simp [load_loop] at h
  | succ n =>
    cases hl : e.flags_.f_loaded with
    | true =>
      rw [load_loop_loaded K disk c bn i n w e hi hl] at h
      obtain ⟨-, rfl⟩ := Prod.mk.inj (Option.some.inj h)
      exact ⟨e, hself.symm, rfl, rfl⟩
    | false =>
      cases hg : e.flags_.f_loading with
      | true => rw [load_loop_spin K disk c bn i w e hi hl hg] at h; cases h
      | false =>
        cases hf : w.free with
        | nil =>
          rw [load_loop_alloc_fail K disk c bn i n w e hi hl hg hf] at h
          obtain ⟨-, rfl⟩ := Prod.mk.inj (Option.some.inj h)
          exact ⟨e, hself.symm, rfl, rfl⟩
        | cons x rest =>
          cases n with
          | zero =>
            simp [load_loop, hi, hl, hg, kalloc, hf] at h
          | succ m =>
            rw [load_loop_load K disk c bn i m w e x rest hi hl hg hf] at h
            obtain ⟨-, rfl⟩ := Prod.mk.inj (Option.some.inj h)
            exact ⟨_, rfl, rfl, rfl⟩

/-- The slot search picks a referenced slot holding `bn`, or else, when no
referenced slot holds `bn`, an unreferenced slot. -/
theorem find_slot_some (es : List bufentry) (bn i : Nat) (es1 : List bufentry)
    (h : find_slot es bn = some (i, es1)) :
    ∃ e e1 : bufentry, es[i]? = some e ∧ es1 = es.set i e1 ∧ e1.bn_ = bn ∧
      e1.ref_ = e.ref_ + 1 ∧
      ((e.ref_ ≠ 0 ∧ e.bn_ = bn) ∨ (e.ref_ = 0 ∧ ∀ a ∈ es, ¬ (a.ref_ ≠ 0 ∧ a.bn_ = bn))) := by
  cases h1 : es[es.findIdx (fun e => e.ref_ != 0 && e.bn_ == bn)]? with
  | some e =>
    have hp := (findIdx_sound _ _ _ _ rfl h1).1
    simp only [bne_iff_ne, ne_eq, Bool.and_eq_true, decide_eq_true_eq, beq_iff_eq] at hp
    rw [find_slot_hit es bn _ e h1 rfl] at h
    obtain ⟨rfl, rfl⟩ := Prod.mk.inj (Option.some.inj h)
    exact ⟨e, _, h1, rfl, hp.2, rfl, Or.inl hp⟩
  | none =>
    have hno : ∀ a ∈ es, ¬ (a.ref_ ≠ 0 ∧ a.bn_ = bn) := by
      intro a ha hc
      obtain ⟨b, hb⟩ := findIdx_some (fun e => e.ref_ != 0 && e.bn_ == bn) es a ha
        (by simp [hc.1, hc.2])
      rw [h1] at hb; cases hb
    cases h2 : es[es.findIdx (fun e => e.ref_ == 0)]? with
    | none => simp [find_slot, h1, h2] at h
    | some e =>
      have hp := (findIdx_sound _ _ _ _ rfl h2).1
      simp only [beq_iff_eq] at hp
      rw [find_slot_miss es bn _ e hno h2 rfl] at h
      obtain ⟨rfl, rfl⟩ := Prod.mk.inj (Option.some.inj h)
      exact ⟨e, _, h2, rfl, rfl, rfl, Or.inr ⟨hp, hno⟩⟩

/-- A returning `get_disk_block(bn)` leaves the table alone (cache full) or
changes one slot, which afterwards holds `bn` with one more reference: a
referenced slot that held `bn` already, or an unreferenced slot when no
referenced slot held `bn`. -/
theorem get_disk_block_table (K : Geometry) (disk : Nat → Nat) (w : World) (bn : Nat)
    (c : Option (List Nat → List Nat)) (r : Option Nat) (w1 : World)
    (h : get_disk_block K disk w bn c = some (r, w1)) :
    w1.e_ = w.e_ ∨
    ∃ (i : Nat) (e e1 : bufentry), w.e_[i]? = some e ∧ w1.e_ = w.e_.set i e1 ∧ e1.bn_ = bn ∧
      e1.ref_ = e.ref_ + 1 ∧
      ((e.ref_ ≠ 0 ∧ e.bn_ = bn) ∨ (e.ref_ = 0 ∧ ∀ a ∈ w.e_, ¬ (a.ref_ ≠ 0 ∧ a.bn_ = bn))) := by
  unfold get_disk_block at h
  cases hs : find_slot w.e_ bn with
  | none =>
    rw [hs] at h
    obtain ⟨-, rfl⟩ := Prod.mk.inj (Option.some.inj h)
    exact Or.inl rfl
  | some t =>
    obtain ⟨i, es1⟩ := t
    rw [hs] at h
    obtain ⟨e, e1, hi, hes, hbn, href, hcase⟩ := find_slot_some w.e_ bn i es1 hs
    have hlt := lt_length_of_getElem? hi
    obtain ⟨e2, h2, h3, h4⟩ := load_loop_table K disk c bn i 2 { w with e_ := es1 } e1 r w1
      (by simp [hes, hlt]) h
    right
    refine ⟨i, e, e2, hi, ?_, h3.trans hbn, h4.trans href, hcase⟩
    rw [h2, hes]; simp

/-- A returning `put_block(p)` changes one slot: a referenced slot, which loses
one reference (and is cleared when that was the last). -/
theorem put_block_table (K : Geometry) (w : World) (p : Nat) (w1 : World)
    (h : put_block K w (some p) = some w1) :
    ∃ (i : Nat) (e e1 : bufentry), w.e_[i]? = some e ∧ w1.e_ = w.e_.set i e1 ∧ e.ref_ ≠ 0 ∧
      e1.ref_ = e.ref_ - 1 ∧ (e1.ref_ ≠ 0 → e1.bn_ = e.bn_) ∧
      (e1.ref_ = 0 → e1.buf_ = Option.none ∧ e1.flags_ = bufflags.none) := by
  obtain ⟨i, e, hi, href, -, -, hc⟩ := put_block_cases K w p w1 h
  rcases hc with ⟨h1, rfl⟩ | ⟨h2, rfl⟩
  · exact ⟨i, e, _, hi, rfl, href, by simp [h1], by simp, by simp⟩
  · exact ⟨i, e, _, hi, rfl, href, rfl, by simp, by simp; omega⟩

/-! ## Claims about single cache calls -/

theorem first_free_slot (w : World) (h : ∃ e ∈ w.e_, e.ref_ = 0) :
    ∃ (j : Nat) (e : bufentry), w.e_[j]? = some e ∧ e.ref_ = 0 ∧
      w.e_.findIdx (fun e => e.ref_ == 0) = j := by
  obtain ⟨a, ha, h0⟩ := h
  obtain ⟨e, he⟩ := findIdx_some (fun e => e.ref_ == 0) w.e_ a ha (by simp [h0])
  have hp := (findIdx_sound _ _ _ _ rfl he).1
  simp only [beq_iff_eq] at hp
  exact ⟨_, e, he, hp, rfl⟩

/-- C1. In a state satisfying invariant I2, when no referenced slot holds `bn`, some slot
has `ref == 0` and the allocator has a page, `get_disk_block(bn, cleaner)` returns a
non-null page `p` whose contents are the `blocksize` disk bytes at offset
`bn * blocksize` with the cleaner applied (the disk bytes themselves without a
cleaner); the one slot it changes had `ref == 0` and now has `bn_ = bn`,
`ref_ = 1`, `buf_ = p` and only `f_loaded` set; and the call made one `kalloc`
and exactly one disk read, of that offset. -/
theorem get_disk_block_loads (K : Geometry) (disk : Nat → Nat) (w : World) (bn : Nat)
    (cleaner : Option (List Nat → List Nat))
    (hinv : I2 w)
    (hbn : ∀ e ∈ w.e_, ¬ (e.ref_ ≠ 0 ∧ e.bn_ = bn))
    (hslot : ∃ e ∈ w.e_, e.ref_ = 0)
    (halloc : w.free ≠ []) :
    ∃ (p : Nat) (w1 : World) (i : Nat),
      get_disk_block K disk w bn cleaner = some (some p, w1) ∧
      w1.mem p = apply_cleaner cleaner (disk_bytes disk K.blocksize (bn * K.blocksize)) ∧
      (∃ e, w.e_[i]? = some e ∧ e.ref_ = 0) ∧
      w1.e_ = w.e_.set i ⟨bn, 1, ⟨false, true⟩, some p⟩ ∧
      w1.events = w.events ++ [Event.kalloc (some p), Event.disk_read (bn * K.blocksize)] := by
  obtain ⟨j, e, hj, h0, hidx⟩ := first_free_slot w hslot
  have hclear := (hinv e (List.getElem?_mem hj) h0).2
  cases hf : w.free with
  | nil => exact absurd hf halloc
  | cons x rest =>
    refine ⟨x, _, j, get_disk_block_miss K disk w bn cleaner j e x rest hbn hj hidx hclear hf,
      ?_, ⟨e, hj, h0⟩, ?_, rfl⟩
    · simp [miss_world]
    · simp [miss_world, h0]

/-- C2. In a state satisfying invariant I1, when slot `i` has `ref > 0`, holds `bn` and is
loaded, `get_disk_block(bn)` returns that slot's buffer pointer and the state
afterwards is the state before with one more reference on slot `i`: no other
slot, no page contents, nothing of the allocator and no disk read. -/
theorem get_disk_block_resident (K : Geometry) (disk : Nat → Nat) (w : World) (bn : Nat)
    (cleaner : Option (List Nat → List Nat)) (i : Nat) (e : bufentry)
    (hinv : I1 w)
    (hi : w.e_[i]? = some e) (href : e.ref_ ≠ 0) (hbn : e.bn_ = bn)
    (hl : e.flags_.f_loaded = true) :
    get_disk_block K disk w bn cleaner
      = some (e.buf_, { w with e_ := w.e_.set i { e with ref_ := e.ref_ + 1 } }) := by
  have hidx : w.e_.findIdx (fun e => e.ref_ != 0 && e.bn_ == bn) = i := by
    apply findIdx_first _ _ _ e hi (by simp [href, hbn])
    intro k b hk hb
    by_contra hc
    simp only [bne_iff_ne, ne_eq, Bool.not_eq_false, Bool.and_eq_true, decide_eq_true_eq,
      beq_iff_eq] at hc
    have := hinv k i b e hb hi hc.1 href (hc.2.trans hbn.symm)
    omega
  exact get_disk_block_hit K disk w bn cleaner i e hi hidx hl

/-- Putting the buffer `p` of a slot with `n + 1` references back `n + 1` times
frees the page and clears the slot. -/
theorem put_n_drop (K : Geometry) (p i : Nat) :
    ∀ (n : Nat) (w : World) (e : bufentry), w.e_[i]? = some e →
      w.e_.findIdx (fun e => e.ref_ != 0 && e.buf_ == some p) = i → e.ref_ = n + 1 →
      put_n K w p (n + 1) = some (drop_world K w i p) := by
  intro n
  induction n with
  | zero =>
    intro w e hi hidx href
    simp [put_n, put_block_drop K w p i e hi hidx (by omega)]
  | succ m ih =>
    intro w e hi hidx href
    have hlt := lt_length_of_getElem? hi
    obtain ⟨hp, hfirst⟩ := findIdx_sound _ _ _ _ hidx hi
    simp only [bne_iff_ne, ne_eq, Bool.and_eq_true, decide_eq_true_eq, beq_iff_eq] at hp
    have hi1 : (dec_world w i e).e_[i]? = some { e with ref_ := e.ref_ - 1 } := by
      simp [dec_world, hlt]
    have hidx1 : (dec_world w i e).e_.findIdx (fun e => e.ref_ != 0 && e.buf_ == some p) = i := by
      apply findIdx_first _ _ _ _ hi1
      · simp [hp.2]; omega
      · intro k b hk hb
        have hne : i ≠ k := by omega
        simp only [dec_world, List.getElem?_set_ne hne] at hb
        exact hfirst k b hk hb
    have h1 := ih (dec_world w i e) _ hi1 hidx1 (by simp; omega)
    rw [put_n, put_block_dec K w p i e hi hidx (by omega)]
    simp only [Option.some_bind]
    rw [h1]
    simp [drop_world, dec_world]

/-- C5. When every slot has `ref > 0` and none holds `bn`, `get_disk_block(bn)` returns
`nullptr` and leaves the whole state as it was (no slot changed, no
allocation, no disk read); and for every buffer `p` held in the cache there is
a slot with that buffer such that, once `p` has been put back as many times as
the slot has references, the slot has `ref == 0` and a retried
`get_disk_block(bn)` returns a page. -/
theorem get_disk_block_cache_full (K : Geometry) (disk : Nat → Nat) (w : World) (bn : Nat)
    (cleaner : Option (List Nat → List Nat))
    (hfull : ∀ e ∈ w.e_, e.ref_ ≠ 0) (hbn : ∀ e ∈ w.e_, e.bn_ ≠ bn) :
    get_disk_block K disk w bn cleaner = some (Option.none, w) ∧
    ∀ p : Nat, (∃ e ∈ w.e_, e.buf_ = some p) →
      ∃ (i : Nat) (e : bufentry) (w1 : World), w.e_[i]? = some e ∧ e.buf_ = some p ∧
        put_n K w p e.ref_ = some w1 ∧ (∃ e1, w1.e_[i]? = some e1 ∧ e1.ref_ = 0) ∧
        ∃ (q : Nat) (w2 : World), get_disk_block K disk w1 bn cleaner = some (some q, w2) := by
  have hno : ∀ a ∈ w.e_, ¬ (a.ref_ ≠ 0 ∧ a.bn_ = bn) := fun a ha hc => hbn a ha hc.2
  refine ⟨get_disk_block_full K disk w bn cleaner hno hfull, ?_⟩
  intro p ⟨a, ha, hap⟩
  obtain ⟨i, hidx⟩ : ∃ i, w.e_.findIdx (fun e => e.ref_ != 0 && e.buf_ == some p) = i :=
    ⟨_, rfl⟩
  obtain ⟨e, hi⟩ := findIdx_some (fun e => e.ref_ != 0 && e.buf_ == some p) w.e_ a ha
    (by simp [hfull a ha, hap])
  rw [hidx] at hi
  obtain ⟨hp, hfirst⟩ := findIdx_sound _ _ _ _ hidx hi
  simp only [bne_iff_ne, ne_eq, Bool.and_eq_true, decide_eq_true_eq, beq_iff_eq] at hp
  have hlt := lt_length_of_getElem? hi
  obtain ⟨n, hn⟩ : ∃ n, e.ref_ = n + 1 := ⟨e.ref_ - 1, by have := hp.1; omega⟩
  have hput := put_n_drop K p i n w e hi hidx hn
  have hget := get_disk_block_miss K disk (drop_world K w i p) bn cleaner i
    ⟨K.emptyblock, 0, bufflags.none, Option.none⟩ p w.free
    (by
      intro b hb
      rcases List.mem_or_eq_of_mem_set hb with h1 | h1
      · exact hno b h1
      · subst h1; simp)
    (by simp [drop_world, hlt])
    (by
      apply findIdx_first _ _ _ ⟨K.emptyblock, 0, bufflags.none, Option.none⟩
      · simp [drop_world, hlt]
      · simp
      · intro k b hk hb
        have hne : i ≠ k := by omega
        simp only [drop_world, List.getElem?_set_ne hne] at hb
        simpa using hfull b (List.getElem?_mem hb))
    rfl rfl
  exact ⟨i, e, drop_world K w i p, hi, hp.2, by rw [hn]; exact hput,
    ⟨⟨K.emptyblock, 0, bufflags.none, Option.none⟩, by simp [drop_world, hlt], rfl⟩, p, _, hget⟩

/-- C6 (what the code does). When `get_disk_block(bn)` claims a free slot and
`kalloc` returns `nullptr`, the call returns `nullptr` and the claimed slot
keeps the reference taken for the caller: its `ref_` is 1 after the call and
was 0 before. -/
theorem get_disk_block_alloc_failure (K : Geometry) (disk : Nat → Nat) (w : World) (bn : Nat)
    (cleaner : Option (List Nat → List Nat))
    (hinv : I2 w)
    (hbn : ∀ e ∈ w.e_, ¬ (e.ref_ ≠ 0 ∧ e.bn_ = bn))
    (hslot : ∃ e ∈ w.e_, e.ref_ = 0)
    (halloc : w.free = []) :
    ∃ (w1 : World) (j : Nat) (e : bufentry),
      get_disk_block K disk w bn cleaner = some (Option.none, w1) ∧
      w.e_[j]? = some e ∧ e.ref_ = 0 ∧
      w1.e_[j]? = some ⟨bn, 1, bufflags.none, Option.none⟩ := by
  obtain ⟨j, e, hj, h0, hidx⟩ := first_free_slot w hslot
  have hclear := (hinv e (List.getElem?_mem hj) h0).2
  have hlt := lt_length_of_getElem? hj
  refine ⟨_, j, e, get_disk_block_alloc_fail K disk w bn cleaner j e hbn hj hidx hclear halloc,
    hj, h0, ?_⟩
  simp [leak_world, hlt, hclear, h0]

/-! ## Invariants I1 and I2 -/

/-- Changing one slot keeps I1 when the new entry, if referenced, takes over
the block of a referenced old entry or a block no referenced slot holds. -/
theorem I1_set (w w1 : World) (i : Nat) (e e1 : bufentry)
    (hi : w.e_[i]? = some e) (h1 : w1.e_ = w.e_.set i e1)
    (hkeep : e1.ref_ ≠ 0 → (e.ref_ ≠ 0 ∧ e1.bn_ = e.bn_) ∨
      (∀ a ∈ w.e_, ¬ (a.ref_ ≠ 0 ∧ a.bn_ = e1.bn_)))
    (hinv : I1 w) : I1 w1 := by
  have hlt := lt_length_of_getElem? hi
  intro a b ea eb ha hb hra hrb hbn
  rw [h1] at ha hb
  by_cases hai : i = a
  · by_cases hbi : i = b
    · omega
    · exfalso
      subst hai
      rw [List.getElem?_set_ne hbi] at hb
      simp only [List.getElem?_set_self hlt, Option.some.injEq] at ha
      subst ha
      rcases hkeep hra with ⟨h2, h3⟩ | h2
      · exact hbi (hinv i b e eb hi hb h2 hrb (by rw [← h3, hbn]))
      · exact h2 eb (List.getElem?_mem hb) ⟨hrb, hbn.symm⟩
  · rw [List.getElem?_set_ne hai] at ha
    by_cases hbi : i = b
    · exfalso
      subst hbi
      simp only [List.getElem?_set_self hlt, Option.some.injEq] at hb
      subst hb
      rcases hkeep hrb with ⟨h2, h3⟩ | h2
      · exact hai (hinv i a e ea hi ha h2 hra (by rw [← h3, ← hbn]))
      · exact h2 ea (List.getElem?_mem ha) ⟨hra, hbn⟩
    · rw [List.getElem?_set_ne hbi] at hb
      exact hinv a b ea eb ha hb hra hrb hbn

theorem I1_get (K : Geometry) (disk : Nat → Nat) (w : World) (bn : Nat)
    (c : Option (List Nat → List Nat)) (r : Option Nat) (w1 : World)
    (hinv : I1 w) (h : get_disk_block K disk w bn c = some (r, w1)) : I1 w1 := by
  rcases get_disk_block_table K disk w bn c r w1 h with h1 | ⟨i, e, e1, hi, h1, hbn, -, hc⟩
  · intro a b ea eb ha hb
    rw [h1] at ha hb
    exact hinv a b ea eb ha hb
  · apply I1_set w w1 i e e1 hi h1 _ hinv
    intro _
    rcases hc with ⟨h2, h3⟩ | ⟨-, h3⟩
    · exact Or.inl ⟨h2, hbn.trans h3.symm⟩
    · exact Or.inr (by rw [hbn]; exact h3)

theorem I1_put (K : Geometry) (w : World) (p : Nat) (w1 : World)
    (hinv : I1 w) (h : put_block K w (some p) = some w1) : I1 w1 := by
  obtain ⟨i, e, e1, hi, h1, href, -, hbn, -⟩ := put_block_table K w p w1 h
  exact I1_set w w1 i e e1 hi h1 (fun h2 => Or.inl ⟨href, hbn h2⟩) hinv

theorem I1_boot (K : Geometry) (ne : Nat) (mem : Nat → List Nat) (free : List Nat)
    (ev : List Event) : I1 ⟨empty_cache K ne, mem, free, ev⟩ := by
  intro a b ea eb ha _ hra
  have := List.getElem?_mem ha
  simp only [empty_cache, List.mem_replicate] at this
  rw [this.2] at hra
  exact absurd rfl hra

theorem I2_get (K : Geometry) (disk : Nat → Nat) (w : World) (bn : Nat)
    (c : Option (List Nat → List Nat)) (r : Option Nat) (w1 : World)
    (hinv : I2 w) (h : get_disk_block K disk w bn c = some (r, w1)) : I2 w1 := by
  rcases get_disk_block_table K disk w bn c r w1 h with h1 | ⟨i, e, e1, hi, h1, -, href, -⟩
  · rw [I2, h1]; exact hinv
  · intro a ha h0
    rw [h1] at ha
    rcases List.mem_or_eq_of_mem_set ha with h2 | h2
    · exact hinv a h2 h0
    · subst h2; omega

theorem I2_put (K : Geometry) (w : World) (p : Nat) (w1 : World)
    (hinv : I2 w) (h : put_block K w (some p) = some w1) : I2 w1 := by
  obtain ⟨i, e, e1, hi, h1, -, -, -, hclr⟩ := put_block_table K w p w1 h
  intro a ha h0
  rw [h1] at ha
  rcases List.mem_or_eq_of_mem_set ha with h2 | h2
  · exact hinv a h2 h0
  · subst h2; exact hclr h0

theorem I2_boot (K : Geometry) (ne : Nat) (mem : Nat → List Nat) (free : List Nat)
    (ev : List Event) : I2 ⟨empty_cache K ne, mem, free, ev⟩ := by
  intro a ha _
  simp only [empty_cache, List.mem_replicate] at ha
  rw [ha.2]; exact ⟨rfl, rfl⟩

/-- Invariant I2 holds in every state the cache reaches. -/
theorem Reachable.I2 (K : Geometry) (disk : Nat → Nat) (w : World)
    (h : Reachable K disk w) : I2 w := by
  induction h with
  | init ne mem free => exact I2_boot K ne mem free []
  | get w bn c r w1 _ hg ih => exact I2_get K disk w bn c r w1 ih hg
  | put w p w1 _ hp ih => exact I2_put K w p w1 ih hp

/-- C3. Invariant I1 (at most one slot with `ref > 0` holds any given block number) is
kept by every returning `get_disk_block`, whatever it returns, and by every
`put_block` whose assertion passes; hence it holds in every state the cache
reaches from the empty cache. -/
theorem uniqueness_invariant (K : Geometry) (disk : Nat → Nat) :
    (∀ (w : World) (bn : Nat) (c : Option (List Nat → List Nat)) (r : Option Nat) (w1 : World),
      I1 w → get_disk_block K disk w bn c = some (r, w1) → I1 w1) ∧
    (∀ (w : World) (p : Nat) (w1 : World),
      I1 w → put_block K w (some p) = some w1 → I1 w1) ∧
    (∀ w : World, Reachable K disk w → I1 w) := by
  refine ⟨fun w bn c r w1 => I1_get K disk w bn c r w1, fun w p w1 => I1_put K w p w1, ?_⟩
  intro w h
  induction h with
  | init ne mem free => exact I1_boot K ne mem free []
  | get w bn c r w1 _ hg ih => exact I1_get K disk w bn c r w1 ih hg
  | put w p w1 _ hp ih => exact I1_put K w p w1 ih hp

/-! ## The outcomes of `get_disk_block` in a state at rest -/

/-- In a state whose slots are all at rest, `get_disk_block` returns, in one of
four ways: hit, miss with a load, miss with a failed allocation, cache full. -/
theorem get_disk_block_cases (K : Geometry) (disk : Nat → Nat) (w : World) (bn : Nat)
    (c : Option (List Nat → List Nat)) (hrest : ∀ e ∈ w.e_, slot_ok e) :
    (∃ (i : Nat) (e : bufentry) (p : Nat), w.e_[i]? = some e ∧ e.ref_ ≠ 0 ∧ e.bn_ = bn ∧
        e.buf_ = some p ∧ e.flags_ = ⟨false, true⟩ ∧
        get_disk_block K disk w bn c = some (some p, hit_world w i e)) ∨
    ((∀ a ∈ w.e_, ¬ (a.ref_ ≠ 0 ∧ a.bn_ = bn)) ∧
      ∃ (j : Nat) (e : bufentry), w.e_[j]? = some e ∧ e.ref_ = 0 ∧ e.buf_ = Option.none ∧
        ((∃ (x : Nat) (rest : List Nat), w.free = x :: rest ∧
            get_disk_block K disk w bn c = some (some x, miss_world K disk c w bn j e x rest)) ∨
         (w.free = [] ∧
            get_disk_block K disk w bn c = some (Option.none, leak_world w bn j e)))) ∨
    ((∀ a ∈ w.e_, ¬ (a.ref_ ≠ 0 ∧ a.bn_ = bn)) ∧ (∀ a ∈ w.e_, a.ref_ ≠ 0) ∧
      get_disk_block K disk w bn c = some (Option.none, w)) := by
  by_cases hres : ∃ a ∈ w.e_, a.ref_ ≠ 0 ∧ a.bn_ = bn
  · left
    obtain ⟨a, ha, har, hab⟩ := hres
    obtain ⟨e, hi⟩ := findIdx_some (fun e => e.ref_ != 0 && e.bn_ == bn) w.e_ a ha
      (by simp [har, hab])
    have hp := (findIdx_sound _ _ _ _ rfl hi).1
    simp only [bne_iff_ne, ne_eq, Bool.and_eq_true, decide_eq_true_eq, beq_iff_eq] at hp
    have hok := hrest e (List.getElem?_mem hi)
    simp only [slot_ok, hp.1, if_false] at hok
    obtain ⟨⟨p, hbuf⟩, hfl⟩ := hok
    refine ⟨_, e, p, hi, hp.1, hp.2, hbuf, hfl, ?_⟩
    rw [get_disk_block_hit K disk w bn c _ e hi rfl (by simp [hfl]), hbuf]
  · right
    have hno : ∀ a ∈ w.e_, ¬ (a.ref_ ≠ 0 ∧ a.bn_ = bn) := fun a ha hc => hres ⟨a, ha, hc⟩
    by_cases hfree : ∃ a ∈ w.e_, a.ref_ = 0
    · left
      obtain ⟨j, e, hj, h0, hidx⟩ := first_free_slot w hfree
      have hok := hrest e (List.getElem?_mem hj)
      simp only [slot_ok, h0, if_true] at hok
      refine ⟨hno, j, e, hj, h0, hok.1, ?_⟩
      cases hf : w.free with
      | nil => exact Or.inr ⟨rfl, get_disk_block_alloc_fail K disk w bn c j e hno hj hidx hok.2 hf⟩
      | cons x rest =>
        exact Or.inl ⟨x, rest, rfl, get_disk_block_miss K disk w bn c j e x rest hno hj hidx hok.2 hf⟩
    · right
      have hfull : ∀ a ∈ w.e_, a.ref_ ≠ 0 := fun a ha h0 => hfree ⟨a, ha, h0⟩
      exact ⟨hno, hfull, get_disk_block_full K disk w bn c hno hfull⟩

/-! ## Round trip -/

theorem sum_map_set (f : bufentry → Nat) :
    ∀ (l : List bufentry) (i : Nat) (e a : bufentry), l[i]? = some e →
      ((l.set i a).map f).sum + f e = (l.map f).sum + f a := by
  intro l
  induction l with
  | nil => intro i e a h; simp at h
  | cons x xs ih =>
    intro i e a h
    cases i with
    | zero =>
      simp only [List.getElem?_cons_zero, Option.some.injEq] at h
      subst h
      simp only [List.set_cons_zero, List.map_cons, List.sum_cons]
      omega
    | succ k =>
      simp only [List.getElem?_cons_succ] at h
      have := ih k e a h
      simp only [List.set_cons_succ, List.map_cons, List.sum_cons]
      omega

theorem le_sum_map_of_mem (f : bufentry → Nat) (l : List bufentry) (e : bufentry)
    (h : e ∈ l) : f e ≤ (l.map f).sum := by
  induction l with
  | nil => simp at h
  | cons x xs ih =>
    simp only [List.map_cons, List.sum_cons]
    rcases List.mem_cons.mp h with h1 | h1
    · subst h1; omega
    · have := ih h1; omega

theorem slot_ok_set (w : World) (i : Nat) (e1 : bufentry) (hrest : ∀ e ∈ w.e_, slot_ok e)
    (h1 : slot_ok e1) : ∀ e ∈ w.e_.set i e1, slot_ok e := by
  intro a ha
  rcases List.mem_or_eq_of_mem_set ha with h2 | h2
  · exact hrest a h2
  · subst h2; exact h1

theorem page_refs_set (l : List bufentry) (i : Nat) (e a : bufentry) (hi : l[i]? = some e)
    (q : Nat) :
    ((l.set i a).map (fun e => if e.buf_ = some q then e.ref_ else 0)).sum
        + (if e.buf_ = some q then e.ref_ else 0)
      = (l.map (fun e => if e.buf_ = some q then e.ref_ else 0)).sum
        + (if a.buf_ = some q then a.ref_ else 0) :=
  sum_map_set (fun e => if e.buf_ = some q then e.ref_ else 0) l i e a hi

/-- A `get_disk_block` without a failed allocation keeps every slot at rest and
adds one reference to the page it returns (none when it returns `nullptr`). -/
theorem page_refs_get (K : Geometry) (disk : Nat → Nat) (w : World) (bn : Nat)
    (c : Option (List Nat → List Nat)) (r : Option Nat) (w1 : World)
    (hrest : ∀ e ∈ w.e_, slot_ok e)
    (h : get_disk_block K disk w bn c = some (r, w1))
    (halloc : Event.kalloc Option.none ∉ w1.events) :
    (∀ e ∈ w1.e_, slot_ok e) ∧
    ∀ q : Nat, w1.page_refs q = w.page_refs q + (if r = some q then 1 else 0) := by
  rcases get_disk_block_cases K disk w bn c hrest with
    ⟨i, e, p, hi, href, -, hbuf, hfl, hg⟩ | ⟨-, j, e, hj, h0, hbuf, hc⟩ | ⟨-, -, hg⟩
  · rw [hg] at h
    obtain ⟨rfl, rfl⟩ := Prod.mk.inj (Option.some.inj h)
    refine ⟨slot_ok_set w i _ hrest (by simp [slot_ok, hbuf, hfl]), ?_⟩
    intro q
    have := page_refs_set w.e_ i e { e with ref_ := e.ref_ + 1 } hi q
    simp only [World.page_refs, hit_world, hbuf, Option.some.injEq] at this ⊢
    by_cases hq : p = q
    · simp only [hq, if_true] at this ⊢; omega
    · simp only [hq, if_false] at this ⊢; omega
  · rcases hc with ⟨x, rest, hf, hg⟩ | ⟨hf, hg⟩
    · rw [hg] at h
      obtain ⟨rfl, rfl⟩ := Prod.mk.inj (Option.some.inj h)
      refine ⟨slot_ok_set w j _ hrest (by simp [slot_ok]), ?_⟩
      intro q
      have := page_refs_set w.e_ j e ⟨bn, e.ref_ + 1, ⟨false, true⟩, some x⟩ hj q
      simp only [World.page_refs, miss_world, hbuf, h0, Option.some.injEq] at this ⊢
      by_cases hq : x = q
      · simp only [hq, if_true, reduceCtorEq, if_false] at this ⊢; omega
      · simp only [hq, if_false, reduceCtorEq] at this ⊢; omega
    · rw [hg] at h
      obtain ⟨rfl, rfl⟩ := Prod.mk.inj (Option.some.inj h)
      exact absurd (by simp [leak_world]) halloc
  · rw [hg] at h
    obtain ⟨rfl, rfl⟩ := Prod.mk.inj (Option.some.inj h)
    exact ⟨hrest, by simp⟩

/-- A `put_block(p)` keeps every slot at rest and takes one reference from page
`p`. -/
theorem page_refs_put (K : Geometry) (w : World) (p : Nat) (w1 : World)
    (hrest : ∀ e ∈ w.e_, slot_ok e) (h : put_block K w (some p) = some w1) :
    (∀ e ∈ w1.e_, slot_ok e) ∧
    ∀ q : Nat, w1.page_refs q + (if q = p then 1 else 0) = w.page_refs q := by
  obtain ⟨i, e, hi, href, hbuf, -, hc⟩ := put_block_cases K w p w1 h
  have hok := hrest e (List.getElem?_mem hi)
  simp only [slot_ok, href, if_false] at hok
  rcases hc with ⟨h1, rfl⟩ | ⟨h2, rfl⟩
  · refine ⟨slot_ok_set w i _ hrest (by simp [slot_ok]), ?_⟩
    intro q
    have := page_refs_set w.e_ i e ⟨K.emptyblock, 0, bufflags.none, Option.none⟩ hi q
    simp only [World.page_refs, drop_world, hbuf, h1, Option.some.injEq] at this ⊢
    by_cases hq : p = q
    · subst hq
      simp only [if_true, reduceCtorEq, if_false] at this ⊢; omega
    · have hq2 : ¬ q = p := fun h => hq h.symm
      simp only [hq, hq2, if_false, reduceCtorEq] at this ⊢; omega
  · refine ⟨slot_ok_set w i _ hrest ?_, ?_⟩
    · have : e.ref_ - 1 ≠ 0 := by omega
      simp [slot_ok, this, hok.1, hok.2]
    · intro q
      have := page_refs_set w.e_ i e { e with ref_ := e.ref_ - 1 } hi q
      simp only [World.page_refs, dec_world, hbuf, Option.some.injEq] at this ⊢
      by_cases hq : p = q
      · subst hq
        simp only [if_true] at this ⊢; omega
      · have hq2 : ¬ q = p := fun h => hq h.symm
        simp only [hq, hq2, if_false] at this ⊢; omega

/-! ## The event log only grows -/

theorem load_loop_events (K : Geometry) (disk : Nat → Nat) (c : Option (List Nat → List Nat))
    (bn i : Nat) (fuel : Nat) (w : World) (r : Option Nat) (w1 : World)
    (h : load_loop K disk c bn i fuel w = some (r, w1)) :
    ∃ l : List Event, w1.events = w.events ++ l := by
  cases hi : w.e_[i]? with
  | none => cases fuel <;> simp [load_loop, hi] at h
  | some e =>
    cases fuel with
    | zero => simp [load_loop] at h
    | succ n =>
      cases hl : e.flags_.f_loaded with
      | true =>
        rw [load_loop_loaded K disk c bn i n w e hi hl] at h
        obtain ⟨-, rfl⟩ := Prod.mk.inj (Option.some.inj h)
        exact ⟨[], by simp⟩
      | false =>
        cases hg : e.flags_.f_loading with
        | true => rw [load_loop_spin K disk c bn i w e hi hl hg] at h; cases h
        | false =>
          cases hf : w.free with
          | nil =>
            rw [load_loop_alloc_fail K disk c bn i n w e hi hl hg hf] at h
            obtain ⟨-, rfl⟩ := Prod.mk.inj (Option.some.inj h)
            exact ⟨_, rfl⟩
          | cons x rest =>
            cases n with
            | zero => simp [load_loop, hi, hl, hg, kalloc, hf] at h
            | succ m =>
              rw [load_loop_load K disk c bn i m w e x rest hi hl hg hf] at h
              obtain ⟨-, rfl⟩ := Prod.mk.inj (Option.some.inj h)
              exact ⟨_, rfl⟩

theorem get_disk_block_events (K : Geometry) (disk : Nat → Nat) (w : World) (bn : Nat)
    (c : Option (List Nat → List Nat)) (r : Option Nat) (w1 : World)
    (h : get_disk_block K disk w bn c = some (r, w1)) :
    ∃ l : List Event, w1.events = w.events ++ l := by
  unfold get_disk_block at h
  cases hs : find_slot w.e_ bn with
  | none =>
    rw [hs] at h
    obtain ⟨-, rfl⟩ := Prod.mk.inj (Option.some.inj h)
    exact ⟨[], by simp⟩
  | some t =>
    obtain ⟨i, es1⟩ := t
    rw [hs] at h
    exact load_loop_events K disk c bn i 2 { w with e_ := es1 } r w1 h

theorem put_block_events (K : Geometry) (w : World) (p : Nat) (w1 : World)
    (h : put_block K w (some p) = some w1) :
    ∃ l : List Event, w1.events = w.events ++ l := by
  obtain ⟨i, e, -, -, -, -, hc⟩ := put_block_cases K w p w1 h
  rcases hc with ⟨-, rfl⟩ | ⟨-, rfl⟩
  · exact ⟨_, rfl⟩
  · exact ⟨[], by simp [dec_world]⟩

theorem run_events (K : Geometry) (disk : Nat → Nat) :
    ∀ (ops : List Op) (w w1 : World) (gets puts : List Nat),
      run K disk w ops = some (w1, gets, puts) → ∃ l : List Event, w1.events = w.events ++ l := by
  intro ops
  induction ops with
  | nil =>
    intro w w1 gets puts h
    simp only [run, Option.some.injEq, Prod.mk.injEq] at h
    exact ⟨[], by rw [← h.1]; simp⟩
  | cons op ops ih =>
    intro w w1 gets puts h
    cases op with
    | get bn c =>
      simp only [run] at h
      cases hg : get_disk_block K disk w bn c with
      | none => rw [hg] at h; cases h
      | some t =>
        obtain ⟨r, w2⟩ := t
        rw [hg] at h
        simp only [Option.map_eq_some'] at h
        obtain ⟨⟨w3, g3, p3⟩, h3, h4⟩ := h
        obtain ⟨l1, hl1⟩ := get_disk_block_events K disk w bn c r w2 hg
        obtain ⟨l2, hl2⟩ := ih w2 w3 g3 p3 h3
        simp only [Prod.mk.injEq] at h4
        exact ⟨l1 ++ l2, by rw [← h4.1, hl2, hl1, List.append_assoc]⟩
    | put p =>
      simp only [run] at h
      cases hg : put_block K w (some p) with
      | none => rw [hg] at h; cases h
      | some w2 =>
        rw [hg] at h
        simp only [Option.map_eq_some'] at h
        obtain ⟨⟨w3, g3, p3⟩, h3, h4⟩ := h
        obtain ⟨l1, hl1⟩ := put_block_events K w p w2 hg
        obtain ⟨l2, hl2⟩ := ih w2 w3 g3 p3 h3
        simp only [Prod.mk.injEq] at h4
        exact ⟨l1 ++ l2, by rw [← h4.1, hl2, hl1, List.append_assoc]⟩

/-! ## Round trip (continued) -/

/-- Along a run without a failed allocation every slot stays at rest and, for
every page, references held plus `put`s equal references held at the start
plus `get`s that returned the page. -/
theorem run_balance (K : Geometry) (disk : Nat → Nat) :
    ∀ (ops : List Op) (w w1 : World) (gets puts : List Nat),
      (∀ e ∈ w.e_, slot_ok e) → run K disk w ops = some (w1, gets, puts) →
      Event.kalloc Option.none ∉ w1.events →
      (∀ e ∈ w1.e_, slot_ok e) ∧
      ∀ q : Nat, w1.page_refs q + puts.count q = w.page_refs q + gets.count q := by
  intro ops
  induction ops with
  | nil =>
    intro w w1 gets puts hrest h _
    simp only [run, Option.some.injEq, Prod.mk.injEq] at h
    obtain ⟨rfl, rfl, rfl⟩ := h
    exact ⟨hrest, by simp⟩
  | cons op ops ih =>
    intro w w1 gets puts hrest h halloc
    cases op with
    | get bn c =>
      simp only [run] at h
      cases hg : get_disk_block K disk w bn c with
      | none => rw [hg] at h; cases h
      | some t =>
        obtain ⟨r, w2⟩ := t
        rw [hg] at h
        simp only [Option.map_eq_some'] at h
        obtain ⟨⟨w3, g3, p3⟩, h3, h4⟩ := h
        simp only [Prod.mk.injEq] at h4
        obtain ⟨rfl, rfl, rfl⟩ := h4
        obtain ⟨l2, hl2⟩ := run_events K disk ops w2 w3 g3 p3 h3
        have halloc2 : Event.kalloc Option.none ∉ w2.events := by
          intro hc; apply halloc; rw [hl2]; exact List.mem_append_left _ hc
        obtain ⟨hr2, hb2⟩ := page_refs_get K disk w bn c r w2 hrest hg halloc2
        obtain ⟨hr3, hb3⟩ := ih w2 w3 g3 p3 hr2 h3 halloc
        refine ⟨hr3, ?_⟩
        intro q
        have e1 := hb2 q
        have e2 := hb3 q
        cases r with
        | none => simp only [reduceCtorEq, if_false] at e1; simp; omega
        | some p =>
          simp only [Option.some.injEq] at e1
          simp only [Option.toList, List.singleton_append, List.count_cons]
          by_cases hq : p = q
          · subst hq; simp only [if_true] at e1; simp; omega
          · simp only [hq, if_false] at e1
            have : (p == q) = false := by simp [hq]
            simp only [this]; simp; omega
    | put p =>
      simp only [run] at h
      cases hg : put_block K w (some p) with
      | none => rw [hg] at h; cases h
      | some w2 =>
        rw [hg] at h
        simp only [Option.map_eq_some'] at h
        obtain ⟨⟨w3, g3, p3⟩, h3, h4⟩ := h
        simp only [Prod.mk.injEq] at h4
        obtain ⟨rfl, rfl, rfl⟩ := h4
        obtain ⟨hr2, hb2⟩ := page_refs_put K w p w2 hrest hg
        obtain ⟨hr3, hb3⟩ := ih w2 w3 g3 p3 hr2 h3 halloc
        refine ⟨hr3, ?_⟩
        intro q
        have e1 := hb2 q
        have e2 := hb3 q
        simp only [List.count_cons]
        by_cases hq : q = p
        · subst hq; simp only [if_true] at e1; simp; omega
        · simp only [hq, if_false] at e1
          have : (p == q) = false := by simp; exact fun h => hq h.symm
          simp only [this]; simp; omega

/-- C4. Round trip: start from an empty cache (every slot with `ref == 0`, no buffer
and clear flags) and run any sequence of `get_disk_block` and `put_block` calls
in which no `kalloc` fails, every `put_block` passes its assertion, and every
page is put as often as `get_disk_block` returned it. Then every slot again has
`ref == 0`, no buffer and clear flags. -/
theorem round_trip (K : Geometry) (disk : Nat → Nat) (w0 : World) (ops : List Op) (w : World)
    (gets puts : List Nat)
    (hempty : ∀ e ∈ w0.e_, e.ref_ = 0 ∧ e.buf_ = Option.none ∧ e.flags_ = bufflags.none)
    (hrun : run K disk w0 ops = some (w, gets, puts))
    (halloc : Event.kalloc Option.none ∉ w.events)
    (hmatch : ∀ q : Nat, gets.count q = puts.count q) :
    ∀ e ∈ w.e_, e.ref_ = 0 ∧ e.buf_ = Option.none ∧ e.flags_ = bufflags.none := by
  have hrest0 : ∀ e ∈ w0.e_, slot_ok e := by
    intro e he
    obtain ⟨h1, h2, h3⟩ := hempty e he
    simp [slot_ok, h1, h2, h3]
  have hzero : ∀ q : Nat, w0.page_refs q = 0 := by
    intro q
    simp only [World.page_refs, List.sum_eq_zero_iff, List.mem_map]
    rintro x ⟨e, he, rfl⟩
    simp [(hempty e he).2.1]
  obtain ⟨hrest, hbal⟩ := run_balance K disk ops w0 w gets puts hrest0 hrun halloc
  intro e he
  have hok := hrest e he
  by_cases h0 : e.ref_ = 0
  · simp only [slot_ok, h0, if_true] at hok
    exact ⟨h0, hok.1, hok.2⟩
  · exfalso
    simp only [slot_ok, h0, if_false] at hok
    obtain ⟨⟨p, hp⟩, -⟩ := hok
    have h1 := hbal p
    rw [hzero p, hmatch p] at h1
    have h2 := le_sum_map_of_mem (fun e => if e.buf_ = some p then e.ref_ else 0) w.e_ e he
    simp only [hp, if_true] at h2
    simp only [World.page_refs] at h1
    omega

/-! ## The slot of a block -/

theorem slot_of_eq_none (w : World) (b : Nat) :
    w.slot_of b = Option.none ↔ ∀ a ∈ w.e_, ¬ (a.ref_ ≠ 0 ∧ a.bn_ = b) := by
  simp only [World.slot_of, List.find?_eq_none]
  constructor
  · intro h a ha hc
    exact h a ha (by simp [hc.1, hc.2])
  · intro h a ha hc
    simp only [bne_iff_ne, ne_eq, Bool.and_eq_true, decide_eq_true_eq, beq_iff_eq] at hc
    exact h a ha hc

theorem slot_of_some_sound (w : World) (b : Nat) (e : bufentry) (h : w.slot_of b = some e) :
    e.ref_ ≠ 0 ∧ e.bn_ = b ∧ ∃ i : Nat, w.e_[i]? = some e := by
  have h1 := List.find?_some h
  simp only [bne_iff_ne, ne_eq, Bool.and_eq_true, decide_eq_true_eq, beq_iff_eq] at h1
  exact ⟨h1.1, h1.2, List.getElem?_of_mem (List.mem_of_find?_eq_some h)⟩

theorem slot_of_eq_some (w : World) (hinv : I1 w) (b i : Nat) (e : bufentry)
    (hi : w.e_[i]? = some e) (href : e.ref_ ≠ 0) (hbn : e.bn_ = b) :
    w.slot_of b = some e := by
  cases h : w.slot_of b with
  | none => exact absurd ⟨href, hbn⟩ ((slot_of_eq_none w b).mp h e (List.getElem?_mem hi))
  | some a =>
    obtain ⟨h1, h2, k, hk⟩ := slot_of_some_sound w b a h
    have := hinv k i a e hk hi h1 href (h2.trans hbn.symm)
    subst this
    rw [hk] at hi
    exact hi

/-- The slot of every block after one slot of the table was replaced. -/
theorem slot_of_set (w w1 : World) (hinv : I1 w) (hinv1 : I1 w1) (i : Nat) (e e1 : bufentry)
    (hi : w.e_[i]? = some e) (h1 : w1.e_ = w.e_.set i e1) (b : Nat) :
    w1.slot_of b =
      if e1.ref_ ≠ 0 ∧ e1.bn_ = b then some e1
      else if e.ref_ ≠ 0 ∧ e.bn_ = b then Option.none
      else w.slot_of b := by
  have hlt := lt_length_of_getElem? hi
  have hi1 : w1.e_[i]? = some e1 := by rw [h1]; simp [hlt]
  have hother : ∀ k : Nat, k ≠ i → w1.e_[k]? = w.e_[k]? := by
    intro k hk; rw [h1]; exact List.getElem?_set_ne (Ne.symm hk)
  by_cases hc1 : e1.ref_ ≠ 0 ∧ e1.bn_ = b
  · rw [if_pos hc1]
    exact slot_of_eq_some w1 hinv1 b i e1 hi1 hc1.1 hc1.2
  · rw [if_neg hc1]
    by_cases hc : e.ref_ ≠ 0 ∧ e.bn_ = b
    · rw [if_pos hc, slot_of_eq_none]
      intro a ha hca
      obtain ⟨k, hk⟩ := List.getElem?_of_mem ha
      by_cases hki : k = i
      · subst hki; rw [hi1] at hk; cases hk; exact hc1 hca
      · rw [hother k hki] at hk
        exact hki (hinv k i a e hk hi hca.1 hc.1 (hca.2.trans hc.2.symm))
    · rw [if_neg hc]
      cases h : w.slot_of b with
      | none =>
        rw [slot_of_eq_none] at h ⊢
        intro a ha hca
        obtain ⟨k, hk⟩ := List.getElem?_of_mem ha
        by_cases hki : k = i
        · subst hki; rw [hi1] at hk; cases hk; exact hc1 hca
        · rw [hother k hki] at hk
          exact h a (List.getElem?_mem hk) hca
      | some a =>
        obtain ⟨h2, h3, k, hk⟩ := slot_of_some_sound w b a h
        have hki : k ≠ i := by
          intro hki; subst hki; rw [hi] at hk; cases hk; exact hc ⟨h2, h3⟩
        exact slot_of_eq_some w1 hinv1 b k a (by rw [hother k hki]; exact hk) h2 h3

theorem nfree_set (w w1 : World) (i : Nat) (e e1 : bufentry)
    (hi : w.e_[i]? = some e) (h1 : w1.e_ = w.e_.set i e1) :
    w1.nfree + (if e.ref_ = 0 then 1 else 0) = w.nfree + (if e1.ref_ = 0 then 1 else 0) := by
  simp only [World.nfree, h1]
  exact sum_map_set (fun e => if e.ref_ = 0 then 1 else 0) w.e_ i e e1 hi

theorem pinned_iff (w : World) (hinv : I1 w) (q : Nat) :
    w.pinned q ↔ ∃ e ∈ w.e_, e.ref_ ≠ 0 ∧ e.buf_ = some q := by
  constructor
  · rintro ⟨b, e, hs, hb⟩
    obtain ⟨h1, -, k, hk⟩ := slot_of_some_sound w b e hs
    exact ⟨e, List.getElem?_mem hk, h1, hb⟩
  · rintro ⟨e, he, h1, hb⟩
    obtain ⟨k, hk⟩ := List.getElem?_of_mem he
    exact ⟨e.bn_, e, slot_of_eq_some w hinv e.bn_ k e hk h1 rfl, hb⟩

/-! ## Well-formedness is kept -/

theorem WF_set (w w1 : World) (i : Nat) (e e1 : bufentry) (hwf : WF w)
    (hi : w.e_[i]? = some e) (h1 : w1.e_ = w.e_.set i e1) (hI1 : I1 w1) (hok : slot_ok e1)
    (hbuf : ∀ x : Nat, e1.buf_ = some x → e.buf_ = some x ∨ (∀ a ∈ w.e_, a.buf_ ≠ some x))
    (hnodup : w1.free.Nodup)
    (hdisj : ∀ a ∈ w1.e_, ∀ x : Nat, a.buf_ = some x → x ∉ w1.free) : WF w1 := by
  obtain ⟨-, hrest, hdist, -, -⟩ := hwf
  have hlt := lt_length_of_getElem? hi
  refine ⟨hI1, ?_, ?_, hnodup, hdisj⟩
  · rw [h1]; exact slot_ok_set w i e1 hrest hok
  · intro a b ea eb x ha hb hxa hxb
    rw [h1] at ha hb
    by_cases hai : i = a
    · by_cases hbi : i = b
      · omega
      · exfalso
        subst hai
        rw [List.getElem?_set_ne hbi] at hb
        simp only [List.getElem?_set_self hlt, Option.some.injEq] at ha
        subst ha
        rcases hbuf x hxa with h2 | h2
        · exact hbi (hdist i b e eb x hi hb h2 hxb)
        · exact h2 eb (List.getElem?_mem hb) hxb
    · rw [List.getElem?_set_ne hai] at ha
      by_cases hbi : i = b
      · exfalso
        subst hbi
        simp only [List.getElem?_set_self hlt, Option.some.injEq] at hb
        subst hb
        rcases hbuf x hxb with h2 | h2
        · exact hai (hdist i a e ea x hi ha h2 hxa)
        · exact h2 ea (List.getElem?_mem ha) hxa
      · rw [List.getElem?_set_ne hbi] at hb
        exact hdist a b ea eb x ha hb hxa hxb

theorem WF_hit (w : World) (i : Nat) (e : bufentry) (hwf : WF w)
    (hi : w.e_[i]? = some e) (href : e.ref_ ≠ 0) : WF (hit_world w i e) := by
  have hok := hwf.2.1 e (List.getElem?_mem hi)
  simp only [slot_ok, href, if_false] at hok
  apply WF_set w (hit_world w i e) i e { e with ref_ := e.ref_ + 1 } hwf hi rfl
  · exact I1_set w _ i e _ hi rfl (fun _ => Or.inl ⟨href, rfl⟩) hwf.1
  · simp [slot_ok, hok.1, hok.2]
  · intro x hx; exact Or.inl hx
  · exact hwf.2.2.2.1
  · intro a ha x hx
    rcases List.mem_or_eq_of_mem_set ha with h2 | h2
    · exact hwf.2.2.2.2 a h2 x hx
    · subst h2; exact hwf.2.2.2.2 e (List.getElem?_mem hi) x hx

theorem WF_miss (K : Geometry) (disk : Nat → Nat) (c : Option (List Nat → List Nat))
    (w : World) (bn j : Nat) (e : bufentry) (x : Nat) (rest : List Nat) (hwf : WF w)
    (hj : w.e_[j]? = some e) (hno : ∀ a ∈ w.e_, ¬ (a.ref_ ≠ 0 ∧ a.bn_ = bn))
    (hfree : w.free = x :: rest) : WF (miss_world K disk c w bn j e x rest) := by
  have hnd := hwf.2.2.2.1
  rw [hfree] at hnd
  have hxfresh : ∀ a ∈ w.e_, a.buf_ ≠ some x := by
    intro a ha hc
    exact hwf.2.2.2.2 a ha x hc (by rw [hfree]; exact List.mem_cons_self _ _)
  apply WF_set w (miss_world K disk c w bn j e x rest) j e
    ⟨bn, e.ref_ + 1, ⟨false, true⟩, some x⟩ hwf hj rfl
  · exact I1_set w _ j e _ hj rfl (fun _ => Or.inr hno) hwf.1
  · simp [slot_ok]
  · intro y hy
    simp only [Option.some.injEq] at hy
    subst hy
    exact Or.inr hxfresh
  · exact (List.nodup_cons.mp hnd).2
  · intro a ha y hy
    show y ∉ rest
    rcases List.mem_or_eq_of_mem_set ha with h2 | h2
    · intro hc
      exact hwf.2.2.2.2 a h2 y hy (by rw [hfree]; exact List.mem_cons_of_mem _ hc)
    · subst h2
      simp only [Option.some.injEq] at hy
      subst hy
      exact (List.nodup_cons.mp hnd).1

theorem WF_dec (w : World) (i : Nat) (e : bufentry) (hwf : WF w)
    (hi : w.e_[i]? = some e) (href : 2 ≤ e.ref_) : WF (dec_world w i e) := by
  have hr0 : e.ref_ ≠ 0 := by omega
  have hr1 : e.ref_ - 1 ≠ 0 := by omega
  have hok := hwf.2.1 e (List.getElem?_mem hi)
  simp only [slot_ok, hr0, if_false] at hok
  apply WF_set w (dec_world w i e) i e { e with ref_ := e.ref_ - 1 } hwf hi rfl
  · exact I1_set w _ i e _ hi rfl (fun _ => Or.inl ⟨hr0, rfl⟩) hwf.1
  · simp [slot_ok, hr1, hok.1, hok.2]
  · intro x hx; exact Or.inl hx
  · exact hwf.2.2.2.1
  · intro a ha x hx
    rcases List.mem_or_eq_of_mem_set ha with h2 | h2
    · exact hwf.2.2.2.2 a h2 x hx
    · subst h2; exact hwf.2.2.2.2 e (List.getElem?_mem hi) x hx

theorem WF_drop (K : Geometry) (w : World) (i p : Nat) (e : bufentry) (hwf : WF w)
    (hi : w.e_[i]? = some e) (hbuf : e.buf_ = some p) : WF (drop_world K w i p) := by
  have hlt := lt_length_of_getElem? hi
  apply WF_set w (drop_world K w i p) i e ⟨K.emptyblock, 0, bufflags.none, Option.none⟩ hwf hi rfl
  · exact I1_set w _ i e _ hi rfl (fun h => absurd rfl h) hwf.1
  · simp [slot_ok]
  · intro x hx; cases hx
  · show (p :: w.free).Nodup
    exact List.nodup_cons.mpr ⟨hwf.2.2.2.2 e (List.getElem?_mem hi) p hbuf, hwf.2.2.2.1⟩
  · intro a ha x hx
    show x ∉ p :: w.free
    obtain ⟨k, hk⟩ := List.getElem?_of_mem ha
    simp only [drop_world] at hk
    by_cases hki : i = k
    · subst hki
      simp only [List.getElem?_set_self hlt, Option.some.injEq] at hk
      subst hk; cases hx
    · rw [List.getElem?_set_ne hki] at hk
      intro hc
      rcases List.mem_cons.mp hc with h2 | h2
      · subst h2
        exact hki (hwf.2.2.1 i k e a x hi hk hbuf hx)
      · exact hwf.2.2.2.2 a (List.getElem?_mem hk) x hx h2

theorem WF_boot (K : Geometry) (ne : Nat) (mem : Nat → List Nat) (free : List Nat)
    (ev : List Event) (hfree : free.Nodup) : WF ⟨empty_cache K ne, mem, free, ev⟩ := by
  refine ⟨I1_boot K ne mem free ev, ?_, ?_, hfree, ?_⟩
  · intro e he
    simp only [empty_cache, List.mem_replicate] at he
    rw [he.2]; simp [slot_ok]
  · intro a b ea eb x ha _ hxa
    have := List.getElem?_mem ha
    simp only [empty_cache, List.mem_replicate] at this
    rw [this.2] at hxa; cases hxa
  · intro e he x hx
    simp only [empty_cache, List.mem_replicate] at he
    rw [he.2] at hx; cases hx

/-! ## What `get_disk_block` and `put_block` do to the cache contents -/

/-- A successful `get_disk_block(bn)` in a well-formed state: a hit adds a
reference to the slot of `bn` and changes nothing else; a miss takes the first
free page, loads the block into it and makes a slot with one reference. The
slots of all other blocks stay as they are. -/
theorem get_spec (K : Geometry) (disk : Nat → Nat) (w : World) (bn : Nat)
    (c : Option (List Nat → List Nat)) (p : Nat) (w1 : World) (hwf : WF w)
    (h : get_disk_block K disk w bn c = some (some p, w1)) :
    WF w1 ∧ (∀ b : Nat, b ≠ bn → w1.slot_of b = w.slot_of b) ∧
    ((∃ e : bufentry, w.slot_of bn = some e ∧ e.buf_ = some p ∧
        w1.slot_of bn = some { e with ref_ := e.ref_ + 1 } ∧
        w1.mem = w.mem ∧ w1.free = w.free ∧ w1.nfree = w.nfree) ∨
     (w.slot_of bn = Option.none ∧
        w1.slot_of bn = some ⟨bn, 1, ⟨false, true⟩, some p⟩ ∧
        w.free = p :: w1.free ∧ w1.nfree + 1 = w.nfree ∧
        w1.mem = Function.update w.mem p
          (apply_cleaner c (disk_bytes disk K.blocksize (bn * K.blocksize))))) := by
  rcases get_disk_block_cases K disk w bn c hwf.2.1 with
    ⟨i, e, p1, hi, href, hbn, hbuf, -, hg⟩ | ⟨hno, j, e, hj, h0, -, hc⟩ | ⟨-, -, hg⟩
  · rw [hg] at h
    obtain ⟨hp, rfl⟩ := Prod.mk.inj (Option.some.inj h)
    simp only [Option.some.injEq] at hp
    subst hp
    have hwf1 := WF_hit w i e hwf hi href
    have hset := slot_of_set w (hit_world w i e) hwf.1 hwf1.1 i e { e with ref_ := e.ref_ + 1 }
      hi rfl
    refine ⟨hwf1, ?_, Or.inl ⟨e, slot_of_eq_some w hwf.1 bn i e hi href hbn, hbuf, ?_, rfl, rfl, ?_⟩⟩
    · intro b hb
      rw [hset b]
      have h1 : ¬ (e.ref_ ≠ 0 ∧ e.bn_ = b) := fun hc => hb (hc.2.symm.trans hbn)
      simp only [ne_eq, Nat.add_one_ne_zero, not_false_eq_true, true_and]
      have h2 : ¬ e.bn_ = b := fun hc => hb (hc.symm.trans hbn)
      simp [h2]
    · rw [hset bn]; simp [hbn]
    · have := nfree_set w (hit_world w i e) i e { e with ref_ := e.ref_ + 1 } hi rfl
      simp only [href, if_false, Nat.add_one_ne_zero] at this
      omega
  · rcases hc with ⟨x, rest, hf, hg⟩ | ⟨-, hg⟩
    · rw [hg] at h
      obtain ⟨hp, rfl⟩ := Prod.mk.inj (Option.some.inj h)
      simp only [Option.some.injEq] at hp
      subst hp
      have hwf1 := WF_miss K disk c w bn j e x rest hwf hj hno hf
      have hset := slot_of_set w (miss_world K disk c w bn j e x rest) hwf.1 hwf1.1 j e
        ⟨bn, e.ref_ + 1, ⟨false, true⟩, some x⟩ hj rfl
      refine ⟨hwf1, ?_, Or.inr ⟨(slot_of_eq_none w bn).mpr hno, ?_, hf, ?_, rfl⟩⟩
      · intro b hb
        rw [hset b]
        have h2 : ¬ bn = b := fun hc => hb hc.symm
        simp [h2, h0]
      · rw [hset bn]; simp [h0]
      · have := nfree_set w (miss_world K disk c w bn j e x rest) j e
          ⟨bn, e.ref_ + 1, ⟨false, true⟩, some x⟩ hj rfl
        simp only [h0, if_true, Nat.add_one_ne_zero, if_false] at this
        omega
    · rw [hg] at h
      obtain ⟨hp, -⟩ := Prod.mk.inj (Option.some.inj h)
      cases hp
  · rw [hg] at h
    obtain ⟨hp, -⟩ := Prod.mk.inj (Option.some.inj h)
    cases hp

/-- In a well-formed state every `get_disk_block` returns. -/
theorem get_disk_block_returns (K : Geometry) (disk : Nat → Nat) (w : World) (bn : Nat)
    (c : Option (List Nat → List Nat)) (hwf : WF w) :
    ∃ (r : Option Nat) (w1 : World), get_disk_block K disk w bn c = some (r, w1) := by
  rcases get_disk_block_cases K disk w bn c hwf.2.1 with
    ⟨i, e, p1, -, -, -, -, -, hg⟩ | ⟨-, j, e, -, -, -, hc⟩ | ⟨-, -, hg⟩
  · exact ⟨_, _, hg⟩
  · rcases hc with ⟨x, rest, -, hg⟩ | ⟨-, hg⟩
    · exact ⟨_, _, hg⟩
    · exact ⟨_, _, hg⟩
  · exact ⟨_, _, hg⟩

/-- In a well-formed state `get_disk_block(bn)` returns a page exactly when the
fetch can succeed: the block is resident, or there is a free slot and a free
page. -/
theorem get_disk_block_succeeds_iff (K : Geometry) (disk : Nat → Nat) (w : World) (bn : Nat)
    (c : Option (List Nat → List Nat)) (hwf : WF w) :
    (∃ (p : Nat) (w1 : World), get_disk_block K disk w bn c = some (some p, w1)) ↔
      can_fetch w bn := by
  rcases get_disk_block_cases K disk w bn c hwf.2.1 with
    ⟨i, e, p1, hi, href, hbn, -, -, hg⟩ | ⟨hno, j, e, hj, h0, -, hc⟩ | ⟨hno, hfull, hg⟩
  · exact ⟨fun _ => Or.inl ⟨e, List.getElem?_mem hi, href, hbn⟩, fun _ => ⟨_, _, hg⟩⟩
  · rcases hc with ⟨x, rest, hf, hg⟩ | ⟨hf, hg⟩
    · exact ⟨fun _ => Or.inr ⟨⟨e, List.getElem?_mem hj, h0⟩, by simp [hf]⟩, fun _ => ⟨_, _, hg⟩⟩
    · constructor
      · rintro ⟨p, w1, h⟩
        rw [hg] at h
        obtain ⟨hp, -⟩ := Prod.mk.inj (Option.some.inj h)
        cases hp
      · rintro (⟨a, ha, hc⟩ | ⟨-, hc⟩)
        · exact absurd hc (hno a ha)
        · exact absurd hf hc
  · constructor
    · rintro ⟨p, w1, h⟩
      rw [hg] at h
      obtain ⟨hp, -⟩ := Prod.mk.inj (Option.some.inj h)
      cases hp
    · rintro (⟨a, ha, hc⟩ | ⟨⟨a, ha, hc⟩, -⟩)
      · exact absurd hc (hno a ha)
      · exact absurd hc (hfull a ha)

/-- The call `put_block(p)` on the buffer `p` of resident block `bn` in a
well-formed state: it passes its assertion, takes one reference from the slot
of `bn`, frees the page and the slot when that was the last one, and leaves
the page contents and the slots of all other blocks as they are. -/
theorem put_spec (K : Geometry) (w : World) (bn p : Nat) (e : bufentry) (hwf : WF w)
    (hs : w.slot_of bn = some e) (hb : e.buf_ = some p) :
    ∃ w1 : World, put_block K w (some p) = some w1 ∧ WF w1 ∧ w1.mem = w.mem ∧
      (∀ b : Nat, b ≠ bn → w1.slot_of b = w.slot_of b) ∧
      ((2 ≤ e.ref_ ∧ w1.slot_of bn = some { e with ref_ := e.ref_ - 1 } ∧
          w1.free = w.free ∧ w1.nfree = w.nfree) ∨
       (e.ref_ = 1 ∧ w1.slot_of bn = Option.none ∧ w1.free = p :: w.free ∧
          w1.nfree = w.nfree + 1)) := by
  obtain ⟨href, hbn, i, hi⟩ := slot_of_some_sound w bn e hs
  have hidx : w.e_.findIdx (fun e => e.ref_ != 0 && e.buf_ == some p) = i := by
    apply findIdx_first _ _ _ e hi (by simp [href, hb])
    intro k a hk ha
    by_contra hc
    simp only [bne_iff_ne, ne_eq, Bool.not_eq_false, Bool.and_eq_true, decide_eq_true_eq,
      beq_iff_eq] at hc
    have := hwf.2.2.1 k i a e p ha hi hc.2 hb
    omega
  by_cases h2 : 2 ≤ e.ref_
  · have hwf1 := WF_dec w i e hwf hi h2
    have hset := slot_of_set w (dec_world w i e) hwf.1 hwf1.1 i e { e with ref_ := e.ref_ - 1 }
      hi rfl
    have hr1 : e.ref_ - 1 ≠ 0 := by omega
    refine ⟨dec_world w i e, put_block_dec K w p i e hi hidx hr1, hwf1, rfl, ?_,
      Or.inl ⟨h2, ?_, rfl, ?_⟩⟩
    · intro b hb1
      rw [hset b]
      have h3 : ¬ e.bn_ = b := fun hc => hb1 (hc.symm.trans hbn)
      simp [h3]
    · rw [hset bn]; simp [hbn, hr1]
    · have := nfree_set w (dec_world w i e) i e { e with ref_ := e.ref_ - 1 } hi rfl
      simp only [href, if_false, hr1] at this
      omega
  · have h1 : e.ref_ = 1 := by omega
    have hwf1 := WF_drop K w i p e hwf hi hb
    have hset := slot_of_set w (drop_world K w i p) hwf.1 hwf1.1 i e
      ⟨K.emptyblock, 0, bufflags.none, Option.none⟩ hi rfl
    refine ⟨drop_world K w i p, put_block_drop K w p i e hi hidx (by omega), hwf1, rfl, ?_,
      Or.inr ⟨h1, ?_, rfl, ?_⟩⟩
    · intro b hb1
      rw [hset b]
      have h3 : ¬ e.bn_ = b := fun hc => hb1 (hc.symm.trans hbn)
      simp [h3]
    · rw [hset bn]; simp [hbn, href]
    · have := nfree_set w (drop_world K w i p) i e
        ⟨K.emptyblock, 0, bufflags.none, Option.none⟩ hi rfl
      simp only [href, if_false, if_true] at this
      omega

/-! ## Frame properties -/

theorem not_free_of_pinned (w : World) (hwf : WF w) (q : Nat) (hq : w.pinned q) :
    q ∉ w.free := by
  obtain ⟨b, e, hs, hb⟩ := hq
  obtain ⟨-, -, k, hk⟩ := slot_of_some_sound w b e hs
  exact hwf.2.2.2.2 e (List.getElem?_mem hk) q hb

/-- A successful `get_disk_block` keeps every pinned page pinned and unchanged. -/
theorem get_pinned (K : Geometry) (disk : Nat → Nat) (w : World) (bn : Nat)
    (c : Option (List Nat → List Nat)) (p : Nat) (w1 : World) (hwf : WF w)
    (h : get_disk_block K disk w bn c = some (some p, w1)) (q : Nat) (hq : w.pinned q) :
    w1.pinned q ∧ w1.mem q = w.mem q := by
  obtain ⟨-, hother, hc⟩ := get_spec K disk w bn c p w1 hwf h
  have hnf := not_free_of_pinned w hwf q hq
  obtain ⟨b, e, hs, hb⟩ := hq
  rcases hc with ⟨e0, hs0, hb0, hs1, hmem, -, -⟩ | ⟨hs0, hs1, hf, -, hmem⟩
  · refine ⟨?_, by rw [hmem]⟩
    by_cases hbn : b = bn
    · subst hbn
      rw [hs0] at hs; cases hs
      exact ⟨b, _, hs1, hb⟩
    · exact ⟨b, e, by rw [hother b hbn]; exact hs, hb⟩
  · have hne : q ≠ p := by
      intro hc; subst hc; rw [hf] at hnf; exact hnf (List.mem_cons_self _ _)
    refine ⟨?_, by rw [hmem, Function.update_noteq hne]⟩
    by_cases hbn : b = bn
    · subst hbn; rw [hs0] at hs; cases hs
    · exact ⟨b, e, by rw [hother b hbn]; exact hs, hb⟩

/-- The page a successful `get_disk_block(bn)` without cleaner returns holds the
block as the cache presented it before the call. -/
theorem get_contents (K : Geometry) (disk : Nat → Nat) (w : World) (bn : Nat)
    (p : Nat) (w1 : World) (hwf : WF w)
    (h : get_disk_block K disk w bn Option.none = some (some p, w1)) :
    w1.mem p = cached_block K disk w bn := by
  obtain ⟨-, -, hc⟩ := get_spec K disk w bn Option.none p w1 hwf h
  rcases hc with ⟨e0, hs0, hb0, -, hmem, -, -⟩ | ⟨hs0, -, -, -, hmem⟩
  · simp [cached_block, hs0, hb0, hmem]
  · simp [cached_block, hs0, hmem, apply_cleaner]

theorem cached_block_congr (K : Geometry) (disk : Nat → Nat) (w w1 : World) (b : Nat)
    (hs : w1.slot_of b = w.slot_of b) (hmem : ∀ q : Nat, w.pinned q → w1.mem q = w.mem q) :
    cached_block K disk w1 b = cached_block K disk w b := by
  simp only [cached_block, hs]
  cases h : w.slot_of b with
  | none => rfl
  | some e =>
    dsimp only
    cases hb : e.buf_ with
    | none => rfl
    | some q => exact hmem q ⟨b, e, h, hb⟩

/-- A successful `get_disk_block` without cleaner does not change what the cache
presents for any block. -/
theorem get_cached (K : Geometry) (disk : Nat → Nat) (w : World) (bn : Nat)
    (p : Nat) (w1 : World) (hwf : WF w)
    (h : get_disk_block K disk w bn Option.none = some (some p, w1)) (b : Nat) :
    cached_block K disk w1 b = cached_block K disk w b := by
  obtain ⟨-, hother, hc⟩ := get_spec K disk w bn Option.none p w1 hwf h
  by_cases hbn : b = bn
  · subst hbn
    rw [← get_contents K disk w b p w1 hwf h]
    rcases hc with ⟨e0, -, -, hs1, -, -, -⟩ | ⟨-, hs1, -, -, -⟩
    · rcases get_spec K disk w b Option.none p w1 hwf h with ⟨-, -, hc2⟩
      rcases hc2 with ⟨e2, hs2, hb2, hs3, -, -, -⟩ | ⟨hs2, hs3, -, -, -⟩
      · simp [cached_block, hs3, hb2]
      · simp [cached_block, hs3]
    · simp [cached_block, hs1]
  · exact cached_block_congr K disk w w1 b (hother b hbn)
      (fun q hq => (get_pinned K disk w bn Option.none p w1 hwf h q hq).2)

/-! ## States with the same cache contents -/

theorem Same.refl (w : World) : Same w w :=
  ⟨fun _ => rfl, rfl, rfl, fun _ _ => rfl⟩

theorem Same.pinned {w w1 : World} (h : Same w w1) (q : Nat) : w1.pinned q ↔ w.pinned q := by
  simp only [World.pinned, World.holds, h.1]

theorem Same.trans {w w1 w2 : World} (h1 : Same w w1) (h2 : Same w1 w2) : Same w w2 := by
  refine ⟨fun b => (h2.1 b).trans (h1.1 b), h2.2.1.trans h1.2.1, h2.2.2.1.trans h1.2.2.1, ?_⟩
  intro q hq
  rw [h2.2.2.2 q ((h1.pinned q).mpr hq), h1.2.2.2 q hq]

theorem Same.refs {w w1 : World} (h : Same w w1) (b : Nat) : w1.refs b = w.refs b := by
  simp only [World.refs, h.1]

theorem Same.cached (K : Geometry) (disk : Nat → Nat) {w w1 : World} (h : Same w w1) (b : Nat) :
    cached_block K disk w1 b = cached_block K disk w b :=
  cached_block_congr K disk w w1 b (h.1 b) h.2.2.2

theorem nfree_pos_iff (w : World) : 0 < w.nfree ↔ ∃ e ∈ w.e_, e.ref_ = 0 := by
  constructor
  · intro h
    by_contra hc
    have : w.nfree = 0 := by
      simp only [World.nfree, List.sum_eq_zero_iff, List.mem_map]
      rintro x ⟨e, he, rfl⟩
      have : ¬ e.ref_ = 0 := fun h0 => hc ⟨e, he, h0⟩
      simp [this]
    omega
  · rintro ⟨e, he, h0⟩
    have := le_sum_map_of_mem (fun e => if e.ref_ = 0 then 1 else 0) w.e_ e he
    simp only [h0, if_true] at this
    exact this

theorem can_fetch_iff (w : World) (bn : Nat) :
    can_fetch w bn ↔ (w.slot_of bn ≠ Option.none ∨ (0 < w.nfree ∧ w.free ≠ [])) := by
  simp only [can_fetch, nfree_pos_iff, ne_eq, slot_of_eq_none, not_forall, not_not]
  constructor
  · rintro (⟨e, he, hc⟩ | h)
    · exact Or.inl ⟨e, he, hc⟩
    · exact Or.inr h
  · rintro (⟨e, he, hc⟩ | h)
    · exact Or.inl ⟨e, he, hc⟩
    · exact Or.inr h

theorem Same.can_fetch {w w1 : World} (h : Same w w1) (bn : Nat) :
    can_fetch w1 bn ↔ can_fetch w bn := by
  rw [can_fetch_iff, can_fetch_iff, h.1, h.2.1, h.2.2.1]

/-- Releasing the page a `get_disk_block` returned, in a state with the cache
contents the call left, brings back the cache contents from before the
call. -/
theorem release_after (K : Geometry) (disk : Nat → Nat) (w : World) (bn : Nat)
    (c : Option (List Nat → List Nat)) (p : Nat) (w1 w3 : World) (hwf : WF w)
    (hg : get_disk_block K disk w bn c = some (some p, w1)) (hwf3 : WF w3) (hs : Same w1 w3) :
    ∃ w4 : World, put_block K w3 (some p) = some w4 ∧ WF w4 ∧ Same w w4 := by
  obtain ⟨-, hother, hc⟩ := get_spec K disk w bn c p w1 hwf hg
  have hmem : ∀ q : Nat, w.pinned q → w3.mem q = w.mem q := by
    intro q hq
    obtain ⟨hq1, hm1⟩ := get_pinned K disk w bn c p w1 hwf hg q hq
    rw [hs.2.2.2 q hq1, hm1]
  rcases hc with ⟨e0, hs0, hb0, hs1, -, hfree, hnfree⟩ | ⟨hs0, hs1, hfree, hnfree, -⟩
  · obtain ⟨w4, hput, hwf4, hmem4, hother4, hc4⟩ := put_spec K w3 bn p
      { e0 with ref_ := e0.ref_ + 1 } hwf3 (by rw [hs.1, hs1]) hb0
    refine ⟨w4, hput, hwf4, ?_, ?_, ?_, ?_⟩
    · intro b
      by_cases hb : b = bn
      · subst hb
        rcases hc4 with ⟨-, h5, -, -⟩ | ⟨h5, -, -, -⟩
        · rw [h5, hs0]; cases e0; simp
        · simp only at h5
          have := (slot_of_some_sound w b e0 hs0).1
          omega
      · rw [hother4 b hb, hs.1, hother b hb]
    · rcases hc4 with ⟨-, -, -, h5⟩ | ⟨h5, -, -, -⟩
      · rw [h5, hs.2.1, hnfree]
      · simp only at h5
        have := (slot_of_some_sound w bn e0 hs0).1
        omega
    · rcases hc4 with ⟨-, -, h5, -⟩ | ⟨h5, -, -, -⟩
      · rw [h5, hs.2.2.1, hfree]
      · simp only at h5
        have := (slot_of_some_sound w bn e0 hs0).1
        omega
    · intro q hq; rw [hmem4]; exact hmem q hq
  · obtain ⟨w4, hput, hwf4, hmem4, hother4, hc4⟩ := put_spec K w3 bn p
      ⟨bn, 1, ⟨false, true⟩, some p⟩ hwf3 (by rw [hs.1, hs1]) rfl
    refine ⟨w4, hput, hwf4, ?_, ?_, ?_, ?_⟩
    · intro b
      by_cases hb : b = bn
      · subst hb
        rcases hc4 with ⟨h5, -, -, -⟩ | ⟨-, h5, -, -⟩
        · simp only at h5; omega
        · rw [h5, hs0]
      · rw [hother4 b hb, hs.1, hother b hb]
    · rcases hc4 with ⟨h5, -, -, -⟩ | ⟨-, -, -, h5⟩
      · simp only at h5; omega
      · rw [h5, hs.2.1]; omega
    · rcases hc4 with ⟨h5, -, -, -⟩ | ⟨-, -, h5, -⟩
      · simp only at h5; omega
      · rw [h5, hs.2.2.1, hfree]
    · intro q hq; rw [hmem4]; exact hmem q hq

/-- Fetching a block that can be fetched and releasing it again: both calls
succeed, the page read in between holds the block as the cache presents it,
and the cache contents are afterwards as before. -/
theorem fetch_release (K : Geometry) (disk : Nat → Nat) (w : World) (bn : Nat) (hwf : WF w)
    (hf : can_fetch w bn) :
    ∃ (p : Nat) (w1 w2 : World),
      get_disk_block K disk w bn Option.none = some (some p, w1) ∧
      w1.mem p = cached_block K disk w bn ∧
      put_block K w1 (some p) = some w2 ∧ WF w2 ∧ Same w w2 := by
  obtain ⟨p, w1, hg⟩ := (get_disk_block_succeeds_iff K disk w bn Option.none hwf).mpr hf
  obtain ⟨hwf1, -, -⟩ := get_spec K disk w bn Option.none p w1 hwf hg
  obtain ⟨w2, hput, hwf2, hsame⟩ :=
    release_after K disk w bn Option.none p w1 w1 hwf hg hwf1 (Same.refl w1)
  exact ⟨p, w1, w2, hg, get_contents K disk w bn p w1 hwf hg, hput, hwf2, hsame⟩

/-! ## `get_inode` -/

theorem get_refs (K : Geometry) (disk : Nat → Nat) (w : World) (bn : Nat)
    (c : Option (List Nat → List Nat)) (p : Nat) (w1 : World) (hwf : WF w)
    (h : get_disk_block K disk w bn c = some (some p, w1)) :
    w1.holds bn p ∧ ∀ b : Nat, w1.refs b = w.refs b + (if b = bn then 1 else 0) := by
  obtain ⟨-, hother, hc⟩ := get_spec K disk w bn c p w1 hwf h
  rcases hc with ⟨e0, hs0, hb0, hs1, -, -, -⟩ | ⟨hs0, hs1, -, -, -⟩
  · refine ⟨⟨_, hs1, hb0⟩, ?_⟩
    intro b
    by_cases hb : b = bn
    · subst hb; simp [World.refs, hs0, hs1]
    · simp [World.refs, hother b hb, hb]
  · refine ⟨⟨_, hs1, rfl⟩, ?_⟩
    intro b
    by_cases hb : b = bn
    · subst hb; simp [World.refs, hs0, hs1]
    · simp [World.refs, hother b hb, hb]

/-- Reading the superblock: when block 0 can be fetched, the call returns the
two fields of block 0 as the cache presents it and leaves the cache contents
as they were. -/
theorem read_superblock_spec (K : Geometry) (disk : Nat → Nat) (w : World) (hwf : WF w)
    (h0 : can_fetch w 0) :
    ∃ w2 : World,
      read_superblock K disk w
        = some ((superblock_inode_bn K disk w, superblock_ninodes K disk w), w2) ∧
      WF w2 ∧ Same w w2 := by
  obtain ⟨p, w1, w2, hg, hmem, hput, hwf2, hsame⟩ := fetch_release K disk w 0 hwf h0
  refine ⟨w2, ?_, hwf2, hsame⟩
  simp [read_superblock, hg, hput, hmem, superblock_inode_bn, superblock_ninodes]

/-- C7. In a well-formed state in which the cache fetches can succeed (block 0 can be
fetched and, for a valid `inum`, so can the inode block), `get_inode(inum)`
returns; it returns `nullptr` if and only if `inum == 0` or `inum >= ninodes`;
otherwise the returned pointer is the inode at index `inum % inodesperblock` of
the resident page of block `inode_bn + inum / inodesperblock` (a 32-bit block
number), whose bytes are that block as the cache presented it. The call adds
exactly one reference to that block when it returns an inode, and leaves the
reference count of every other block, block 0 included, as it was. -/
theorem get_inode_spec (K : Geometry) (disk : Nat → Nat) (w : World) (inum : Nat)
    (hwf : WF w) (h0 : can_fetch w 0)
    (h1 : 0 < inum → inum < superblock_ninodes K disk w →
      can_fetch w (inode_block K disk w inum)) :
    ∃ (r : Option inode_ptr) (w1 : World),
      get_inode K disk w inum = some (r, w1) ∧
      (r = Option.none ↔ (inum = 0 ∨ superblock_ninodes K disk w ≤ inum)) ∧
      (∀ ino : inode_ptr, r = some ino →
        ino.idx = inum % K.inodesperblock ∧
        w1.holds (inode_block K disk w inum) ino.page ∧
        w1.mem ino.page = cached_block K disk w (inode_block K disk w inum)) ∧
      (∀ b : Nat, w1.refs b
        = w.refs b + (if r ≠ Option.none ∧ b = inode_block K disk w inum then 1 else 0)) := by
  obtain ⟨w2, hsb, hwf2, hsame⟩ := read_superblock_spec K disk w hwf h0
  by_cases hv : 0 < inum ∧ inum < superblock_ninodes K disk w
  · have hf2 : can_fetch w2 (inode_block K disk w inum) :=
      (hsame.can_fetch _).mpr (h1 hv.1 hv.2)
    obtain ⟨p, w3, hg⟩ := (get_disk_block_succeeds_iff K disk w2 _ Option.none hwf2).mpr hf2
    obtain ⟨hholds, hrefs⟩ := get_refs K disk w2 _ Option.none p w3 hwf2 hg
    have hmem := get_contents K disk w2 _ p w3 hwf2 hg
    rw [hsame.cached K disk] at hmem
    refine ⟨some ⟨p, inum % K.inodesperblock⟩, w3, ?_, ?_, ?_, ?_⟩
    · simp only [get_inode, hsb, hv, and_self, if_true]
      simp only [inode_block] at hg
      rw [hg]
    · constructor
      · intro h; cases h
      · intro h; omega
    · intro ino hino
      cases hino
      exact ⟨rfl, hholds, hmem⟩
    · intro b
      rw [hrefs b, hsame.refs b]
      simp
  · refine ⟨Option.none, w2, ?_, ?_, ?_, ?_⟩
    · simp only [get_inode, hsb, hv, if_false]
    · constructor
      · intro _; omega
      · intro _; rfl
    · intro ino hino; cases hino
    · intro b
      rw [hsame.refs b]
      simp

/-! ## `get_data_page` -/

theorem read32_lt (bs : List Nat) (o : Nat) : read32 bs o < 2 ^ 32 := by
  simp only [read32]
  have h0 := Nat.mod_lt (bs.getD o 0) (by decide : 0 < 256)
  have h1 := Nat.mod_lt (bs.getD (o + 1) 0) (by decide : 0 < 256)
  have h2 := Nat.mod_lt (bs.getD (o + 2) 0) (by decide : 0 < 256)
  have h3 := Nat.mod_lt (bs.getD (o + 3) 0) (by decide : 0 < 256)
  omega

theorem ino_field_congr (K : Geometry) (w w1 : World) (ino : inode_ptr) (fld : Nat)
    (h : w1.mem ino.page = w.mem ino.page) : ino_field K w1 ino fld = ino_field K w ino fld := by
  simp only [ino_field, h]

/-- The translation of `get_data_page`, when it returns: the block number is 0
past the end of the file and the address map's otherwise, and the cache
contents are as before the call. -/
theorem databn_sound (K : Geometry) (disk : Nat → Nat) (w : World) (ino : inode_ptr)
    (off : Nat) (d : Nat) (w1 : World) (hwf : WF w)
    (h : get_data_page_databn K disk w ino off = some (d, w1)) :
    WF w1 ∧ Same w w1 ∧
    d = (if ino_field K w ino K.ino_size ≤ off then 0 else address_map K disk w ino off) := by
  unfold get_data_page_databn at h
  have hsz := read32_lt (w.mem ino.page) (ino.idx * K.inodesize + K.ino_size)
  by_cases hoff : ino_field K w ino K.ino_size ≤ off
  · simp only [hoff, if_true, Option.some.injEq, Prod.mk.injEq] at h
    obtain ⟨rfl, rfl⟩ := h
    exact ⟨hwf, Same.refl w, by simp [hoff]⟩
  · simp only [hoff, if_false] at h ⊢
    have hbi : off / K.blocksize % 2 ^ 32 = off / K.blocksize := by
      apply Nat.mod_eq_of_lt
      have h1 : off / K.blocksize ≤ off := Nat.div_le_self _ _
      simp only [ino_field] at hoff
      omega
    rw [hbi] at h
    by_cases hd : off / K.blocksize < K.ndirect
    · simp only [hd, if_true, Option.some.injEq, Prod.mk.injEq] at h
      obtain ⟨rfl, rfl⟩ := h
      exact ⟨hwf, Same.refl w, by simp [address_map, hd]⟩
    · simp only [hd, if_false] at h
      by_cases hi : off / K.blocksize < K.ndirect + K.nindirect
      · simp only [hi, if_true] at h
        cases hg : get_disk_block K disk w (ino_field K w ino K.ino_indirect) Option.none with
        | none => simp [hg] at h
        | some t =>
          obtain ⟨r, w2⟩ := t
          cases r with
          | none => simp [hg] at h
          | some p =>
            simp only [hg, Option.map_eq_some'] at h
            obtain ⟨w3, hput, h3⟩ := h
            simp only [Prod.mk.injEq] at h3
            obtain ⟨rfl, rfl⟩ := h3
            obtain ⟨hwf2, -, -⟩ := get_spec K disk w _ Option.none p w2 hwf hg
            obtain ⟨w4, hput4, hwf4, hsame4⟩ :=
              release_after K disk w _ Option.none p w2 w2 hwf hg hwf2 (Same.refl w2)
            rw [hput] at hput4
            cases hput4
            refine ⟨hwf4, hsame4, ?_⟩
            rw [get_contents K disk w _ p w2 hwf hg]
            simp [address_map, hd, hi]
      · simp only [hi, if_false] at h
        cases hg : get_disk_block K disk w (ino_field K w ino K.ino_indirect2) Option.none with
        | none => simp [hg] at h
        | some t =>
          obtain ⟨r, w2⟩ := t
          cases r with
          | none => simp [hg] at h
          | some p2 =>
            simp only [hg] at h
            have hc2 := get_contents K disk w _ p2 w2 hwf hg
            rw [hc2] at h
            obtain ⟨hwf2, -, -⟩ := get_spec K disk w _ Option.none p2 w2 hwf hg
            cases hg1 : get_disk_block K disk w2
                (read32 (cached_block K disk w (ino_field K w ino K.ino_indirect2))
                  (4 * ((off / K.blocksize - (K.ndirect + K.nindirect)) / K.nindirect)))
                Option.none with
            | none => simp [hg1] at h
            | some t1 =>
              obtain ⟨r1, w3⟩ := t1
              cases r1 with
              | none => simp [hg1] at h
              | some p1 =>
                simp only [hg1] at h
                have hc1 := get_contents K disk w2 _ p1 w3 hwf2 hg1
                rw [get_cached K disk w _ p2 w2 hwf hg] at hc1
                obtain ⟨hwf3, -, -⟩ := get_spec K disk w2 _ Option.none p1 w3 hwf2 hg1
                obtain ⟨w4, hput4, hwf4, hsame4⟩ :=
                  release_after K disk w2 _ Option.none p1 w3 w3 hwf2 hg1 hwf3 (Same.refl w3)
                rw [hput4] at h
                simp only [Option.map_eq_some'] at h
                obtain ⟨w5, hput5, h5⟩ := h
                simp only [Prod.mk.injEq] at h5
                obtain ⟨rfl, rfl⟩ := h5
                obtain ⟨w6, hput6, hwf6, hsame6⟩ :=
                  release_after K disk w _ Option.none p2 w2 w4 hwf hg hwf4 hsame4
                rw [hput5] at hput6
                cases hput6
                refine ⟨hwf6, hsame6, ?_⟩
                rw [hc1]
                simp [address_map, hd, hi, Nat.sub_sub]

/-- The translation of `get_data_page` returns when the fetches it makes can
succeed: the fetch of `ino->indirect` in the single-indirect range; in the
double-indirect range the fetch of `ino->indirect2` and, in the state that
fetch leaves, the fetch of the block its selected entry names. -/
theorem databn_returns (K : Geometry) (disk : Nat → Nat) (w : World) (ino : inode_ptr)
    (off : Nat) (hwf : WF w)
    (hind : K.ndirect ≤ off / K.blocksize → off / K.blocksize < K.ndirect + K.nindirect →
      can_fetch w (ino_field K w ino K.ino_indirect))
    (hind2 : K.ndirect + K.nindirect ≤ off / K.blocksize →
      can_fetch w (ino_field K w ino K.ino_indirect2) ∧
      ∀ (p : Nat) (w1 : World),
        get_disk_block K disk w (ino_field K w ino K.ino_indirect2) Option.none
          = some (some p, w1) →
        can_fetch w1 (read32 (cached_block K disk w (ino_field K w ino K.ino_indirect2))
          (4 * ((off / K.blocksize - K.ndirect - K.nindirect) / K.nindirect)))) :
    ∃ (d : Nat) (w1 : World), get_data_page_databn K disk w ino off = some (d, w1) := by
  unfold get_data_page_databn
  have hsz := read32_lt (w.mem ino.page) (ino.idx * K.inodesize + K.ino_size)
  by_cases hoff : ino_field K w ino K.ino_size ≤ off
  · simp only [hoff, if_true]; exact ⟨_, _, rfl⟩
  · simp only [hoff, if_false]
    have hbi : off / K.blocksize % 2 ^ 32 = off / K.blocksize := by
      apply Nat.mod_eq_of_lt
      have h1 : off / K.blocksize ≤ off := Nat.div_le_self _ _
      simp only [ino_field] at hoff
      omega
    rw [hbi]
    by_cases hd : off / K.blocksize < K.ndirect
    · simp only [hd, if_true]; exact ⟨_, _, rfl⟩
    · simp only [hd, if_false]
      by_cases hi : off / K.blocksize < K.ndirect + K.nindirect
      · simp only [hi, if_true]
        obtain ⟨p, w1, w2, hg, -, hput, -, -⟩ :=
          fetch_release K disk w _ hwf (hind (by omega) hi)
        simp only [hg, hput, Option.map_some']; exact ⟨_, _, rfl⟩
      · simp only [hi, if_false]
        obtain ⟨hf2, hf1⟩ := hind2 (by omega)
        obtain ⟨p2, w1, hg⟩ := (get_disk_block_succeeds_iff K disk w _ Option.none hwf).mpr hf2
        obtain ⟨hwf1, -, -⟩ := get_spec K disk w _ Option.none p2 w1 hwf hg
        have hc2 := get_contents K disk w _ p2 w1 hwf hg
        have hf := hf1 p2 w1 hg
        rw [Nat.sub_sub] at hf
        obtain ⟨p1, w2, w3, hg1, -, hput1, hwf3, hsame3⟩ := fetch_release K disk w1 _ hwf1 hf
        obtain ⟨w4, hput4, -, -⟩ :=
          release_after K disk w _ Option.none p2 w1 w3 hwf hg hwf3 hsame3
        simp only [hg, hc2, hg1, hput1, hput4, Option.map_some']; exact ⟨_, _, rfl⟩

/-- C9. Address map: in a well-formed state, for a block-aligned `off` below the inode's
`size` whose block index `bi = off / B` is below `Nd + Ni + Ni*Ni`, and
assuming the fetches of the translation can succeed, the translation of
`get_data_page` returns the block number of the address map (`direct[bi]`;
entry `bi - Nd` of block `indirect`; entry `(bi - Nd - Ni) mod Ni` of the block
named by entry `(bi - Nd - Ni) / Ni` of block `indirect2`, an entry inside the
block), leaving the cache contents as they were; and a page `get_data_page`
returns is the resident page of that block, which is not block 0. -/
theorem get_data_page_address_map (K : Geometry) (disk : Nat → Nat) (w : World)
    (ino : inode_ptr) (off : Nat) (hwf : WF w)
    (hal : off % K.blocksize = 0)
    (hoff : off < ino_field K w ino K.ino_size)
    (hbi : off / K.blocksize < K.ndirect + K.nindirect + K.nindirect * K.nindirect)
    (hind : K.ndirect ≤ off / K.blocksize → off / K.blocksize < K.ndirect + K.nindirect →
      can_fetch w (ino_field K w ino K.ino_indirect))
    (hind2 : K.ndirect + K.nindirect ≤ off / K.blocksize →
      can_fetch w (ino_field K w ino K.ino_indirect2) ∧
      ∀ (p : Nat) (w1 : World),
        get_disk_block K disk w (ino_field K w ino K.ino_indirect2) Option.none
          = some (some p, w1) →
        can_fetch w1 (read32 (cached_block K disk w (ino_field K w ino K.ino_indirect2))
          (4 * ((off / K.blocksize - K.ndirect - K.nindirect) / K.nindirect)))) :
    ∃ w1 : World,
      get_data_page_databn K disk w ino off = some (address_map K disk w ino off, w1) ∧
      WF w1 ∧ Same w w1 ∧
      (K.ndirect + K.nindirect ≤ off / K.blocksize →
        (off / K.blocksize - K.ndirect - K.nindirect) / K.nindirect < K.nindirect) ∧
      ∀ (p n : Nat) (w2 : World),
        get_data_page K disk w ino off = some ((some p, n), w2) →
        address_map K disk w ino off ≠ 0 ∧ w2.holds (address_map K disk w ino off) p := by
  obtain ⟨d, w1, hd⟩ := databn_returns K disk w ino off hwf hind hind2
  obtain ⟨hwf1, hsame, hdv⟩ := databn_sound K disk w ino off d w1 hwf hd
  have hn : ¬ ino_field K w ino K.ino_size ≤ off := by omega
  rw [if_neg hn] at hdv
  subst hdv
  refine ⟨w1, hd, hwf1, hsame, ?_, ?_⟩
  · intro hge
    by_cases hNi : K.nindirect = 0
    · simp only [hNi] at hbi hge; omega
    · rw [Nat.div_lt_iff_lt_mul (Nat.pos_of_ne_zero hNi)]
      omega
  · intro p n w2 hpage
    simp only [get_data_page, hal, ne_eq, not_true_eq_false, if_false, hd] at hpage
    by_cases h0 : address_map K disk w ino off = 0
    · simp [h0] at hpage
    · simp only [h0, not_false_eq_true, if_true] at hpage
      cases hg : get_disk_block K disk w1 (address_map K disk w ino off) Option.none with
      | none => simp [hg] at hpage
      | some t =>
        obtain ⟨r, w3⟩ := t
        simp only [hg, Option.some.injEq, Prod.mk.injEq] at hpage
        obtain ⟨⟨rfl, -⟩, rfl⟩ := hpage
        exact ⟨h0, (get_refs K disk w1 _ Option.none p w3 hwf1 hg).1⟩

/-- C10. In a well-formed state, with the inode's page pinned, whenever
`get_data_page(ino, off)` returns a page, `off` is below the inode's `size` and
the valid-byte count is `min(B, size - off)`; for the last block of the file
(`size <= off + B`) that is `size mod B` when `size` is not a multiple of `B`
and `B` when it is. -/
theorem get_data_page_valid_bytes (K : Geometry) (disk : Nat → Nat) (w : World)
    (ino : inode_ptr) (off p n : Nat) (w2 : World) (hwf : WF w) (hpin : w.pinned ino.page)
    (h : get_data_page K disk w ino off = some ((some p, n), w2)) :
    off < ino_field K w ino K.ino_size ∧
    n = min K.blocksize (ino_field K w ino K.ino_size - off) ∧
    (ino_field K w ino K.ino_size ≤ off + K.blocksize →
      n = if ino_field K w ino K.ino_size % K.blocksize = 0 then K.blocksize
          else ino_field K w ino K.ino_size % K.blocksize) := by
  unfold get_data_page at h
  by_cases hal : off % K.blocksize = 0
  · simp only [hal, ne_eq, not_true_eq_false, if_false] at h
    cases hd : get_data_page_databn K disk w ino off with
    | none => simp [hd] at h
    | some t =>
      obtain ⟨d, w1⟩ := t
      obtain ⟨hwf1, hsame, hdv⟩ := databn_sound K disk w ino off d w1 hwf hd
      simp only [hd] at h
      by_cases h0 : d = 0
      · simp [h0] at h
      · simp only [h0, not_false_eq_true, if_true] at h
        cases hg : get_disk_block K disk w1 d Option.none with
        | none => simp [hg] at h
        | some t1 =>
          obtain ⟨r, w3⟩ := t1
          simp only [hg, Option.some.injEq, Prod.mk.injEq] at h
          obtain ⟨⟨rfl, hn⟩, rfl⟩ := h
          have hmem : w3.mem ino.page = w.mem ino.page := by
            rw [(get_pinned K disk w1 d Option.none p w3 hwf1 hg ino.page
              ((hsame.pinned _).mpr hpin)).2, hsame.2.2.2 _ hpin]
          rw [ino_field_congr K w w3 ino K.ino_size hmem] at hn
          have hlt : off < ino_field K w ino K.ino_size := by
            by_contra hc
            rw [if_pos (by omega)] at hdv
            exact h0 hdv
          simp only [Option.isSome_some, true_and, if_true] at hn
          refine ⟨hlt, ?_, ?_⟩
          · rw [← hn]
            split_ifs <;> omega
          · intro hlast
            have hn2 : n = ino_field K w ino K.ino_size - off := by
              rw [← hn]; split_ifs <;> omega
            obtain ⟨k, hk⟩ := Nat.dvd_of_mod_eq_zero hal
            have hsize : ino_field K w ino K.ino_size = K.blocksize * k + n := by omega
            by_cases hfull : n = K.blocksize
            · have : ino_field K w ino K.ino_size % K.blocksize = 0 := by
                rw [hsize, hfull, Nat.mul_add_mod, Nat.mod_self]
              rw [if_pos this]; exact hfull
            · have hnlt : n < K.blocksize := by omega
              have : ino_field K w ino K.ino_size % K.blocksize = n := by
                rw [hsize, Nat.mul_add_mod, Nat.mod_eq_of_lt hnlt]
              rw [this, if_neg (by omega)]
  · simp [hal] at h

/-! ## Well-formedness along runs -/

/-- A `get_disk_block` without a failed allocation keeps the state well-formed. -/
theorem WF_get (K : Geometry) (disk : Nat → Nat) (w : World) (bn : Nat)
    (c : Option (List Nat → List Nat)) (r : Option Nat) (w1 : World) (hwf : WF w)
    (h : get_disk_block K disk w bn c = some (r, w1))
    (halloc : Event.kalloc Option.none ∉ w1.events) : WF w1 := by
  rcases get_disk_block_cases K disk w bn c hwf.2.1 with
    ⟨i, e, p, hi, href, -, -, -, hg⟩ | ⟨hno, j, e, hj, -, -, hc⟩ | ⟨-, -, hg⟩
  · rw [hg] at h
    obtain ⟨-, rfl⟩ := Prod.mk.inj (Option.some.inj h)
    exact WF_hit w i e hwf hi href
  · rcases hc with ⟨x, rest, hf, hg⟩ | ⟨-, hg⟩
    · rw [hg] at h
      obtain ⟨-, rfl⟩ := Prod.mk.inj (Option.some.inj h)
      exact WF_miss K disk c w bn j e x rest hwf hj hno hf
    · rw [hg] at h
      obtain ⟨-, rfl⟩ := Prod.mk.inj (Option.some.inj h)
      exact absurd (by simp [leak_world]) halloc
  · rw [hg] at h
    obtain ⟨-, rfl⟩ := Prod.mk.inj (Option.some.inj h)
    exact hwf

/-- A `put_block` that passes its assertion keeps the state well-formed. -/
theorem WF_put (K : Geometry) (w : World) (p : Nat) (w1 : World) (hwf : WF w)
    (h : put_block K w (some p) = some w1) : WF w1 := by
  obtain ⟨i, e, hi, -, hbuf, -, hc⟩ := put_block_cases K w p w1 h
  rcases hc with ⟨-, rfl⟩ | ⟨h2, rfl⟩
  · exact WF_drop K w i p e hwf hi hbuf
  · exact WF_dec w i e hwf hi h2

/-- Every state of a run from a well-formed state (such as the empty cache with
distinct free pages, `WF_boot`) in which no `kalloc` fails is well-formed. -/
theorem WF_run (K : Geometry) (disk : Nat → Nat) :
    ∀ (ops : List Op) (w w1 : World) (gets puts : List Nat), WF w →
      run K disk w ops = some (w1, gets, puts) →
      Event.kalloc Option.none ∉ w1.events → WF w1 := by
  intro ops
  induction ops with
  | nil =>
    intro w w1 gets puts hwf h _
    simp only [run, Option.some.injEq, Prod.mk.injEq] at h
    rw [← h.1]; exact hwf
  | cons op ops ih =>
    intro w w1 gets puts hwf h halloc
    cases op with
    | get bn c =>
      simp only [run] at h
      cases hg : get_disk_block K disk w bn c with
      | none => rw [hg] at h; cases h
      | some t =>
        obtain ⟨r, w2⟩ := t
        rw [hg] at h
        simp only [Option.map_eq_some'] at h
        obtain ⟨⟨w3, g3, p3⟩, h3, h4⟩ := h
        simp only [Prod.mk.injEq] at h4
        obtain ⟨rfl, -, -⟩ := h4
        obtain ⟨l2, hl2⟩ := run_events K disk ops w2 w3 g3 p3 h3
        have halloc2 : Event.kalloc Option.none ∉ w2.events := by
          intro hc; apply halloc; rw [hl2]; exact List.mem_append_left _ hc
        exact ih w2 w3 g3 p3 (WF_get K disk w bn c r w2 hwf hg halloc2) h3 halloc
    | put p =>
      simp only [run] at h
      cases hg : put_block K w (some p) with
      | none => rw [hg] at h; cases h
      | some w2 =>
        rw [hg] at h
        simp only [Option.map_eq_some'] at h
        obtain ⟨⟨w3, g3, p3⟩, h3, h4⟩ := h
        simp only [Prod.mk.injEq] at h4
        obtain ⟨rfl, -, -⟩ := h4
        exact ih w2 w3 g3 p3 (WF_put K w p w2 hwf hg) h3 halloc

/-! ## Concrete runs -/

theorem state0_WF : WF state0 :=
  WF_boot K0 3 (fun _ => []) [100, 200, 300] [] (by decide)

theorem state1_get :
    get_disk_block K0 disk0 state0 1 Option.none = some (some 100, state1) :=
  get_disk_block_miss K0 disk0 state0 1 Option.none 0
    ⟨K0.emptyblock, 0, bufflags.none, Option.none⟩ 100 [200, 300]
    (by decide) (by decide) (by decide) rfl rfl

theorem state1_WF : WF state1 :=
  (get_spec K0 disk0 state0 1 Option.none 100 state1 state0_WF state1_get).1

theorem state1_pinned : state1.pinned ino1.page :=
  ⟨1, ⟨1, 1, ⟨false, true⟩, some 100⟩, by decide, rfl⟩

/-- Witness of C1: block 5 is loaded into the empty cache `state0` through the inode
cleaner. -/
theorem get_disk_block_loads_witness :
    I2 state0 ∧ (∀ e ∈ state0.e_, ¬ (e.ref_ ≠ 0 ∧ e.bn_ = 5)) ∧ (∃ e ∈ state0.e_, e.ref_ = 0) ∧
    state0.free ≠ [] ∧
    ∃ (p : Nat) (w1 : World) (i : Nat),
      get_disk_block K0 disk0 state0 5 (some (clean_inode_block K0)) = some (some p, w1) ∧
      w1.mem p = apply_cleaner (some (clean_inode_block K0))
        (disk_bytes disk0 K0.blocksize (5 * K0.blocksize)) ∧
      (∃ e, state0.e_[i]? = some e ∧ e.ref_ = 0) ∧
      w1.e_ = state0.e_.set i ⟨5, 1, ⟨false, true⟩, some p⟩ ∧
      w1.events = state0.events ++ [Event.kalloc (some p), Event.disk_read (5 * K0.blocksize)] :=
  ⟨I2_boot K0 3 _ _ [], by decide, by decide, by decide,
    get_disk_block_loads K0 disk0 state0 5 (some (clean_inode_block K0))
      (I2_boot K0 3 _ _ []) (by decide) (by decide) (by decide)⟩

/-- Witness of C2: block 1 is resident in slot 0 of `state1`. -/
theorem get_disk_block_resident_witness :
    I1 state1 ∧ state1.e_[0]? = some ⟨1, 1, ⟨false, true⟩, some 100⟩ ∧
    get_disk_block K0 disk0 state1 1 Option.none
      = some (some 100, { state1 with e_ := state1.e_.set 0 ⟨1, 2, ⟨false, true⟩, some 100⟩ }) :=
  ⟨state1_WF.1, by decide,
    get_disk_block_resident K0 disk0 state1 1 Option.none 0 ⟨1, 1, ⟨false, true⟩, some 100⟩
      state1_WF.1 (by decide) (by decide) rfl rfl⟩

/-- Witness of C3: the invariant passes from `state0` to `state1` along
`get_disk_block(1)`. -/
theorem uniqueness_invariant_witness :
    I1 state0 ∧ get_disk_block K0 disk0 state0 1 Option.none = some (some 100, state1) ∧
    I1 state1 :=
  ⟨state0_WF.1, state1_get,
    (uniqueness_invariant K0 disk0).1 state0 1 Option.none (some 100) state1 state0_WF.1
      state1_get⟩

/-- Witness of C4: the matched sequence `ops0` from the empty cache `state0`. -/
theorem round_trip_witness :
    (∀ e ∈ state0.e_, e.ref_ = 0 ∧ e.buf_ = Option.none ∧ e.flags_ = bufflags.none) ∧
    ∃ (w : World) (gets puts : List Nat),
      run K0 disk0 state0 ops0 = some (w, gets, puts) ∧
      Event.kalloc Option.none ∉ w.events ∧ (∀ q : Nat, gets.count q = puts.count q) ∧
      ∀ e ∈ w.e_, e.ref_ = 0 ∧ e.buf_ = Option.none ∧ e.flags_ = bufflags.none := by
  have hempty : ∀ e ∈ state0.e_,
      e.ref_ = 0 ∧ e.buf_ = Option.none ∧ e.flags_ = bufflags.none := by decide
  have hres : (run K0 disk0 state0 ops0).map
      (fun t => (decide (Event.kalloc Option.none ∈ t.1.events), t.2.1, t.2.2))
      = some (false, [100, 100, 200], [100, 200, 100]) := by decide
  refine ⟨hempty, ?_⟩
  cases h : run K0 disk0 state0 ops0 with
  | none => rw [h] at hres; cases hres
  | some t =>
    obtain ⟨w, gets, puts⟩ := t
    rw [h] at hres
    simp only [Option.map_some', Option.some.injEq, Prod.mk.injEq, decide_eq_false_iff_not] at hres
    obtain ⟨halloc, rfl, rfl⟩ := hres
    have hmatch : ∀ q : Nat, [100, 100, 200].count q = [100, 200, 100].count q :=
      fun q => List.Perm.count_eq (by decide) q
    exact ⟨w, _, _, rfl, halloc, hmatch,
      round_trip K0 disk0 state0 ops0 w _ _ hempty h halloc hmatch⟩

/-- Witness of C5: the one-slot cache `state_full` holds block 5 in page 100 and is
asked for block 6; page 100 is then put back. -/
theorem get_disk_block_cache_full_witness :
    (∀ e ∈ state_full.e_, e.ref_ ≠ 0) ∧ (∀ e ∈ state_full.e_, e.bn_ ≠ 6) ∧
    get_disk_block K0 disk0 state_full 6 Option.none = some (Option.none, state_full) ∧
    ∃ (i : Nat) (e : bufentry) (w1 : World), state_full.e_[i]? = some e ∧ e.buf_ = some 100 ∧
      put_n K0 state_full 100 e.ref_ = some w1 ∧ (∃ e1, w1.e_[i]? = some e1 ∧ e1.ref_ = 0) ∧
      ∃ (q : Nat) (w2 : World),
        get_disk_block K0 disk0 w1 6 Option.none = some (some q, w2) :=
  ⟨by decide, by decide,
    (get_disk_block_cache_full K0 disk0 state_full 6 Option.none (by decide) (by decide)).1,
    (get_disk_block_cache_full K0 disk0 state_full 6 Option.none (by decide) (by decide)).2
      100 (by decide)⟩

/-- C6 (evaluation). A cache with one free slot and an allocator without pages:
`get_disk_block(5)` returns `nullptr`, and the slot that had `ref_ == 0`,
before the call has `ref_ == 1` after it. -/
theorem alloc_failure_leaks_reference :
    (boot K0 1 []).e_.map bufentry.ref_ = [0] ∧
    (get_disk_block K0 disk0 (boot K0 1 []) 5 Option.none).map
      (fun t => (t.1, t.2.e_, t.2.events))
      = some (Option.none, [⟨5, 1, bufflags.none, Option.none⟩], [Event.kalloc Option.none]) := by
  decide

/-- C8 (evaluation). On the disk `disk0`, where inode 1 has `mlock = 7` and `mref = 9`
on disk and its block is not resident, `get_inode(1)` loads the block and
returns the inode with `mlock == 7` and `mref == 9` in memory; loading the
same block through `clean_inode_block` gives 0 for both. -/
theorem get_inode_skips_cleaner :
    state0.slot_of 1 = Option.none ∧
    (get_inode K0 disk0 state0 1).map
      (fun t => t.1.map (fun i => (i, ino_field K0 t.2 i K0.ino_mlock,
        ino_field K0 t.2 i K0.ino_mref)))
      = some (some (⟨100, 1⟩, 7, 9)) ∧
    (get_disk_block K0 disk0 state0 1 (some (clean_inode_block K0))).map
      (fun t => t.1.map (fun p => (ino_field K0 t.2 ⟨p, 1⟩ K0.ino_mlock,
        ino_field K0 t.2 ⟨p, 1⟩ K0.ino_mref)))
      = some (some (0, 0)) := by
  decide

theorem state0_can_fetch (bn : Nat) : can_fetch state0 bn :=
  Or.inr ⟨by decide, by decide⟩

theorem state1_can_fetch (bn : Nat) : can_fetch state1 bn :=
  Or.inr ⟨by decide, by decide⟩

/-- Witness of C7: inode 1 of `disk0` from the empty cache `state0`. -/
theorem get_inode_spec_witness :
    WF state0 ∧ can_fetch state0 0 ∧ can_fetch state0 (inode_block K0 disk0 state0 1) ∧
    superblock_ninodes K0 disk0 state0 = 4 ∧ inode_block K0 disk0 state0 1 = 1 ∧
    ∃ (r : Option inode_ptr) (w1 : World),
      get_inode K0 disk0 state0 1 = some (r, w1) ∧
      (r = Option.none ↔ (1 = 0 ∨ superblock_ninodes K0 disk0 state0 ≤ 1)) ∧
      (∀ ino : inode_ptr, r = some ino →
        ino.idx = 1 % K0.inodesperblock ∧
        w1.holds (inode_block K0 disk0 state0 1) ino.page ∧
        w1.mem ino.page = cached_block K0 disk0 state0 (inode_block K0 disk0 state0 1)) ∧
      (∀ b : Nat, w1.refs b
        = state0.refs b
          + (if r ≠ Option.none ∧ b = inode_block K0 disk0 state0 1 then 1 else 0)) :=
  ⟨state0_WF, state0_can_fetch 0, state0_can_fetch _, by decide, by decide,
    get_inode_spec K0 disk0 state0 1 state0_WF (state0_can_fetch 0)
      (fun _ _ => state0_can_fetch _)⟩

/-- Witness of C9: offset 1152 of inode 1 of `disk0` lies in the double-indirect
range (block index 18); the address map gives block 10. -/
theorem get_data_page_address_map_witness :
    WF state1 ∧ 1152 % K0.blocksize = 0 ∧ 1152 < ino_field K0 state1 ino1 K0.ino_size ∧
    1152 / K0.blocksize < K0.ndirect + K0.nindirect + K0.nindirect * K0.nindirect ∧
    K0.ndirect + K0.nindirect ≤ 1152 / K0.blocksize ∧
    address_map K0 disk0 state1 ino1 1152 = 10 ∧
    ∃ w1 : World,
      get_data_page_databn K0 disk0 state1 ino1 1152
        = some (address_map K0 disk0 state1 ino1 1152, w1) ∧
      WF w1 ∧ Same state1 w1 ∧
      (K0.ndirect + K0.nindirect ≤ 1152 / K0.blocksize →
        (1152 / K0.blocksize - K0.ndirect - K0.nindirect) / K0.nindirect < K0.nindirect) ∧
      ∀ (p n : Nat) (w2 : World),
        get_data_page K0 disk0 state1 ino1 1152 = some ((some p, n), w2) →
        address_map K0 disk0 state1 ino1 1152 ≠ 0 ∧
        w2.holds (address_map K0 disk0 state1 ino1 1152) p :=
  ⟨state1_WF, by decide, by decide, by decide, by decide, by decide,
    get_data_page_address_map K0 disk0 state1 ino1 1152 state1_WF (by decide) (by decide)
      (by decide) (fun _ h => absurd h (by decide))
      (fun _ => ⟨state1_can_fetch _, fun p w1 hg => by
        have h := get_disk_block_miss K0 disk0 state1
          (ino_field K0 state1 ino1 K0.ino_indirect2) Option.none 1
          ⟨K0.emptyblock, 0, bufflags.none, Option.none⟩ 200 [300]
          (by decide) (by decide) (by decide) rfl rfl
        rw [h] at hg
        obtain ⟨-, rfl⟩ := Prod.mk.inj (Option.some.inj hg)
        exact Or.inr ⟨by decide, by decide⟩⟩)⟩

/-- Witness of C10: offset 1152 is the last block of inode 1 of `disk0`, whose
`size` is 1200: 48 valid bytes. -/
theorem get_data_page_valid_bytes_witness :
    WF state1 ∧ state1.pinned ino1.page ∧ ino_field K0 state1 ino1 K0.ino_size = 1200 ∧
    ∃ (p n : Nat) (w2 : World),
      get_data_page K0 disk0 state1 ino1 1152 = some ((some p, n), w2) ∧ n = 48 ∧
      1152 < ino_field K0 state1 ino1 K0.ino_size ∧
      n = min K0.blocksize (ino_field K0 state1 ino1 K0.ino_size - 1152) ∧
      (ino_field K0 state1 ino1 K0.ino_size ≤ 1152 + K0.blocksize →
        n = if ino_field K0 state1 ino1 K0.ino_size % K0.blocksize = 0 then K0.blocksize
            else ino_field K0 state1 ino1 K0.ino_size % K0.blocksize) := by
  have hres : (get_data_page K0 disk0 state1 ino1 1152).map (fun t => t.1)
      = some (some 200, 48) := by decide
  refine ⟨state1_WF, state1_pinned, by decide, ?_⟩
  cases h : get_data_page K0 disk0 state1 ino1 1152 with
  | none => rw [h] at hres; cases hres
  | some t =>
    obtain ⟨⟨r, n⟩, w2⟩ := t
    rw [h] at hres
    simp only [Option.map_some', Option.some.injEq, Prod.mk.injEq] at hres
    obtain ⟨rfl, rfl⟩ := hres
    exact ⟨200, 48, w2, rfl, rfl,
      get_data_page_valid_bytes K0 disk0 state1 ino1 1152 200 48 w2 state1_WF state1_pinned h⟩

/-! ## The page `get_data_page` returns -/

/-- When the translation gives block number 0, `get_data_page` fetches nothing and
returns `nullptr` with 0 valid bytes. -/
theorem get_data_page_zero (K : Geometry) (disk : Nat → Nat) (w : World) (ino : inode_ptr)
    (off : Nat) (w1 : World) (hal : off % K.blocksize = 0)
    (hd : get_data_page_databn K disk w ino off = some (0, w1)) :
    get_data_page K disk w ino off = some ((Option.none, 0), w1) := by
  simp [get_data_page, hal, hd]

/-- When the translation gives a block number other than 0, `get_data_page` returns
what the fetch of that block returns. -/
theorem get_data_page_fetch (K : Geometry) (disk : Nat → Nat) (w : World) (ino : inode_ptr)
    (off d : Nat) (w1 : World) (r : Option Nat) (w2 : World) (hal : off % K.blocksize = 0)
    (hd : get_data_page_databn K disk w ino off = some (d, w1)) (h0 : d ≠ 0)
    (hg : get_disk_block K disk w1 d Option.none = some (r, w2)) :
    ∃ n : Nat, get_data_page K disk w ino off = some ((r, n), w2) := by
  simp [get_data_page, hal, hd, h0, hg]

/-- Past the end of the file the translation gives 0 without a fetch. -/
theorem databn_past_end (K : Geometry) (disk : Nat → Nat) (w : World) (ino : inode_ptr)
    (off : Nat) (h : ino_field K w ino K.ino_size ≤ off) :
    get_data_page_databn K disk w ino off = some (0, w) := by
  simp [get_data_page_databn, h]

/-- C11. For a block-aligned `off`, `get_data_page(ino, off)` returns `nullptr` and
reports 0 valid bytes whenever `off >= size` (no fetch is made, the state is
unchanged) and whenever the block number the translation resolves is 0 (a
hole); when `off < size`, the resolved block number is not 0 and the fetch of
that block can succeed, it returns a page, the resident page of that block. -/
theorem get_data_page_hole_or_page (K : Geometry) (disk : Nat → Nat) (w : World)
    (ino : inode_ptr) (off : Nat) (hwf : WF w) (hal : off % K.blocksize = 0) :
    (ino_field K w ino K.ino_size ≤ off →
      get_data_page K disk w ino off = some ((Option.none, 0), w)) ∧
    (∀ w1 : World, get_data_page_databn K disk w ino off = some (0, w1) →
      get_data_page K disk w ino off = some ((Option.none, 0), w1)) ∧
    (∀ (d : Nat) (w1 : World), off < ino_field K w ino K.ino_size →
      get_data_page_databn K disk w ino off = some (d, w1) → d ≠ 0 → can_fetch w1 d →
      ∃ (p n : Nat) (w2 : World),
        get_data_page K disk w ino off = some ((some p, n), w2) ∧ w2.holds d p) := by
  refine ⟨?_, ?_, ?_⟩
  · intro h
    exact get_data_page_zero K disk w ino off w hal (databn_past_end K disk w ino off h)
  · intro w1 hd
    exact get_data_page_zero K disk w ino off w1 hal hd
  · intro d w1 _ hd h0 hf
    obtain ⟨hwf1, -, -⟩ := databn_sound K disk w ino off d w1 hwf hd
    obtain ⟨p, w2, hg⟩ := (get_disk_block_succeeds_iff K disk w1 d Option.none hwf1).mpr hf
    obtain ⟨n, hn⟩ := get_data_page_fetch K disk w ino off d w1 (some p) w2 hal hd h0 hg
    exact ⟨p, n, w2, hn, (get_refs K disk w1 d Option.none p w2 hwf1 hg).1⟩

/-- C12. Reference ownership of `get_data_page`, for every block-aligned `off` (past
the end of the file, or in the direct, single-indirect or double-indirect
range), when the fetches it makes can succeed: the call returns; the translation has
released the indirect blocks it read before the data block is fetched (every
reference count is then as before the call); when a page is returned it is the
resident page of the data block, whose reference count is exactly one higher
than before while every other block's is unchanged; when `nullptr` is
returned no block's reference count has changed. -/
theorem get_data_page_refs (K : Geometry) (disk : Nat → Nat) (w : World)
    (ino : inode_ptr) (off : Nat) (hwf : WF w) (hal : off % K.blocksize = 0)
    (hind : K.ndirect ≤ off / K.blocksize → off / K.blocksize < K.ndirect + K.nindirect →
      can_fetch w (ino_field K w ino K.ino_indirect))
    (hind2 : K.ndirect + K.nindirect ≤ off / K.blocksize →
      can_fetch w (ino_field K w ino K.ino_indirect2) ∧
      ∀ (p : Nat) (w1 : World),
        get_disk_block K disk w (ino_field K w ino K.ino_indirect2) Option.none
          = some (some p, w1) →
        can_fetch w1 (read32 (cached_block K disk w (ino_field K w ino K.ino_indirect2))
          (4 * ((off / K.blocksize - K.ndirect - K.nindirect) / K.nindirect))))
    (hdata : off < ino_field K w ino K.ino_size → address_map K disk w ino off ≠ 0 →
      can_fetch w (address_map K disk w ino off)) :
    ∃ (d : Nat) (w1 : World) (r : Option Nat) (n : Nat) (w2 : World),
      get_data_page_databn K disk w ino off = some (d, w1) ∧
      (∀ b : Nat, w1.refs b = w.refs b) ∧
      get_data_page K disk w ino off = some ((r, n), w2) ∧
      (∀ p : Nat, r = some p →
        d ≠ 0 ∧ w2.holds d p ∧ ∀ b : Nat, w2.refs b = w.refs b + (if b = d then 1 else 0)) ∧
      (r = Option.none → ∀ b : Nat, w2.refs b = w.refs b) := by
  obtain ⟨d, w1, hd⟩ := databn_returns K disk w ino off hwf hind hind2
  obtain ⟨hwf1, hsame, hdv⟩ := databn_sound K disk w ino off d w1 hwf hd
  by_cases h0 : d = 0
  · subst h0
    refine ⟨0, w1, Option.none, 0, w1, hd, hsame.refs,
      get_data_page_zero K disk w ino off w1 hal hd, ?_, fun _ => hsame.refs⟩
    intro p hp; cases hp
  · have hlt : off < ino_field K w ino K.ino_size := by
      by_contra hc
      rw [if_pos (by omega)] at hdv
      exact h0 hdv
    rw [if_neg (by omega)] at hdv
    have hf : can_fetch w1 d := by
      rw [hsame.can_fetch, hdv]
      exact hdata hlt (by rw [← hdv]; exact h0)
    obtain ⟨p, w2, hg⟩ := (get_disk_block_succeeds_iff K disk w1 d Option.none hwf1).mpr hf
    obtain ⟨n, hn⟩ := get_data_page_fetch K disk w ino off d w1 (some p) w2 hal hd h0 hg
    obtain ⟨hh, hr⟩ := get_refs K disk w1 d Option.none p w2 hwf1 hg
    refine ⟨d, w1, some p, n, w2, hd, hsame.refs, hn, ?_, ?_⟩
    · intro q hq
      cases hq
      exact ⟨h0, hh, fun b => by rw [hr b, hsame.refs b]⟩
    · intro hc; cases hc

theorem state1_databn_direct :
    get_data_page_databn K0 disk0 state1 ino1 0 = some (5, state1) := by
  rfl

/-- Witness of C11: in `state1`, offset 1216 of inode 1 of `disk0` (size 1200) is
past the end of the file; offset 0 resolves to block 5, which is fetched. -/
theorem get_data_page_hole_or_page_witness :
    WF state1 ∧ 1216 % K0.blocksize = 0 ∧ ino_field K0 state1 ino1 K0.ino_size ≤ 1216 ∧
    get_data_page K0 disk0 state1 ino1 1216 = some ((Option.none, 0), state1) ∧
    0 % K0.blocksize = 0 ∧ 0 < ino_field K0 state1 ino1 K0.ino_size ∧
    get_data_page_databn K0 disk0 state1 ino1 0 = some (5, state1) ∧ can_fetch state1 5 ∧
    ∃ (p n : Nat) (w2 : World),
      get_data_page K0 disk0 state1 ino1 0 = some ((some p, n), w2) ∧ w2.holds 5 p :=
  ⟨state1_WF, by decide, by decide,
    (get_data_page_hole_or_page K0 disk0 state1 ino1 1216 state1_WF (by decide)).1 (by decide),
    by decide, by decide, state1_databn_direct, state1_can_fetch 5,
    (get_data_page_hole_or_page K0 disk0 state1 ino1 0 state1_WF (by decide)).2.2 5 state1
      (by decide) state1_databn_direct (by decide) (state1_can_fetch 5)⟩

/-- Witness of C12: offset 1152 of inode 1 of `disk0` lies in the double-indirect
range; the fetches can succeed in `state1`, which has two free slots and two
free pages. -/
theorem get_data_page_refs_witness :
    WF state1 ∧ 1152 % K0.blocksize = 0 ∧
    K0.ndirect + K0.nindirect ≤ 1152 / K0.blocksize ∧
    address_map K0 disk0 state1 ino1 1152 = 10 ∧
    ∃ (d : Nat) (w1 : World) (r : Option Nat) (n : Nat) (w2 : World),
      get_data_page_databn K0 disk0 state1 ino1 1152 = some (d, w1) ∧
      (∀ b : Nat, w1.refs b = state1.refs b) ∧
      get_data_page K0 disk0 state1 ino1 1152 = some ((r, n), w2) ∧
      (∀ p : Nat, r = some p →
        d ≠ 0 ∧ w2.holds d p ∧
        ∀ b : Nat, w2.refs b = state1.refs b + (if b = d then 1 else 0)) ∧
      (r = Option.none → ∀ b : Nat, w2.refs b = state1.refs b) :=
  ⟨state1_WF, by decide, by decide, by decide,
    get_data_page_refs K0 disk0 state1 ino1 1152 state1_WF (by decide)
      (fun _ h => absurd h (by decide))
      (fun _ => ⟨state1_can_fetch _, fun p w1 hg => by
        have h := get_disk_block_miss K0 disk0 state1
          (ino_field K0 state1 ino1 K0.ino_indirect2) Option.none 1
          ⟨K0.emptyblock, 0, bufflags.none, Option.none⟩ 200 [300]
          (by decide) (by decide) (by decide) rfl rfl
        rw [h] at hg
        obtain ⟨-, rfl⟩ := Prod.mk.inj (Option.some.inj hg)
        exact Or.inr ⟨by decide, by decide⟩⟩)
      (fun _ _ => state1_can_fetch _)⟩

/-! ## The wait predicate of `get_disk_block` -/

/-- C17 (evaluation). The predicate `get_disk_block` hands to `block_until`,
`(e_[i].flags_ & bufentry::f_loading) != 0`, is true exactly when the loading
bit IS set: it is true for a slot another task is loading and false for a
loaded slot. So a task that finds slot 0 being loaded for block 5 by another
task (`f_loading` set, `f_loaded` clear, two references) is not made to wait:
its predicate holds at once, and it goes round the loop with nothing changed,
however many times. -/
theorem wait_pred_true_while_loading :
    (∀ f : bufflags, wait_pred f = true ↔ f.f_loading = true) ∧
    wait_pred ⟨true, false⟩ = true ∧ wait_pred ⟨false, true⟩ = false ∧
    (∀ (fuel : Nat) (mem : Nat → List Nat) (free : List Nat) (events : List Event),
      load_loop K0 disk0 Option.none 5 0 fuel
        ⟨[⟨5, 2, ⟨true, false⟩, Option.none⟩], mem, free, events⟩ = Option.none) := by
  refine ⟨fun f => ?_, rfl, rfl, fun fuel mem free events => ?_⟩
  · simp [wait_pred]
  · exact load_loop_spin K0 disk0 Option.none 5 0
      ⟨[⟨5, 2, ⟨true, false⟩, Option.none⟩], mem, free, events⟩
      ⟨5, 2, ⟨true, false⟩, Option.none⟩ rfl rfl rfl fuel

/-! ## The inode lock -/

theorem lock_read_loop_stale (m : Nat) : ∀ fuel : Nat, lock_read_loop fuel MAX32 m = Option.none := by
  intro fuel
  induction fuel with
  | zero => rfl
  | succ n ih => simp [lock_read_loop, lock_read_pass, ih]

/-- The counterexample to C16: from the lock word `uint32_t(-1) - 1`, which is
neither 0 nor `uint32_t(-1)`, the exchange of `lock_read` succeeds and makes
the word `uint32_t(-1)`. -/
theorem lock_read_reaches_max :
    lock_read_pass 4294967294 4294967294 false = (Pass.returned, MAX32) ∧
    (4294967294 : Nat) ≠ 0 ∧ (4294967294 : Nat) ≠ MAX32 := by
  decide

/-- C16 (amended). For every 32-bit lock word `m` other than `uint32_t(-1)`, every
local value `v` and either outcome of a weak exchange: a pass of `lock_read`
makes the word `uint32_t(-1)` only from `uint32_t(-1) - 1` (by its successful
exchange of `v` for `v + 1`), a pass of `unlock_read` or `lock_write` only from
0; and `unlock_write` stores 0, never `uint32_t(-1)`. -/
theorem mlock_becomes_max (v m : Nat) (weak_fail : Bool) (hm : m < 2 ^ 32) (hne : m ≠ MAX32) :
    ((lock_read_pass v m weak_fail).2 = MAX32 → m = MAX32 - 1 ∧ v = m) ∧
    ((unlock_read_pass v m weak_fail).2 = MAX32 → m = 0) ∧
    ((lock_write_pass m weak_fail).2 = MAX32 → m = 0) ∧
    (∀ m0 m1 : Nat, unlock_write_store m0 = some m1 → m1 = 0) := by
  have hM : MAX32 = 4294967295 := by decide
  refine ⟨?_, ?_, ?_, ?_⟩
  · intro h
    unfold lock_read_pass compare_exchange_weak at h
    by_cases hv : v = MAX32
    · simp only [hv, if_true] at h; exact absurd h hne
    · simp only [hv, if_false] at h
      by_cases hc : m = v ∧ weak_fail = false
      · simp only [hc, and_self, if_true] at h
        obtain ⟨rfl, -⟩ := hc
        refine ⟨?_, rfl⟩
        rw [hM] at h ⊢
        omega
      · simp only [hc, if_false] at h; exact absurd h hne
  · intro h
    unfold unlock_read_pass compare_exchange_weak at h
    by_cases hc : m = v ∧ weak_fail = false
    · simp only [hc, and_self, if_true] at h
      obtain ⟨rfl, -⟩ := hc
      rw [hM] at h
      omega
    · simp only [hc, if_false] at h; exact absurd h hne
  · intro h
    unfold lock_write_pass compare_exchange_weak at h
    by_cases hc : m = 0 ∧ weak_fail = false
    · exact hc.1
    · simp only [hc, if_false] at h; exact absurd h hne
  · intro m0 m1 h
    unfold unlock_write_store at h
    by_cases hc : m0 = MAX32
    · simp only [hc, if_true, Option.some.injEq] at h; exact h.symm
    · simp [hc] at h

/-- Witness of C16 (amended): the writer's exchange on the free lock word 0. -/
theorem mlock_becomes_max_witness :
    (0 : Nat) < 2 ^ 32 ∧ (0 : Nat) ≠ MAX32 ∧ (lock_write_pass 0 false).2 = MAX32 ∧
    ((lock_read_pass 0 0 false).2 = MAX32 → 0 = MAX32 - 1 ∧ 0 = 0) ∧
    ((unlock_read_pass 0 0 false).2 = MAX32 → 0 = 0) ∧
    ((lock_write_pass 0 false).2 = MAX32 → 0 = 0) ∧
    (∀ m0 m1 : Nat, unlock_write_store m0 = some m1 → m1 = 0) :=
  ⟨by decide, by decide, by decide, mlock_becomes_max 0 0 false (by decide) (by decide)⟩

/-- C18 (evaluation). A `lock_read` that loads `v == uint32_t(-1)` yields with `v`
unchanged; after the writer's `unlock_write` has stored 0, no number of further
passes makes it return, whatever the lock word is: the test `v == uint32_t(-1)`
is made on the stale `v`, and the word stays 0. A `lock_read` entered when the
word is 0 returns at once with the word 1. -/
theorem lock_read_keeps_stale_value :
    (∀ weak_fail : Bool, lock_read_pass MAX32 MAX32 weak_fail = (Pass.again MAX32, MAX32)) ∧
    unlock_write_store MAX32 = some 0 ∧
    (∀ weak_fail : Bool, lock_read_pass MAX32 0 weak_fail = (Pass.again MAX32, 0)) ∧
    (∀ fuel : Nat, lock_read_loop fuel MAX32 0 = Option.none) ∧
    lock_read_loop 1 0 0 = some 1 := by
  refine ⟨fun _ => ?_, by decide, fun _ => ?_, lock_read_loop_stale 0, by decide⟩
  · simp [lock_read_pass]
  · simp [lock_read_pass]

/-! ## Block numbers that are 0 -/

/-- C19 (evaluation). On the disk `disk1`: inode 3 has `size = 200` and
`indirect == 0`, and offset 64 lies in its single-indirect range; inode 4 has
`size = 20000`, `indirect2 = 10`, and entry 1 of block 10 is 0, the entry
offset 2112 selects. In both cases `get_data_page` fetches block 0 (the
`disk_read` at byte 0) as an indirect block, takes its first word (6, the
superblock's `ninodes`) as the data block number, and returns a page with 64
valid bytes. The events listed are those of `get_data_page` alone. -/
theorem zero_block_number_is_fetched :
    (get_inode K0 disk1 state4 3).bind (fun t => t.1.bind (fun ino =>
      (get_data_page K0 disk1 t.2 ino 64).map (fun r =>
        (ino_field K0 t.2 ino K0.ino_size, ino_field K0 t.2 ino K0.ino_indirect, r.1))))
      = some (200, 0, (some 200, 64)) ∧
    (get_inode K0 disk1 state4 3).bind (fun t => t.1.bind (fun ino =>
      (get_data_page K0 disk1 t.2 ino 64).map (fun r =>
        r.2.events.drop t.2.events.length)))
      = some [Event.kalloc (some 200), Event.disk_read 0, Event.kfree 200,
          Event.kalloc (some 200), Event.disk_read 384] ∧
    (get_inode K0 disk1 state4 4).bind (fun t => t.1.bind (fun ino =>
      (get_data_page K0 disk1 t.2 ino 2112).map (fun r =>
        (ino_field K0 t.2 ino K0.ino_indirect2,
          read32 (cached_block K0 disk1 t.2 10) (4 * outer_index K0 2112), r.1))))
      = some (10, 0, (some 200, 64)) ∧
    (get_inode K0 disk1 state4 4).bind (fun t => t.1.bind (fun ino =>
      (get_data_page K0 disk1 t.2 ino 2112).map (fun r =>
        r.2.events.drop t.2.events.length)))
      = some [Event.kalloc (some 200), Event.disk_read 640, Event.kalloc (some 300),
          Event.disk_read 0, Event.kfree 300, Event.kfree 200,
          Event.kalloc (some 200), Event.disk_read 384] := by
  decide

/-- In its last branch `get_data_page` reads the double-indirect block at
`outer_index`, whatever that index is: there is no test of `bi` against
`ndirect + nindirect + nindirect * nindirect`. -/
theorem databn_reads_indirect2 (K : Geometry) (disk : Nat → Nat) (w : World) (ino : inode_ptr)
    (off p : Nat) (w1 : World) (hr : reads_indirect2 K w ino off)
    (hg : get_disk_block K disk w (ino_field K w ino K.ino_indirect2) Option.none
      = some (some p, w1)) :
    get_data_page_databn K disk w ino off
      = match get_disk_block K disk w1 (read32 (w1.mem p) (4 * outer_index K off))
          Option.none with
        | some (some q, w2) =>
          (match put_block K w2 (some q) with
           | some w3 =>
             (put_block K w3 (some p)).map (fun w4 =>
               (read32 (w2.mem q)
                 (4 * (((off / K.blocksize) % 2 ^ 32 - (K.ndirect + K.nindirect))
                   % K.nindirect)), w4))
           | Option.none => Option.none)
        | _ => Option.none := by
  obtain ⟨h1, h2, h3⟩ := hr
  simp only [get_data_page_databn, h1, h2, h3, if_false, hg, outer_index]

/-! ## Calls in states with the same cache contents -/

theorem Same.symm {w w1 : World} (h : Same w w1) : Same w1 w :=
  ⟨fun b => (h.1 b).symm, h.2.1.symm, h.2.2.1.symm,
    fun q hq => (h.2.2.2 q ((h.pinned q).mp hq)).symm⟩

/-- A page pinned after a successful `get_disk_block` was pinned before, or is the
page the call returned. -/
theorem get_pinned_inv (K : Geometry) (disk : Nat → Nat) (w : World) (bn : Nat)
    (c : Option (List Nat → List Nat)) (p : Nat) (w1 : World) (hwf : WF w)
    (h : get_disk_block K disk w bn c = some (some p, w1)) (q : Nat) (hq : w1.pinned q) :
    w.pinned q ∨ q = p := by
  obtain ⟨-, hother, hc⟩ := get_spec K disk w bn c p w1 hwf h
  obtain ⟨b, e, hs, hb⟩ := hq
  by_cases hbn : b = bn
  · subst hbn
    rcases hc with ⟨e0, hs0, hb0, hs1, -, -, -⟩ | ⟨hs0, hs1, -, -, -⟩
    · rw [hs1] at hs; cases hs
      exact Or.inl ⟨b, e0, hs0, hb⟩
    · rw [hs1] at hs; cases hs
      simp only [Option.some.injEq] at hb
      exact Or.inr hb.symm
  · rw [hother b hbn] at hs
    exact Or.inl ⟨b, e, hs, hb⟩

/-- In two states with the same cache contents a successful `get_disk_block`
returns the same page and leaves states with the same cache contents. -/
theorem same_get (K : Geometry) (disk : Nat → Nat) {w w' : World} (hs : Same w w')
    (hwf : WF w) (hwf' : WF w') (bn : Nat) (c : Option (List Nat → List Nat)) (p : Nat)
    (w1 : World) (hg : get_disk_block K disk w bn c = some (some p, w1)) :
    ∃ w1' : World, get_disk_block K disk w' bn c = some (some p, w1') ∧ Same w1 w1' := by
  have hf : can_fetch w' bn :=
    (hs.can_fetch bn).mpr ((get_disk_block_succeeds_iff K disk w bn c hwf).mp ⟨p, w1, hg⟩)
  obtain ⟨p', w1', hg'⟩ := (get_disk_block_succeeds_iff K disk w' bn c hwf').mpr hf
  obtain ⟨-, hother, hc⟩ := get_spec K disk w bn c p w1 hwf hg
  obtain ⟨-, hother', hc'⟩ := get_spec K disk w' bn c p' w1' hwf' hg'
  have hpin := get_pinned_inv K disk w bn c p w1 hwf hg
  rcases hc with ⟨e0, hs0, hb0, hs1, hmem, hfree, hnfree⟩ | ⟨hs0, hs1, hfree, hnfree, hmem⟩
  · rcases hc' with ⟨e0', hs0', hb0', hs1', hmem', hfree', hnfree'⟩ |
      ⟨hs0', -, -, -, -⟩
    · rw [hs.1 bn, hs0] at hs0'
      cases hs0'
      rw [hb0] at hb0'
      cases hb0'
      refine ⟨w1', hg', ?_, ?_, ?_, ?_⟩
      · intro b
        by_cases hb : b = bn
        · subst hb; rw [hs1, hs1']
        · rw [hother b hb, hother' b hb, hs.1 b]
      · rw [hnfree, hnfree', hs.2.1]
      · rw [hfree, hfree', hs.2.2.1]
      · intro q hq
        rw [hmem, hmem']
        rcases hpin q hq with h1 | h1
        · exact hs.2.2.2 q h1
        · subst h1
          exact hs.2.2.2 q ⟨bn, e0, hs0, hb0⟩
    · rw [hs.1 bn, hs0] at hs0'
      cases hs0'
  · rcases hc' with ⟨e0', hs0', -, -, -, -, -⟩ | ⟨hs0', hs1', hfree', hnfree', hmem'⟩
    · rw [hs.1 bn, hs0] at hs0'
      cases hs0'
    · rw [hs.2.2.1, hfree] at hfree'
      obtain ⟨hp, hrest⟩ := List.cons.inj hfree'
      subst hp
      refine ⟨w1', hg', ?_, ?_, hrest.symm, ?_⟩
      · intro b
        by_cases hb : b = bn
        · subst hb; rw [hs1, hs1']
        · rw [hother b hb, hother' b hb, hs.1 b]
      · have := hs.2.1
        omega
      · intro q hq
        rw [hmem, hmem']
        by_cases hqp : q = p
        · subst hqp
          simp only [Function.update_same]
        · rw [Function.update_noteq hqp, Function.update_noteq hqp]
          rcases hpin q hq with h1 | h1
          · exact hs.2.2.2 q h1
          · exact absurd h1 hqp

theorem same_address_map (K : Geometry) (disk : Nat → Nat) {w w1 : World} (h : Same w w1)
    (ino : inode_ptr) (hpin : w.pinned ino.page) (off : Nat) :
    address_map K disk w1 ino off = address_map K disk w ino off := by
  have hf : ∀ fld : Nat, ino_field K w1 ino fld = ino_field K w ino fld :=
    fun fld => ino_field_congr K w w1 ino fld (h.2.2.2 _ hpin)
  simp only [address_map, hf, h.cached K disk]

theorem same_page_fetch_ok (K : Geometry) (disk : Nat → Nat) {w w1 : World} (h : Same w w1)
    (hwf : WF w) (hwf1 : WF w1) (ino : inode_ptr) (hpin : w.pinned ino.page) (off : Nat)
    (hok : page_fetch_ok K disk w ino off) : page_fetch_ok K disk w1 ino off := by
  have hf : ∀ fld : Nat, ino_field K w1 ino fld = ino_field K w ino fld :=
    fun fld => ino_field_congr K w w1 ino fld (h.2.2.2 _ hpin)
  intro hlt
  rw [hf] at hlt
  obtain ⟨h1, h2, h3⟩ := hok hlt
  simp only [hf, h.cached K disk, same_address_map K disk h ino hpin, h.can_fetch]
  refine ⟨h1, ?_, h3⟩
  intro hge
  obtain ⟨h4, h5⟩ := h2 hge
  refine ⟨h4, ?_⟩
  intro p w2 hg
  obtain ⟨w2', hg', hs2⟩ := same_get K disk h.symm hwf1 hwf _ Option.none p w2 hg
  rw [← hs2.can_fetch]
  exact h5 p w2' hg'

/-! ## One call of `get_data_page` and the release of its page -/

/-- When its fetches can succeed the translation of `get_data_page` returns: 0 past
the end of the file and the address map's block number otherwise. -/
theorem databn_of_fetch_ok (K : Geometry) (disk : Nat → Nat) (w : World) (ino : inode_ptr)
    (off : Nat) (hwf : WF w) (hok : page_fetch_ok K disk w ino off) :
    ∃ w1 : World,
      get_data_page_databn K disk w ino off
        = some (if ino_field K w ino K.ino_size ≤ off then 0
            else address_map K disk w ino off, w1) ∧
      WF w1 ∧ Same w w1 := by
  by_cases hoff : ino_field K w ino K.ino_size ≤ off
  · exact ⟨w, by rw [if_pos hoff]; exact databn_past_end K disk w ino off hoff, hwf,
      Same.refl w⟩
  · obtain ⟨h1, h2, -⟩ := hok (by omega)
    obtain ⟨d, w1, hd⟩ := databn_returns K disk w ino off hwf h1 h2
    obtain ⟨hwf1, hsame, hdv⟩ := databn_sound K disk w ino off d w1 hwf hd
    subst hdv
    exact ⟨w1, hd, hwf1, hsame⟩

/-- One call of `get_data_page` at a block-aligned offset, and the `put_block` of
the page it returned, when the fetches can succeed. Past the end of the file
and at a hole the call returns `nullptr` and 0 valid bytes; otherwise it
returns a page that holds the data block as the cache presented it, with
`min(B, size - off)` valid bytes, and `put_block` releases it. The cache
contents are afterwards as before. -/
theorem page_cycle (K : Geometry) (disk : Nat → Nat) (w : World) (ino : inode_ptr) (off : Nat)
    (hwf : WF w) (hpin : w.pinned ino.page) (hal : off % K.blocksize = 0)
    (hok : page_fetch_ok K disk w ino off) :
    (¬ (off < ino_field K w ino K.ino_size ∧ address_map K disk w ino off ≠ 0) →
      ∃ w1 : World, get_data_page K disk w ino off = some ((Option.none, 0), w1) ∧
        WF w1 ∧ Same w w1) ∧
    (off < ino_field K w ino K.ino_size ∧ address_map K disk w ino off ≠ 0 →
      ∃ (p : Nat) (w2 w3 : World),
        get_data_page K disk w ino off
          = some ((some p, min K.blocksize (ino_field K w ino K.ino_size - off)), w2) ∧
        WF w2 ∧ w2.mem p = cached_block K disk w (address_map K disk w ino off) ∧
        put_block K w2 (some p) = some w3 ∧ WF w3 ∧ Same w w3) := by
  obtain ⟨w1, hd, hwf1, hsame⟩ := databn_of_fetch_ok K disk w ino off hwf hok
  constructor
  · intro hno
    have h0 : (if ino_field K w ino K.ino_size ≤ off then 0
        else address_map K disk w ino off) = 0 := by
      by_cases hoff : ino_field K w ino K.ino_size ≤ off
      · rw [if_pos hoff]
      · rw [if_neg hoff]
        by_contra hc
        exact hno ⟨by omega, hc⟩
    rw [h0] at hd
    exact ⟨w1, get_data_page_zero K disk w ino off w1 hal hd, hwf1, hsame⟩
  · rintro ⟨hlt, hne⟩
    rw [if_neg (by omega)] at hd
    have hf : can_fetch w1 (address_map K disk w ino off) :=
      (hsame.can_fetch _).mpr ((hok hlt).2.2 hne)
    obtain ⟨p, w2, hg⟩ := (get_disk_block_succeeds_iff K disk w1 _ Option.none hwf1).mpr hf
    obtain ⟨hwf2, -, -⟩ := get_spec K disk w1 _ Option.none p w2 hwf1 hg
    obtain ⟨w3, hput, hwf3, hsame3⟩ :=
      release_after K disk w1 _ Option.none p w2 w2 hwf1 hg hwf2 (Same.refl w2)
    have hmem : w2.mem ino.page = w.mem ino.page := by
      rw [(get_pinned K disk w1 _ Option.none p w2 hwf1 hg ino.page
        ((hsame.pinned _).mpr hpin)).2, hsame.2.2.2 _ hpin]
    have hsz := ino_field_congr K w w2 ino K.ino_size hmem
    refine ⟨p, w2, w3, ?_, hwf2, ?_, hput, hwf3, hsame.trans hsame3⟩
    · simp only [get_data_page, hal, ne_eq, not_true_eq_false, if_false, hd, hne,
        not_false_eq_true, if_true, hg, hsz, Option.isSome_some, true_and]
      congr 3
      split_ifs <;> omega
    · rw [get_contents K disk w1 _ p w2 hwf1 hg, hsame.cached K disk]

/-! ## The block numbers of the spec and of the code -/

/-- Where the translation meets no zero index block number and stays in range, the
block number of the spec is the one the address map gives. -/
theorem spec_block_eq (K : Geometry) (disk : Nat → Nat) (w : World) (ino : inode_ptr)
    (off : Nat) (h : path_ok K disk w ino off) :
    spec_block K disk w ino off = address_map K disk w ino off := by
  obtain ⟨h1, h2⟩ := h
  unfold spec_block address_map
  by_cases hd : off / K.blocksize < K.ndirect
  · simp only [hd, if_true]
  · by_cases hi : off / K.blocksize < K.ndirect + K.nindirect
    · simp only [hd, hi, if_true, if_false, h1 (by omega) hi]
    · obtain ⟨h3, h4, h5⟩ := h2 (by omega)
      simp only [hd, hi, h3, h4, h5, if_true, if_false]

theorem spec_block_block (K : Geometry) (disk : Nat → Nat) (w : World) (ino : inode_ptr)
    (off off1 : Nat) (h : off / K.blocksize = off1 / K.blocksize) :
    spec_block K disk w ino off = spec_block K disk w ino off1 := by
  simp only [spec_block, h]

/-- The hypothesis `paths_ok` from the next block on, when block `k` is not a hole. -/
theorem paths_ok_succ (K : Geometry) (disk : Nat → Nat) (w : World) (ino : inode_ptr)
    (k : Nat) (h : paths_ok K disk w ino k)
    (hk : spec_block K disk w ino (k * K.blocksize) ≠ 0) : paths_ok K disk w ino (k + 1) := by
  intro j hj hlt hno
  apply h j (by omega) hlt
  intro i hi hij
  by_cases hik : i = k
  · rw [hik]; exact hk
  · exact hno i (by omega) hij

/-! ## `lookup` -/

theorem first_match_nil (name : List Nat) : first_match [] name = 0 := rfl

theorem first_match_cons (e : Nat × List Nat) (es : List (Nat × List Nat)) (name : List Nat) :
    first_match (e :: es) name
      = if e.1 ≠ 0 ∧ e.2 = name then e.1 else first_match es name := by
  by_cases h : e.1 ≠ 0 ∧ e.2 = name
  · simp [first_match, List.find?_cons, h.1, h.2]
  · rw [if_neg h]
    have : (e.1 != 0 && e.2 == name) = false := by
      simp only [ne_eq, not_and] at h
      by_cases h1 : e.1 = 0
      · simp [h1]
      · simp [h1, h h1]
    simp [first_match, List.find?_cons, this]

theorem first_match_append (es es1 : List (Nat × List Nat)) (name : List Nat) :
    first_match (es ++ es1) name
      = if first_match es name ≠ 0 then first_match es name else first_match es1 name := by
  induction es with
  | nil => simp [first_match_nil]
  | cons e es ih =>
    rw [List.cons_append, first_match_cons, first_match_cons]
    by_cases h : e.1 ≠ 0 ∧ e.2 = name
    · simp only [h, and_self, if_true, ne_eq, not_false_eq_true]
    · simp only [h, if_false]
      exact ih

/-- The call `strcmp` on a name field that holds a C string and on the buffer of a file
name that ends with NUL: it returns, and finds the strings equal exactly when
the name of the entry is the file name. -/
theorem strcmp_eq_field (name rest : List Nat) (hname : ∀ c ∈ name, 0 < c ∧ c < 256) :
    ∀ (n : Nat) (s : List Nat),
      (∃ j : Nat, j < n ∧ (j < s.length ∧ s.getD j 0 % 256 = 0)) →
      strcmp_eq s (name ++ 0 :: rest)
        = some (decide ((((s.take n).map (fun b => b % 256)).takeWhile (fun b => b != 0))
            = name)) := by
  induction name with
  | nil =>
    intro n s hs
    obtain ⟨j, hjn, hjs, -⟩ := hs
    obtain ⟨m, rfl⟩ : ∃ m, n = m + 1 := ⟨n - 1, by omega⟩
    cases s with
    | nil => simp at hjs
    | cons a s =>
      by_cases ha : a % 256 = 0
      · simp [strcmp_eq, ha]
      · simp [strcmp_eq, ha, List.takeWhile_cons]
  | cons c cs ih =>
    intro n s hs
    obtain ⟨j, hjn, hjs, hj0⟩ := hs
    obtain ⟨m, rfl⟩ : ∃ m, n = m + 1 := ⟨n - 1, by omega⟩
    have hc := hname c (List.mem_cons_self _ _)
    have hcm : c % 256 = c := Nat.mod_eq_of_lt hc.2
    cases s with
    | nil => simp at hjs
    | cons a s =>
      by_cases hac : a % 256 = c
      · have ha0 : a % 256 ≠ 0 := by omega
        have hj : j ≠ 0 := by
          intro h0
          rw [h0] at hj0
          simp at hj0
          exact ha0 hj0
        obtain ⟨i, rfl⟩ : ∃ i, j = i + 1 := ⟨j - 1, by omega⟩
        have hrec := ih (fun x hx => hname x (List.mem_cons_of_mem _ hx)) m s
          ⟨i, by omega, by simpa using hjs, by simpa using hj0⟩
        simp only [List.cons_append, strcmp_eq, hcm, hac, ne_eq, not_true_eq_false, if_false,
          ha0, hrec, List.take_succ_cons, List.map_cons, List.takeWhile_cons]
        have hne : (c != 0) = true := by simp; omega
        have hc0 : c ≠ 0 := by omega
        simp only [hne, if_true, List.cons.injEq, true_and]
        rw [if_neg hc0]
        exact hrec
      · have : ¬ (((List.take (m + 1) (a :: s)).map (fun b => b % 256)).takeWhile
            (fun b => b != 0) = c :: cs) := by
          simp only [List.take_succ_cons, List.map_cons, List.takeWhile_cons]
          by_cases ha0 : a % 256 = 0
          · simp [ha0]
          · have hne : (a % 256 != 0) = true := by simp; exact ha0
            simp only [hne, if_true, List.cons.injEq, not_and]
            intro h1
            exact absurd h1 hac
        simp only [List.cons_append, strcmp_eq, hcm, hac, ne_eq, not_false_eq_true, if_true,
          this, decide_False]

/-- The inner loop of `lookup` on a page whose entries in use hold C strings: with
enough fuel it ends, and finds the first entry of the page with a non-zero
`inum` and the name `name`. -/
theorem scan_dirents_eq (D : DirentLayout) (page : List Nat) (bsz : Nat) (name rest : List Nat)
    (hD : 0 < D.direntsize) (hname : ∀ c ∈ name, 0 < c ∧ c < 256)
    (hpg : page_names_ok D (page, bsz)) :
    ∀ (fuel i : Nat), bsz ≤ i + fuel →
      scan_dirents D page bsz (name ++ 0 :: rest) (fuel + 1) i
        = some (first_match
            (((List.range' i (fuel + 1)).filter (fun j => decide (j * D.direntsize < bsz))).map
              (fun j => (read32 page (j * D.direntsize + D.de_inum), entry_name D page j)))
            name) := by
  intro fuel
  induction fuel with
  | zero =>
    intro i hi
    have h : ¬ i * D.direntsize < bsz := by
      have := Nat.le_mul_of_pos_right i hD
      omega
    simp [scan_dirents, h, first_match_nil]
  | succ n ih =>
    intro i hi
    rw [scan_dirents, List.range'_succ]
    by_cases h : i * D.direntsize < bsz
    · have hrec := ih (i + 1) (by omega)
      have hib : i < bsz := by
        have := Nat.le_mul_of_pos_right i hD
        omega
      by_cases hin : read32 page (i * D.direntsize + D.de_inum) = 0
      · simp only [h, if_true, hin, ne_eq, not_true_eq_false, if_false, hrec, List.filter_cons,
          decide_True, List.map_cons, first_match_cons, false_and]
      · have hend : name_ends D page i := hpg i (List.mem_range.mpr hib) h hin
        obtain ⟨j, hj1, hj2, hj3⟩ := hend
        have hs := strcmp_eq_field name rest hname D.namesize
          (page.drop (i * D.direntsize + D.de_name))
          ⟨j, hj1, by rw [List.length_drop]; omega, by
            rw [List.getD_eq_getElem?_getD, List.getElem?_drop, ← List.getD_eq_getElem?_getD]
            exact hj3⟩
        simp only [h, if_true, hin, ne_eq, not_false_eq_true, hs, hrec, List.filter_cons,
          decide_True, List.map_cons, first_match_cons, true_and, entry_name]
        by_cases heq : (((page.drop (i * D.direntsize + D.de_name)).take D.namesize).map
            (fun b => b % 256)).takeWhile (fun b => b != 0) = name
        · simp only [heq, decide_True, if_true]
        · simp only [heq, decide_False, if_false]
    · have hnil : (List.range' (i + 1) (n + 1)).filter (fun j => decide (j * D.direntsize < bsz))
          = [] := by
        rw [List.filter_eq_nil_iff]
        intro j hj
        rw [List.mem_range'_1] at hj
        have : i * D.direntsize ≤ j * D.direntsize := Nat.mul_le_mul_right _ (by omega)
        simp only [decide_eq_true_eq]
        omega
      simp only [h, if_false, List.filter_cons, decide_False, hnil, List.map_nil,
        first_match_nil, Bool.false_eq_true]

theorem scan_dirents_page (D : DirentLayout) (page : List Nat) (bsz : Nat) (name rest : List Nat)
    (hD : 0 < D.direntsize) (hname : ∀ c ∈ name, 0 < c ∧ c < 256)
    (hpg : page_names_ok D (page, bsz)) :
    scan_dirents D page bsz (name ++ 0 :: rest) (bsz + 1) 0
      = some (first_match (dirents_of D (page, bsz)) name) := by
  rw [scan_dirents_eq D page bsz name rest hD hname hpg bsz 0 (by omega), dirents_of,
    ← List.range_eq_range', List.range_succ, List.filter_append]
  have h : ¬ bsz * D.direntsize < bsz := by
    have := Nat.le_mul_of_pos_right bsz hD
    omega
  simp only [List.filter_cons, h, decide_False, List.filter_nil, List.append_nil,
    Bool.false_eq_true, if_false]

/-- The loop of `lookup` from block `k` of the directory, in a state with the cache
contents of `w`: when the fetches can succeed, no translation meets a zero
index block number and the entries in use hold C strings, it returns the first
match among the entries of the pages from block `k` on, and leaves the cache
contents as they were. -/
theorem lookup_loop_spec (K : Geometry) (D : DirentLayout) (disk : Nat → Nat) (w : World)
    (dirino : inode_ptr) (name rest : List Nat) (hpin : w.pinned dirino.page) (hwf : WF w)
    (hD : 0 < D.direntsize) (hname : ∀ c ∈ name, 0 < c ∧ c < 256)
    (hok : ∀ k : Nat, page_fetch_ok K disk w dirino (k * K.blocksize)) :
    ∀ (n k fuel : Nat) (w' : World), n < fuel →
      ino_field K w dirino K.ino_size ≤ (k + n) * K.blocksize →
      paths_ok K disk w dirino k →
      (∀ pg ∈ file_pages K disk w dirino n k, page_names_ok D pg) → WF w' → Same w w' →
      ∃ w'' : World,
        lookup_loop K D disk dirino (name ++ 0 :: rest) fuel (k * K.blocksize) w'
          = some (first_match ((file_pages K disk w dirino n k).map (dirents_of D)).flatten
              name, w'') ∧
        WF w'' ∧ Same w w'' := by
  intro n
  induction n with
  | zero =>
    intro k fuel w' hfuel hsize _ _ hwf' hs
    obtain ⟨f, rfl⟩ : ∃ f, fuel = f + 1 := ⟨fuel - 1, by omega⟩
    have hpin' : w'.pinned dirino.page := (hs.pinned _).mpr hpin
    have hsz := ino_field_congr K w w' dirino K.ino_size (hs.2.2.2 _ hpin)
    obtain ⟨hnone, -⟩ := page_cycle K disk w' dirino (k * K.blocksize) hwf' hpin'
      (Nat.mul_mod_left _ _)
      (same_page_fetch_ok K disk hs hwf hwf' dirino hpin _ (hok k))
    simp only [Nat.add_zero] at hsize
    obtain ⟨w1, hg, hwf1, hs1⟩ := hnone (by rw [hsz]; intro hc; omega)
    refine ⟨w1, ?_, hwf1, hs.trans hs1⟩
    simp [lookup_loop, hg, file_pages, first_match_nil]
  | succ m ih =>
    intro k fuel w' hfuel hsize hpaths hnames hwf' hs
    obtain ⟨f, rfl⟩ : ∃ f, fuel = f + 1 := ⟨fuel - 1, by omega⟩
    have hpin' : w'.pinned dirino.page := (hs.pinned _).mpr hpin
    have hsz := ino_field_congr K w w' dirino K.ino_size (hs.2.2.2 _ hpin)
    have ham := same_address_map K disk hs dirino hpin (k * K.blocksize)
    obtain ⟨hnone, hpage⟩ := page_cycle K disk w' dirino (k * K.blocksize) hwf' hpin'
      (Nat.mul_mod_left _ _)
      (same_page_fetch_ok K disk hs hwf hwf' dirino hpin _ (hok k))
    rw [hsz, ham] at hnone hpage
    have heq : k * K.blocksize < ino_field K w dirino K.ino_size →
        spec_block K disk w dirino (k * K.blocksize)
          = address_map K disk w dirino (k * K.blocksize) :=
      fun hlt => spec_block_eq K disk w dirino _
        (hpaths k (Nat.le_refl k) hlt (fun j h1 h2 => absurd h2 (by omega)))
    by_cases hc : k * K.blocksize < ino_field K w dirino K.ino_size ∧
        address_map K disk w dirino (k * K.blocksize) ≠ 0
    · obtain ⟨p, w2, w3, hg, hwf2, hmem, hput, hwf3, hs3⟩ := hpage hc
      rw [hs.cached K disk] at hmem
      have hpg : page_at K disk w dirino k
          = some (cached_block K disk w (address_map K disk w dirino (k * K.blocksize)),
              min K.blocksize (ino_field K w dirino K.ino_size - k * K.blocksize)) := by
        simp only [page_at, heq hc.1, hc, ne_eq, not_false_eq_true, and_self, if_true]
      have hfp : file_pages K disk w dirino (m + 1) k
          = (cached_block K disk w (address_map K disk w dirino (k * K.blocksize)),
              min K.blocksize (ino_field K w dirino K.ino_size - k * K.blocksize))
            :: file_pages K disk w dirino m (k + 1) := by
        simp only [file_pages, hpg]
      rw [hfp] at hnames
      have hsk : spec_block K disk w dirino (k * K.blocksize) ≠ 0 := by
        rw [heq hc.1]; exact hc.2
      obtain ⟨w'', hl, hwf'', hs''⟩ := ih (k + 1) f w3 (by omega)
        (by rw [Nat.add_assoc, Nat.add_comm 1 m]; exact hsize)
        (paths_ok_succ K disk w dirino k hpaths hsk)
        (fun pg hpg1 => hnames pg (List.mem_cons_of_mem _ hpg1)) hwf3 (hs.trans hs3)
      rw [Nat.succ_mul] at hl
      have hscan := scan_dirents_page D
        (cached_block K disk w (address_map K disk w dirino (k * K.blocksize)))
        (min K.blocksize (ino_field K w dirino K.ino_size - k * K.blocksize)) name rest hD hname
        (hnames _ (List.mem_cons_self _ _))
      rw [hfp]
      simp only [List.map_cons, List.flatten_cons, first_match_append]
      simp only [lookup_loop, hg, hput, hmem, hscan]
      by_cases hfound : first_match
          (dirents_of D (cached_block K disk w (address_map K disk w dirino (k * K.blocksize)),
            min K.blocksize (ino_field K w dirino K.ino_size - k * K.blocksize)))
          name ≠ 0
      · simp only [hfound, ne_eq, not_false_eq_true, if_true]
        exact ⟨w3, rfl, hwf3, hs.trans hs3⟩
      · simp only [hfound, if_false]
        exact ⟨w'', hl, hwf'', hs''⟩
    · obtain ⟨w1, hg, hwf1, hs1⟩ := hnone hc
      refine ⟨w1, ?_, hwf1, hs.trans hs1⟩
      have hpg : page_at K disk w dirino k = Option.none := by
        have : ¬ (k * K.blocksize < ino_field K w dirino K.ino_size ∧
            spec_block K disk w dirino (k * K.blocksize) ≠ 0) := by
          rintro ⟨h1, h2⟩
          rw [heq h1] at h2
          exact hc ⟨h1, h2⟩
        simp only [page_at, this, if_false]
      simp [lookup_loop, hg, file_pages, hpg, first_match_nil]

/-! ## Free slots and free pages -/

theorem room_can_fetch (w : World) (bn : Nat) (h : room w 1) : can_fetch w bn := by
  rw [can_fetch_iff]
  refine Or.inr ⟨h.1, ?_⟩
  intro hc
  have := h.2
  rw [hc] at this
  simp at this

theorem room_get (K : Geometry) (disk : Nat → Nat) (w : World) (bn : Nat)
    (c : Option (List Nat → List Nat)) (p : Nat) (w1 : World) (n : Nat) (hwf : WF w)
    (h : room w (n + 1)) (hg : get_disk_block K disk w bn c = some (some p, w1)) :
    room w1 n := by
  obtain ⟨-, -, hc⟩ := get_spec K disk w bn c p w1 hwf hg
  obtain ⟨h1, h2⟩ := h
  rcases hc with ⟨e0, -, -, -, -, hfree, hnfree⟩ | ⟨-, -, hfree, hnfree, -⟩
  · exact ⟨by omega, by rw [hfree]; omega⟩
  · rw [hfree, List.length_cons] at h2
    exact ⟨by omega, by omega⟩

theorem room_same {w w1 : World} (h : Same w w1) (n : Nat) (hr : room w n) : room w1 n :=
  ⟨by rw [h.2.1]; exact hr.1, by rw [h.2.2.1]; exact hr.2⟩

theorem room_mono (w : World) (n m : Nat) (hnm : m ≤ n) (hr : room w n) : room w m :=
  ⟨by have := hr.1; omega, by have := hr.2; omega⟩

/-- With two free slots and two free pages every fetch of `get_data_page` can
succeed. -/
theorem room_page_fetch_ok (K : Geometry) (disk : Nat → Nat) (w : World) (ino : inode_ptr)
    (off : Nat) (hwf : WF w) (h : room w 2) : page_fetch_ok K disk w ino off := by
  have h1 := room_mono w 2 1 (by omega) h
  intro _
  refine ⟨fun _ _ => room_can_fetch w _ h1, fun _ => ⟨room_can_fetch w _ h1, ?_⟩,
    fun _ => room_can_fetch w _ h1⟩
  intro p w1 hg
  exact room_can_fetch w1 _ (room_get K disk w _ Option.none p w1 1 hwf h hg)

/-! ## What `lookup` returns -/

/-- The counterexample to C13. A cache of one slot, which holds the block of the root
directory's inode of `disk1`: the directory has the entry `(2, "hi")`, the
first one with a non-zero `inum` and the name `"hi"`, its entries in use hold C
strings and its two blocks are reached through non-zero block numbers, but
`lookup` returns 0, because the fetch of the directory's data block finds the
cache full and `get_data_page` returns `nullptr`. -/
theorem lookup_cache_full :
    (get_inode K0 disk1 (boot K0 1 [100, 200]) 1).bind (fun t => t.1.bind (fun dirino =>
      (lookup K0 D0 disk1 5 t.2 dirino [104, 105, 0]).map (fun r =>
        (r.1, lookup_spec K0 D0 disk1 t.2 dirino [104, 105]))))
      = some (0, 2) ∧
    (get_inode K0 disk1 (boot K0 1 [100, 200]) 1).bind (fun t => t.1.map (fun dirino =>
      (dir_entries K0 D0 disk1 t.2 dirino).take 2))
      = some [(0, [98]), (2, [104, 105])] ∧
    (get_inode K0 disk1 (boot K0 1 [100, 200]) 1).bind (fun t => t.1.map (fun dirino =>
      decide (names_ok K0 D0 disk1 t.2 dirino ∧ path_ok K0 disk1 t.2 dirino 0 ∧
        path_ok K0 disk1 t.2 dirino 64)))
      = some true ∧
    (get_inode K0 disk1 (boot K0 1 [100, 200]) 1).map (fun t =>
      (t.2.e_.map (fun e => (e.bn_, e.ref_)), t.2.free))
      = some ([(1, 1)], [200]) := by
  decide

/-- C13 (amended). Assume that the fetches `get_data_page` makes for the directory can
succeed (`page_fetch_ok`), that up to the directory's first hole no translation
meets a zero index block number (`paths_ok`: the case of `indirect`,
`indirect2` or an outer entry equal to 0 is left out), and that the name field
of every entry in use holds a C string (`names_ok`). Then
`lookup(dirino, filename)`, for a `filename` that points to the bytes of `name`
and a NUL, returns (given enough fuel for its loop) the `inum` of the first
directory entry, in byte order over the directory's data blocks up to the first
hole or the end of the file, whose `inum` is not 0 and whose name is `name`,
and 0 if there is no such entry; it leaves the cache contents, and with them
every block's reference count, as they were before the call. -/
theorem lookup_first_match (K : Geometry) (D : DirentLayout) (disk : Nat → Nat) (w : World)
    (dirino : inode_ptr) (name rest : List Nat) (fuel : Nat) (hwf : WF w)
    (hpin : w.pinned dirino.page) (hB : 0 < K.blocksize) (hD : 0 < D.direntsize)
    (hname : ∀ c ∈ name, 0 < c ∧ c < 256)
    (hok : ∀ k : Nat, page_fetch_ok K disk w dirino (k * K.blocksize))
    (hpaths : paths_ok K disk w dirino 0) (hnames : names_ok K D disk w dirino)
    (hfuel : ino_field K w dirino K.ino_size / K.blocksize + 1 < fuel) :
    ∃ w' : World,
      lookup K D disk fuel w dirino (name ++ 0 :: rest)
        = some (lookup_spec K D disk w dirino name, w') ∧
      WF w' ∧ Same w w' ∧ ∀ b : Nat, w'.refs b = w.refs b := by
  have hsize : ino_field K w dirino K.ino_size
      ≤ (0 + (ino_field K w dirino K.ino_size / K.blocksize + 1)) * K.blocksize := by
    have := Nat.lt_mul_div_succ (ino_field K w dirino K.ino_size) hB
    rw [Nat.zero_add, Nat.mul_comm]
    omega
  obtain ⟨w', hl, hwf', hs⟩ := lookup_loop_spec K D disk w dirino name rest hpin hwf hD hname
    hok (ino_field K w dirino K.ino_size / K.blocksize + 1) 0 fuel w hfuel hsize hpaths hnames
    hwf (Same.refl w)
  rw [Nat.zero_mul] at hl
  exact ⟨w', hl, hwf', hs, hs.refs⟩

theorem state5_get :
    get_disk_block K0 disk1 state4 1 Option.none = some (some 100, state5) :=
  get_disk_block_miss K0 disk1 state4 1 Option.none 0
    ⟨K0.emptyblock, 0, bufflags.none, Option.none⟩ 100 [200, 300, 400]
    (by decide) (by decide) (by decide) rfl rfl

theorem state4_WF : WF state4 :=
  WF_boot K0 4 (fun _ => []) [100, 200, 300, 400] [] (by decide)

theorem state5_WF : WF state5 :=
  (get_spec K0 disk1 state4 1 Option.none 100 state5 state4_WF state5_get).1

theorem state5_pinned : state5.pinned rootino.page :=
  ⟨1, ⟨1, 1, ⟨false, true⟩, some 100⟩, by decide, rfl⟩

theorem state5_paths : paths_ok K0 disk1 state5 rootino 0 := by
  intro k _ hlt _
  have hsz : ino_field K0 state5 rootino K0.ino_size = 80 := by decide
  have hB : K0.blocksize = 64 := rfl
  rw [hsz, hB] at hlt
  have hk : k = 0 ∨ k = 1 := by omega
  rcases hk with rfl | rfl <;> decide

/-- Witness of C13 (amended): the root directory of `disk1` in `state5`, which has
three free slots and three free pages; the name `"z"` is found in the second
block of the directory, whose number comes from the indirect block. -/
theorem lookup_first_match_witness :
    WF state5 ∧ state5.pinned rootino.page ∧ 0 < K0.blocksize ∧ 0 < D0.direntsize ∧
    (∀ c ∈ [122], 0 < c ∧ c < 256) ∧
    (∀ k : Nat, page_fetch_ok K0 disk1 state5 rootino (k * K0.blocksize)) ∧
    paths_ok K0 disk1 state5 rootino 0 ∧ names_ok K0 D0 disk1 state5 rootino ∧
    ino_field K0 state5 rootino K0.ino_size / K0.blocksize + 1 < 3 ∧
    lookup_spec K0 D0 disk1 state5 rootino [122] = 5 ∧
    ∃ w' : World,
      lookup K0 D0 disk1 3 state5 rootino ([122] ++ 0 :: [])
        = some (lookup_spec K0 D0 disk1 state5 rootino [122], w') ∧
      WF w' ∧ Same state5 w' ∧ ∀ b : Nat, w'.refs b = state5.refs b :=
  ⟨state5_WF, state5_pinned, by decide, by decide, by decide,
    fun k => room_page_fetch_ok K0 disk1 state5 rootino _ state5_WF ⟨by decide, by decide⟩,
    state5_paths, by decide, by decide, by decide,
    lookup_first_match K0 D0 disk1 state5 rootino [122] [] 3 state5_WF state5_pinned
      (by decide) (by decide) (by decide)
      (fun k => room_page_fetch_ok K0 disk1 state5 rootino _ state5_WF ⟨by decide, by decide⟩)
      state5_paths (by decide) (by decide)⟩

/-! ## Stores into a page -/

theorem write32_length (bs : List Nat) (o v : Nat) : (write32 bs o v).length = bs.length := by
  simp [write32]

theorem write32_lt (bs : List Nat) (o v : Nat) (h : ∀ x ∈ bs, x < 256) :
    ∀ x ∈ write32 bs o v, x < 256 := by
  have hset : ∀ (l : List Nat) (i a : Nat), (∀ x ∈ l, x < 256) → a < 256 →
      ∀ x ∈ l.set i a, x < 256 := by
    intro l i a hl ha x hx
    rcases List.mem_or_eq_of_mem_set hx with h1 | h1
    · exact hl x h1
    · rw [h1]; exact ha
  unfold write32
  exact hset _ _ _ (hset _ _ _ (hset _ _ _ (hset _ _ _ h (Nat.mod_lt _ (by decide)))
    (Nat.mod_lt _ (by decide))) (Nat.mod_lt _ (by decide))) (Nat.mod_lt _ (by decide))

theorem getD_set (l : List Nat) (j a i : Nat) :
    (l.set j a).getD i 0 = if i = j ∧ i < l.length then a else l.getD i 0 := by
  simp only [List.getD_eq_getElem?_getD]
  by_cases h : j = i
  · subst h
    by_cases hl : j < l.length
    · simp [hl]
    · have h1 : (l.set j a)[j]? = Option.none :=
        List.getElem?_eq_none (by rw [List.length_set]; omega)
      simp [hl, h1, List.getElem?_eq_none (Nat.le_of_not_lt hl)]
  · rw [List.getElem?_set_ne h]
    have : ¬ (i = j ∧ i < l.length) := fun hc => h hc.1.symm
    simp [this]
theorem getD_write32 (bs : List Nat) (o v i : Nat) :
    (write32 bs o v).getD i 0
      = if i = o + 3 ∧ i < bs.length then v / 16777216 % 256
        else if i = o + 2 ∧ i < bs.length then v / 65536 % 256
        else if i = o + 1 ∧ i < bs.length then v / 256 % 256
        else if i = o ∧ i < bs.length then v % 256
        else bs.getD i 0 := by
  simp only [write32, getD_set, List.length_set]

theorem read32_write32 (bs : List Nat) (o v : Nat) (h : o + 4 ≤ bs.length) :
    read32 (write32 bs o v) o = v % 2 ^ 32 := by
  simp only [read32, getD_write32]
  have h0 : o < bs.length := by omega
  have h1 : o + 1 < bs.length := by omega
  have h2 : o + 2 < bs.length := by omega
  have h3 : o + 3 < bs.length := by omega
  simp only [h0, h1, h2, h3, and_true, if_true]
  simp only [show ¬ o = o + 3 by omega, show ¬ o = o + 2 by omega, show ¬ o = o + 1 by omega,
    show ¬ o + 1 = o + 3 by omega, show ¬ o + 1 = o + 2 by omega,
    show ¬ o + 2 = o + 3 by omega, if_false, if_true]
  omega

theorem write32_eq_of_getD (bs cs : List Nat) (hlen : cs.length = bs.length)
    (h : ∀ i : Nat, i < bs.length → cs.getD i 0 = bs.getD i 0) : cs = bs := by
  apply List.ext_getElem hlen
  intro i h1 h2
  have := h i h2
  simp only [List.getD_eq_getElem?_getD, List.getElem?_eq_getElem h1,
    List.getElem?_eq_getElem h2, Option.getD_some] at this
  exact this

theorem write32_write32 (bs : List Nat) (o a b : Nat) :
    write32 (write32 bs o a) o b = write32 bs o b := by
  apply write32_eq_of_getD
  · simp only [write32_length]
  · intro i hi
    rw [write32_length] at hi
    simp only [getD_write32, write32_length, hi, and_true]
    split_ifs <;> rfl

theorem write32_read32 (bs : List Nat) (o : Nat) (hb : ∀ x ∈ bs, x < 256)
    (h : o + 4 ≤ bs.length) : write32 bs o (read32 bs o) = bs := by
  apply write32_eq_of_getD
  · simp only [write32_length]
  · intro i hi
    have hget : ∀ j : Nat, j < bs.length → bs.getD j 0 < 256 := by
      intro j hj
      rw [List.getD_eq_getElem?_getD, List.getElem?_eq_getElem hj, Option.getD_some]
      exact hb _ (List.getElem_mem _)
    have g0 := hget o (by omega)
    have g1 := hget (o + 1) (by omega)
    have g2 := hget (o + 2) (by omega)
    have g3 := hget (o + 3) (by omega)
    simp only [getD_write32, hi, and_true, read32]
    split_ifs with c3 c2 c1 c0
    · subst c3; omega
    · subst c2; omega
    · subst c1; omega
    · subst c0; omega
    · rfl

/-! ## Pages of bytes -/

theorem bytes_same (K : Geometry) {w w1 : World} (h : Same w w1) (hb : Bytes K w) :
    Bytes K w1 := by
  intro q hq
  have hq0 := (h.pinned q).mp hq
  rw [h.2.2.2 q hq0]
  exact hb q hq0

theorem disk_bytes_bytes (disk : Nat → Nat) (sz off : Nat) (hdisk : ∀ k : Nat, disk k < 256) :
    (disk_bytes disk sz off).length = sz ∧ ∀ x ∈ disk_bytes disk sz off, x < 256 := by
  constructor
  · simp [disk_bytes]
  · intro x hx
    simp only [disk_bytes, List.mem_map, List.mem_range] at hx
    obtain ⟨k, -, rfl⟩ := hx
    exact hdisk _

theorem cached_block_bytes (K : Geometry) (disk : Nat → Nat) (w : World) (b : Nat)
    (hdisk : ∀ k : Nat, disk k < 256) (hb : Bytes K w) :
    (cached_block K disk w b).length = K.blocksize ∧
    ∀ x ∈ cached_block K disk w b, x < 256 := by
  unfold cached_block
  cases h : w.slot_of b with
  | none => exact disk_bytes_bytes disk _ _ hdisk
  | some e =>
    dsimp only
    cases hbuf : e.buf_ with
    | none => exact disk_bytes_bytes disk _ _ hdisk
    | some q => exact hb q ⟨b, e, h, hbuf⟩

theorem bytes_get (K : Geometry) (disk : Nat → Nat) (w : World) (bn p : Nat) (w1 : World)
    (hwf : WF w) (hdisk : ∀ k : Nat, disk k < 256) (hb : Bytes K w)
    (hg : get_disk_block K disk w bn Option.none = some (some p, w1)) : Bytes K w1 := by
  intro q hq
  rcases get_pinned_inv K disk w bn Option.none p w1 hwf hg q hq with h1 | h1
  · rw [(get_pinned K disk w bn Option.none p w1 hwf hg q h1).2]
    exact hb q h1
  · subst h1
    rw [get_contents K disk w bn q w1 hwf hg]
    exact cached_block_bytes K disk w bn hdisk hb

theorem store_field_WF (K : Geometry) (w : World) (ino : inode_ptr) (fld v : Nat)
    (h : WF w) : WF (store_field K w ino fld v) := h

theorem store_field_slot_of (K : Geometry) (w : World) (ino : inode_ptr) (fld v b : Nat) :
    (store_field K w ino fld v).slot_of b = w.slot_of b := rfl

theorem store_field_pinned (K : Geometry) (w : World) (ino : inode_ptr) (fld v q : Nat) :
    (store_field K w ino fld v).pinned q ↔ w.pinned q := Iff.rfl

theorem store_field_mem (K : Geometry) (w : World) (ino : inode_ptr) (fld v : Nat) :
    (store_field K w ino fld v).mem ino.page
      = write32 (w.mem ino.page) (ino.idx * K.inodesize + fld) v := by
  simp [store_field]

theorem store_field_mem_ne (K : Geometry) (w : World) (ino : inode_ptr) (fld v q : Nat)
    (h : q ≠ ino.page) : (store_field K w ino fld v).mem q = w.mem q := by
  simp [store_field, Function.update_noteq h]

theorem bytes_store (K : Geometry) (w : World) (ino : inode_ptr) (fld v : Nat)
    (hb : Bytes K w) : Bytes K (store_field K w ino fld v) := by
  intro q hq
  have hq0 : w.pinned q := hq
  by_cases h : q = ino.page
  · subst h
    rw [store_field_mem, write32_length]
    exact ⟨(hb _ hq0).1, write32_lt _ _ _ (hb _ hq0).2⟩
  · rw [store_field_mem_ne K w ino fld v q h]
    exact hb q hq0

/-! ## `lock_read` and `unlock_read` without interference -/

theorem lock_read_eq (K : Geometry) (w : World) (ino : inode_ptr)
    (h : ino_field K w ino K.ino_mlock ≠ MAX32) :
    lock_read K w ino
      = some (store_field K w ino K.ino_mlock ((ino_field K w ino K.ino_mlock + 1) % 2 ^ 32)) := by
  simp [lock_read, lock_read_loop, lock_read_pass, compare_exchange_weak, h]

theorem unlock_read_eq (K : Geometry) (w : World) (ino : inode_ptr)
    (h0 : ino_field K w ino K.ino_mlock ≠ 0) (h : ino_field K w ino K.ino_mlock ≠ MAX32) :
    unlock_read K w ino
      = some (store_field K w ino K.ino_mlock
          ((ino_field K w ino K.ino_mlock + 2 ^ 32 - 1) % 2 ^ 32)) := by
  simp [unlock_read, unlock_read_loop, unlock_read_pass, compare_exchange_weak, h0, h]

/-- A `lock_read` that finds the lock word `uint32_t(-1)` never returns. -/
theorem lock_read_held (K : Geometry) (w : World) (ino : inode_ptr)
    (h : ino_field K w ino K.ino_mlock = MAX32) : lock_read K w ino = Option.none := by
  simp [lock_read, h, lock_read_loop_stale]

/-- One pass of the loop of `lock_read` decides a run without interference: more
fuel never changes the result. -/
theorem lock_read_loop_fuel (fuel v : Nat) :
    lock_read_loop (fuel + 1) v v = lock_read_loop 1 v v := by
  by_cases h : v = MAX32
  · rw [h, lock_read_loop_stale, lock_read_loop_stale]
  · simp [lock_read_loop, lock_read_pass, compare_exchange_weak, h]

/-- One pass of the loop of `unlock_read` decides a run without interference. -/
theorem unlock_read_loop_fuel (fuel v : Nat) :
    unlock_read_loop (fuel + 1) v v = unlock_read_loop 1 v v := by
  simp [unlock_read_loop, unlock_read_pass, compare_exchange_weak]

/-! ## `get_inode` when its fetches can succeed -/

theorem get_inode_some (K : Geometry) (disk : Nat → Nat) (w : World) (inum : Nat) (hwf : WF w)
    (h0 : can_fetch w 0) (hv : 0 < inum ∧ inum < superblock_ninodes K disk w)
    (h1 : can_fetch w (inode_block K disk w inum)) :
    ∃ (p : Nat) (w2 w3 : World), WF w2 ∧ Same w w2 ∧
      get_disk_block K disk w2 (inode_block K disk w inum) Option.none = some (some p, w3) ∧
      get_inode K disk w inum = some (some ⟨p, inum % K.inodesperblock⟩, w3) := by
  obtain ⟨w2, hsb, hwf2, hs2⟩ := read_superblock_spec K disk w hwf h0
  obtain ⟨p, w3, hg⟩ := (get_disk_block_succeeds_iff K disk w2 _ Option.none hwf2).mpr
    ((hs2.can_fetch _).mpr h1)
  refine ⟨p, w2, w3, hwf2, hs2, hg, ?_⟩
  have hg' := hg
  simp only [inode_block] at hg'
  simp only [get_inode, hsb, hv, and_self, if_true, hg']

theorem get_inode_none (K : Geometry) (disk : Nat → Nat) (w : World) (inum : Nat) (hwf : WF w)
    (h0 : can_fetch w 0) (hv : ¬ (0 < inum ∧ inum < superblock_ninodes K disk w)) :
    ∃ w2 : World, WF w2 ∧ Same w w2 ∧ get_inode K disk w inum = some (Option.none, w2) := by
  obtain ⟨w2, hsb, hwf2, hs2⟩ := read_superblock_spec K disk w hwf h0
  refine ⟨w2, hwf2, hs2, ?_⟩
  simp only [get_inode, hsb, hv, if_false]

/-! ## Block indices out of range -/

/-- C20. With blocks of at least 4096 bytes (`Ni = B/4` is then at least 1024, and
`Ni * Ni * B` at least `2^32`), in a well-formed state with pages of bytes: as
`size` is a 32-bit field, no offset below `size` has a block index at or above
`Nd + Ni + Ni*Ni`, so `get_data_page` returns a page for no such offset; and
whenever `get_data_page` reads the double-indirect block (`off` below `size`,
`bi` at or above `Nd + Ni`), it reads it at the outer index
`(bi - Nd - Ni) / Ni`, which is below `Ni`: the four bytes of the entry lie
inside the `B` bytes of the page the fetch returned. -/
theorem outer_index_in_block (K : Geometry) (disk : Nat → Nat) (w : World) (ino : inode_ptr)
    (hB : 4096 ≤ K.blocksize) (hwf : WF w) (hbytes : Bytes K w)
    (hdisk : ∀ k : Nat, disk k < 256) :
    (∀ off : Nat, off < ino_field K w ino K.ino_size →
      off / K.blocksize < K.ndirect + K.nindirect + K.nindirect * K.nindirect) ∧
    (∀ off : Nat, off % K.blocksize = 0 → off < ino_field K w ino K.ino_size →
      K.ndirect + K.nindirect + K.nindirect * K.nindirect ≤ off / K.blocksize →
      ∃ w1 : World, get_data_page K disk w ino off = some ((Option.none, 0), w1)) ∧
    (∀ off : Nat, reads_indirect2 K w ino off →
      outer_index K off = (off / K.blocksize - K.ndirect - K.nindirect) / K.nindirect ∧
      outer_index K off < K.nindirect ∧
      ∀ (p : Nat) (w1 : World),
        get_disk_block K disk w (ino_field K w ino K.ino_indirect2) Option.none
          = some (some p, w1) →
        (w1.mem p).length = K.blocksize ∧
        4 * outer_index K off + 4 ≤ (w1.mem p).length ∧
        get_data_page_databn K disk w ino off
          = match get_disk_block K disk w1 (read32 (w1.mem p) (4 * outer_index K off))
              Option.none with
            | some (some q, w2) =>
              (match put_block K w2 (some q) with
               | some w3 =>
                 (put_block K w3 (some p)).map (fun w4 =>
                   (read32 (w2.mem q)
                     (4 * (((off / K.blocksize) % 2 ^ 32 - (K.ndirect + K.nindirect))
                       % K.nindirect)), w4))
               | Option.none => Option.none)
            | _ => Option.none) := by
  have hsz := read32_lt (w.mem ino.page) (ino.idx * K.inodesize + K.ino_size)
  have hNi : 1024 ≤ K.nindirect := by
    unfold Geometry.nindirect
    omega
  have hbig : 2 ^ 32 ≤ K.blocksize * (K.nindirect * K.nindirect) := by
    have h2 : 1024 * 1024 ≤ K.nindirect * K.nindirect := Nat.mul_le_mul hNi hNi
    have h3 : 4096 * (1024 * 1024) ≤ K.blocksize * (K.nindirect * K.nindirect) :=
      Nat.mul_le_mul hB h2
    omega
  have hrange : ∀ off : Nat, off < ino_field K w ino K.ino_size →
      off / K.blocksize < K.nindirect * K.nindirect := by
    intro off hlt
    apply Nat.div_lt_of_lt_mul
    simp only [ino_field] at hlt
    omega
  refine ⟨?_, ?_, ?_⟩
  · intro off hlt
    have := hrange off hlt
    omega
  · intro off _ hlt hge
    have := hrange off hlt
    omega
  · intro off hr
    have hr0 := hr
    obtain ⟨h1, h2, h3⟩ := hr
    have hlt : off < ino_field K w ino K.ino_size := by omega
    have hbi : off / K.blocksize % 2 ^ 32 = off / K.blocksize := by
      apply Nat.mod_eq_of_lt
      have h4 : off / K.blocksize ≤ off := Nat.div_le_self _ _
      simp only [ino_field] at hlt
      omega
    have hoi : outer_index K off
        = (off / K.blocksize - K.ndirect - K.nindirect) / K.nindirect := by
      simp only [outer_index, hbi, Nat.sub_sub]
    have hin : outer_index K off < K.nindirect := by
      rw [hoi]
      apply Nat.div_lt_of_lt_mul
      have := hrange off hlt
      omega
    refine ⟨hoi, hin, ?_⟩
    intro p w1 hg
    have hlen : (w1.mem p).length = K.blocksize :=
      (bytes_get K disk w _ p w1 hwf hdisk hbytes hg p
        ⟨_, (get_refs K disk w _ Option.none p w1 hwf hg).1⟩).1
    refine ⟨hlen, ?_, databn_reads_indirect2 K disk w ino off p w1 hr0 hg⟩
    rw [hlen]
    unfold Geometry.nindirect at hin
    omega

theorem disk_of_lt (tbl : List (Nat × Nat)) (k : Nat) (h : ∀ p ∈ tbl, p.2 < 255) :
    disk_of tbl k < 255 := by
  unfold disk_of
  induction tbl with
  | nil => simp
  | cons a t ih =>
    obtain ⟨x, y⟩ := a
    simp only [List.lookup_cons]
    cases hk : k == x with
    | true => simpa using h (x, y) (List.mem_cons_self _ _)
    | false => exact ih (fun p hp => h p (List.mem_cons_of_mem _ hp))

theorem state6_get :
    get_disk_block K1 disk3 (boot K1 3 [100, 200, 300]) 2 Option.none
      = some (some 100, state6) :=
  get_disk_block_miss K1 disk3 (boot K1 3 [100, 200, 300]) 2 Option.none 0
    ⟨K1.emptyblock, 0, bufflags.none, Option.none⟩ 100 [200, 300]
    (by decide) (by decide) (by decide) rfl rfl

theorem disk3_lt (k : Nat) : disk3 k < 256 :=
  Nat.lt_succ_of_lt (disk_of_lt _ k (by decide))

theorem state6_WF : WF state6 :=
  (get_spec K1 disk3 (boot K1 3 [100, 200, 300]) 2 Option.none 100 state6
    (WF_boot K1 3 (fun _ => []) [100, 200, 300] [] (by decide)) state6_get).1

theorem state6_bytes : Bytes K1 state6 :=
  bytes_get K1 disk3 (boot K1 3 [100, 200, 300]) 2 100 state6
    (WF_boot K1 3 (fun _ => []) [100, 200, 300] [] (by decide)) disk3_lt
    (fun q hq => by
      obtain ⟨b, e, hs, -⟩ := hq
      have hnone : (boot K1 3 [100, 200, 300]).slot_of b = Option.none :=
        (slot_of_eq_none _ b).mpr (fun e he hc => by
          have h0 : ∀ e ∈ (boot K1 3 [100, 200, 300]).e_, e.ref_ = 0 := by decide
          exact hc.1 (h0 e he))
      rw [hnone] at hs
      cases hs) state6_get

set_option maxRecDepth 100000 in
/-- Witness of C20: inode 1 of `disk3`, in the geometry `K1` with 4096-byte blocks,
has `size = 5000000`; offset 4505600 has block index 1100, at or above
`Nd + Ni = 1033`. `get_data_page` reads the double-indirect block 3 at outer
index 0 and the block its entry names, block 4, at inner index 67, and
resolves the data block number 5. -/
theorem outer_index_in_block_witness :
    4096 ≤ K1.blocksize ∧ WF state6 ∧ Bytes K1 state6 ∧ (∀ k : Nat, disk3 k < 256) ∧
    reads_indirect2 K1 state6 ⟨100, 1⟩ 4505600 ∧
    (ino_field K1 state6 ⟨100, 1⟩ K1.ino_size, ino_field K1 state6 ⟨100, 1⟩ K1.ino_indirect2,
      4505600 / K1.blocksize, K1.ndirect + K1.nindirect, outer_index K1 4505600)
      = (5000000, 3, 1100, 1033, 0) ∧
    (get_data_page_databn K1 disk3 state6 ⟨100, 1⟩ 4505600).map (fun r => r.1) = some 5 ∧
    outer_index K1 4505600 < K1.nindirect ∧
    (∀ off : Nat, off < ino_field K1 state6 ⟨100, 1⟩ K1.ino_size →
      off / K1.blocksize < K1.ndirect + K1.nindirect + K1.nindirect * K1.nindirect) :=
  ⟨by decide, state6_WF, state6_bytes, disk3_lt, by decide, by decide, by decide,
    ((outer_index_in_block K1 disk3 state6 ⟨100, 1⟩ (by decide) state6_WF state6_bytes
      disk3_lt).2.2 4505600 (by decide)).2.1,
    (outer_index_in_block K1 disk3 state6 ⟨100, 1⟩ (by decide) state6_WF state6_bytes
      disk3_lt).1⟩

/-! ## The end of a read, and the bytes of a file -/
theorem first_hole_sound (K : Geometry) (disk : Nat → Nat) (w : World) (ino : inode_ptr)
    (k h : Nat) (hf : first_hole K disk w ino k = some h) :
    k ≤ h ∧ h * K.blocksize < ino_field K w ino K.ino_size ∧
    spec_block K disk w ino (h * K.blocksize) = 0 := by
  unfold first_hole at hf
  have h1 := List.find?_some hf
  have h2 := List.mem_of_find?_eq_some hf
  rw [List.mem_range'_1] at h2
  simp only [Bool.and_eq_true, decide_eq_true_eq, beq_iff_eq] at h1
  exact ⟨h2.1, h1.1, h1.2⟩

theorem first_hole_here (K : Geometry) (disk : Nat → Nat) (w : World) (ino : inode_ptr)
    (k : Nat) (hB : 0 < K.blocksize) (h1 : k * K.blocksize < ino_field K w ino K.ino_size)
    (h2 : spec_block K disk w ino (k * K.blocksize) = 0) :
    first_hole K disk w ino k = some k := by
  have hk : k ≤ ino_field K w ino K.ino_size / K.blocksize :=
    (Nat.le_div_iff_mul_le hB).mpr (by omega)
  obtain ⟨m, hm⟩ : ∃ m, ino_field K w ino K.ino_size / K.blocksize + 1 - k = m + 1 :=
    ⟨ino_field K w ino K.ino_size / K.blocksize - k, by omega⟩
  simp only [first_hole, hm, List.range'_succ, List.find?_cons, h1, h2, decide_True,
    beq_self_eq_true, Bool.and_self]

theorem first_hole_next (K : Geometry) (disk : Nat → Nat) (w : World) (ino : inode_ptr)
    (k : Nat) (hB : 0 < K.blocksize) (h1 : k * K.blocksize < ino_field K w ino K.ino_size)
    (h2 : spec_block K disk w ino (k * K.blocksize) ≠ 0) :
    first_hole K disk w ino k = first_hole K disk w ino (k + 1) := by
  have hk : k ≤ ino_field K w ino K.ino_size / K.blocksize :=
    (Nat.le_div_iff_mul_le hB).mpr (by omega)
  have hm : ino_field K w ino K.ino_size / K.blocksize + 1 - k
      = (ino_field K w ino K.ino_size / K.blocksize + 1 - (k + 1)) + 1 := by omega
  have hp : (spec_block K disk w ino (k * K.blocksize) == 0) = false := by
    simp [h2]
  rw [first_hole, hm, List.range'_succ, List.find?_cons]
  simp only [hp, Bool.and_false]
  rfl

theorem read_end_le (K : Geometry) (disk : Nat → Nat) (w : World) (ino : inode_ptr)
    (off : Nat) : read_end K disk w ino off ≤ ino_field K w ino K.ino_size := by
  unfold read_end
  cases h : first_hole K disk w ino (off / K.blocksize) with
  | none => exact Nat.le_refl _
  | some x => exact Nat.le_of_lt (first_hole_sound K disk w ino _ x h).2.1

theorem read_end_block (K : Geometry) (disk : Nat → Nat) (w : World) (ino : inode_ptr)
    (off off1 : Nat) (h : off / K.blocksize = off1 / K.blocksize) :
    read_end K disk w ino off = read_end K disk w ino off1 := by
  simp only [read_end, h]

/-- Where block `off / B` has no page (it is past the end of the file, or a hole), a
read at `off` ends at or before the start of that block. -/
theorem read_end_no_page (K : Geometry) (disk : Nat → Nat) (w : World) (ino : inode_ptr)
    (off : Nat) (hB : 0 < K.blocksize)
    (h : ¬ (off / K.blocksize * K.blocksize < ino_field K w ino K.ino_size ∧
      spec_block K disk w ino (off / K.blocksize * K.blocksize) ≠ 0)) :
    read_end K disk w ino off ≤ off / K.blocksize * K.blocksize := by
  by_cases h1 : off / K.blocksize * K.blocksize < ino_field K w ino K.ino_size
  · have h2 : spec_block K disk w ino (off / K.blocksize * K.blocksize) = 0 := by
      by_contra hc
      exact h ⟨h1, hc⟩
    simp only [read_end, first_hole_here K disk w ino _ hB h1 h2]
    exact Nat.le_refl _
  · have := read_end_le K disk w ino off
    omega

/-- Where block `off / B` has a page, a read at `off` ends where a read at the start
of the next block ends, not before the end of the block or of the file. -/
theorem read_end_page (K : Geometry) (disk : Nat → Nat) (w : World) (ino : inode_ptr)
    (off : Nat) (hB : 0 < K.blocksize)
    (h1 : off / K.blocksize * K.blocksize < ino_field K w ino K.ino_size)
    (h2 : spec_block K disk w ino (off / K.blocksize * K.blocksize) ≠ 0) :
    read_end K disk w ino off = read_end K disk w ino ((off / K.blocksize + 1) * K.blocksize) ∧
    min (ino_field K w ino K.ino_size) ((off / K.blocksize + 1) * K.blocksize)
      ≤ read_end K disk w ino off := by
  have hnext := first_hole_next K disk w ino _ hB h1 h2
  have hdiv : (off / K.blocksize + 1) * K.blocksize / K.blocksize = off / K.blocksize + 1 :=
    Nat.mul_div_cancel _ hB
  have heq : read_end K disk w ino off
      = read_end K disk w ino ((off / K.blocksize + 1) * K.blocksize) := by
    simp only [read_end, hdiv, hnext]
  refine ⟨heq, ?_⟩
  simp only [read_end, hnext]
  cases h : first_hole K disk w ino (off / K.blocksize + 1) with
  | none => exact Nat.min_le_left _ _
  | some x =>
    have hx := (first_hole_sound K disk w ino _ x h).1
    have := Nat.mul_le_mul_right K.blocksize hx
    exact Nat.le_trans (Nat.min_le_right _ _) this

theorem file_bytes_length (K : Geometry) (disk : Nat → Nat) (w : World) (ino : inode_ptr)
    (off n : Nat) : (file_bytes K disk w ino off n).length = n := by
  simp [file_bytes]

theorem file_bytes_add (K : Geometry) (disk : Nat → Nat) (w : World) (ino : inode_ptr)
    (off c n : Nat) :
    file_bytes K disk w ino off (c + n)
      = file_bytes K disk w ino off c ++ file_bytes K disk w ino (off + c) n := by
  simp only [file_bytes, List.range_add, List.map_append, List.map_map]
  congr 1
  apply List.map_congr_left
  intro j _
  simp only [Function.comp_apply, Nat.add_assoc]

theorem drop_take_eq_map (page : List Nat) (boff c : Nat) (h : boff + c ≤ page.length) :
    (page.drop boff).take c = (List.range c).map (fun j => page.getD (boff + j) 0) := by
  apply List.ext_getElem?
  intro j
  by_cases hj : j < c
  · have h1 : boff + j < page.length := by omega
    simp [List.getElem?_take, hj, List.getElem?_drop, List.getElem?_range,
      List.getD_eq_getElem?_getD, List.getElem?_eq_getElem h1]
  · have h1 : (List.range c)[j]? = Option.none :=
      List.getElem?_eq_none (by rw [List.length_range]; omega)
    simp [List.getElem?_take, hj, h1]

/-- The bytes `get_data_page`'s page holds from offset `off mod B` on are the bytes of
the file from `off` on, as far as the block reaches. -/
theorem file_bytes_chunk (K : Geometry) (disk : Nat → Nat) (w : World) (ino : inode_ptr)
    (off c : Nat) (hB : 0 < K.blocksize)
    (hlen : (cached_block K disk w
      (spec_block K disk w ino (off / K.blocksize * K.blocksize))).length = K.blocksize)
    (hc : off % K.blocksize + c ≤ K.blocksize) :
    file_bytes K disk w ino off c
      = ((cached_block K disk w
          (spec_block K disk w ino (off / K.blocksize * K.blocksize))).drop
            (off % K.blocksize)).take c := by
  rw [drop_take_eq_map _ _ _ (by rw [hlen]; exact hc), file_bytes]
  apply List.map_congr_left
  intro j hj
  rw [List.mem_range] at hj
  have hoff := Nat.div_add_mod off K.blocksize
  have hsum : off + j = K.blocksize * (off / K.blocksize) + (off % K.blocksize + j) := by omega
  have hlt : off % K.blocksize + j < K.blocksize := by omega
  have hdiv : (off + j) / K.blocksize = off / K.blocksize := by
    rw [hsum, Nat.mul_add_div hB, Nat.div_eq_of_lt hlt, Nat.add_zero]
  have hmod : (off + j) % K.blocksize = off % K.blocksize + j := by
    rw [hsum, Nat.mul_add_mod, Nat.mod_eq_of_lt hlt]
  have hdiv2 : off / K.blocksize * K.blocksize / K.blocksize = off / K.blocksize :=
    Nat.mul_div_cancel _ hB
  rw [file_byte, hmod,
    spec_block_block K disk w ino (off + j) (off / K.blocksize * K.blocksize)
      (by rw [hdiv, hdiv2])]

/-! ## `memcpy` into the buffer -/

theorem memcpy_nil (buf : List Nat) (pos : Nat) : memcpy buf pos [] = buf := by
  simp [memcpy]

theorem memcpy_length (buf : List Nat) (pos : Nat) (src : List Nat)
    (h : pos + src.length ≤ buf.length) : (memcpy buf pos src).length = buf.length := by
  simp only [memcpy, List.length_append, List.length_take, List.length_drop]
  omega

theorem memcpy_memcpy (buf : List Nat) (pos : Nat) (src src1 : List Nat)
    (h : pos ≤ buf.length) :
    memcpy (memcpy buf pos src) (pos + src.length) src1 = memcpy buf pos (src ++ src1) := by
  have hlen : (buf.take pos ++ src).length = pos + src.length := by
    simp only [List.length_append, List.length_take]
    omega
  have h1 : (memcpy buf pos src).take (pos + src.length) = buf.take pos ++ src := by
    unfold memcpy
    rw [← hlen, List.take_left]
  have h2 : (memcpy buf pos src).drop (pos + src.length + src1.length)
      = buf.drop (pos + (src ++ src1).length) := by
    unfold memcpy
    rw [show pos + src.length + src1.length = (buf.take pos ++ src).length + src1.length by
      rw [hlen], List.drop_append, List.drop_drop, List.length_append]
    congr 1
    omega
  rw [memcpy, h1, h2, memcpy, List.append_assoc, List.append_assoc, List.append_assoc,
    List.append_assoc]

/-! ## The copy loop of `chickadeefs_read_file_data` -/

/-- The copy loop on inode `ino`, from a state with the cache contents of `wl`: when
the fetches can succeed, no translation from block `off / B` up to the first
hole meets a zero index block number, and the buffer has room for `sz` more
bytes, the loop returns having added `read_count` to `nread` and copied that
many bytes of the file, from offset `off` on, to `buf + nread`; the cache
contents are afterwards as before. -/
theorem read_loop_spec (K : Geometry) (disk : Nat → Nat) (wl : World) (ino : inode_ptr)
    (hwf : WF wl) (hpin : wl.pinned ino.page) (hB : 0 < K.blocksize)
    (hdisk : ∀ k : Nat, disk k < 256) (hbytes : Bytes K wl)
    (hok : ∀ k : Nat, page_fetch_ok K disk wl ino (k * K.blocksize)) :
    ∀ (fuel sz off nread : Nat) (buf : List Nat) (w' : World), sz < fuel →
      nread + sz ≤ buf.length → paths_ok K disk wl ino (off / K.blocksize) → WF w' →
      Same wl w' →
      ∃ w'' : World,
        read_loop K disk ino fuel sz off nread buf w'
          = some ((nread + read_count K disk wl ino sz off,
              memcpy buf nread
                (file_bytes K disk wl ino off (read_count K disk wl ino sz off))), w'') ∧
        WF w'' ∧ Same wl w'' := by
  intro fuel
  induction fuel with
  | zero => intro sz off nread buf w' hfuel; omega
  | succ f ih =>
    intro sz off nread buf w' hfuel hbuf hpaths hwf' hs
    by_cases hsz0 : sz = 0
    · subst hsz0
      have hn : read_count K disk wl ino 0 off = 0 := by simp [read_count]
      refine ⟨w', ?_, hwf', hs⟩
      simp [read_loop, hn, file_bytes, memcpy_nil]
    · have hdm := Nat.div_add_mod off K.blocksize
      rw [Nat.mul_comm] at hdm
      have hbo : off - off % K.blocksize = off / K.blocksize * K.blocksize := by omega
      have hboff : off - off / K.blocksize * K.blocksize = off % K.blocksize := by omega
      have hmodlt := Nat.mod_lt off hB
      have hpin' : w'.pinned ino.page := (hs.pinned _).mpr hpin
      have hsize := ino_field_congr K wl w' ino K.ino_size (hs.2.2.2 _ hpin)
      have ham := same_address_map K disk hs ino hpin (off / K.blocksize * K.blocksize)
      obtain ⟨hnone, hpage⟩ := page_cycle K disk w' ino (off / K.blocksize * K.blocksize)
        hwf' hpin' (Nat.mul_mod_left _ _)
        (same_page_fetch_ok K disk hs hwf hwf' ino hpin _ (hok _))
      rw [hsize, ham] at hnone hpage
      have hE3 := read_end_le K disk wl ino off
      have heq : off / K.blocksize * K.blocksize < ino_field K wl ino K.ino_size →
          spec_block K disk wl ino (off / K.blocksize * K.blocksize)
            = address_map K disk wl ino (off / K.blocksize * K.blocksize) :=
        fun hlt => spec_block_eq K disk wl ino _
          (hpaths _ (Nat.le_refl _) hlt (fun j h1 h2 => absurd h2 (by omega)))
      by_cases hc : off / K.blocksize * K.blocksize < ino_field K wl ino K.ino_size ∧
          address_map K disk wl ino (off / K.blocksize * K.blocksize) ≠ 0
      · obtain ⟨p, w2, w3, hg, hwf2, hmem, hput, hwf3, hs3⟩ := hpage hc
        rw [hs.cached K disk] at hmem
        have hsk : spec_block K disk wl ino (off / K.blocksize * K.blocksize) ≠ 0 := by
          rw [heq hc.1]; exact hc.2
        obtain ⟨hE1, hE2⟩ := read_end_page K disk wl ino off hB hc.1 hsk
        rw [Nat.add_mul, Nat.one_mul] at hE2
        by_cases hb : min K.blocksize
            (ino_field K wl ino K.ino_size - off / K.blocksize * K.blocksize)
            > off % K.blocksize
        · have hblen := (cached_block_bytes K disk wl
            (address_map K disk wl ino (off / K.blocksize * K.blocksize)) hdisk hbytes).1
          obtain ⟨c, hcdef⟩ : ∃ c : Nat, c = min (min K.blocksize
              (ino_field K wl ino K.ino_size - off / K.blocksize * K.blocksize)
              - off % K.blocksize) sz := ⟨_, rfl⟩
          have hc0 : c ≠ 0 := by omega
          have hcB : off % K.blocksize + c ≤ K.blocksize := by omega
          have hchunk : ((w2.mem p).drop (off % K.blocksize)).take c
              = file_bytes K disk wl ino off c := by
            rw [hmem]
            have hch := file_bytes_chunk K disk wl ino off c hB (by rw [heq hc.1]; exact hblen)
              hcB
            rw [heq hc.1] at hch
            exact hch.symm
          have hclen : (file_bytes K disk wl ino off c).length = c :=
            file_bytes_length K disk wl ino off c
          have hbuf1 : (memcpy buf nread (file_bytes K disk wl ino off c)).length
              = buf.length := memcpy_length _ _ _ (by rw [hclen]; omega)
          have hpaths' : paths_ok K disk wl ino ((off + c) / K.blocksize) := by
            by_cases hlt : off + c < off / K.blocksize * K.blocksize + K.blocksize
            · have hdiv : (off + c) / K.blocksize = off / K.blocksize := by
                apply Nat.div_eq_of_lt_le
                · omega
                · rw [Nat.succ_mul]; exact hlt
              rw [hdiv]
              exact hpaths
            · have hnext : off + c = (off / K.blocksize + 1) * K.blocksize := by
                rw [Nat.add_mul, Nat.one_mul]; omega
              rw [hnext, Nat.mul_div_cancel _ hB]
              exact paths_ok_succ K disk wl ino _ hpaths hsk
          obtain ⟨w'', hl, hwf'', hs''⟩ := ih (sz - c) (off + c) (nread + c)
            (memcpy buf nread (file_bytes K disk wl ino off c)) w3 (by omega)
            (by rw [hbuf1]; omega) hpaths' hwf3 (hs.trans hs3)
          have hEc : read_end K disk wl ino (off + c) = read_end K disk wl ino off := by
            by_cases hlt : off + c < off / K.blocksize * K.blocksize + K.blocksize
            · apply read_end_block
              apply Nat.div_eq_of_lt_le
              · omega
              · rw [Nat.succ_mul]; exact hlt
            · have hnext : off + c = (off / K.blocksize + 1) * K.blocksize := by
                rw [Nat.add_mul, Nat.one_mul]; omega
              rw [hnext]
              exact hE1.symm
          have hcount : read_count K disk wl ino sz off
              = c + read_count K disk wl ino (sz - c) (off + c) := by
            simp only [read_count, hEc]
            split_ifs <;> omega
          refine ⟨w'', ?_, hwf'', hs''⟩
          simp only [read_loop, hsz0, if_false, hbo, hg, hboff, hb, if_true, hput, ← hcdef,
            hc0, hchunk]
          rw [hl, hcount, file_bytes_add, ← Nat.add_assoc]
          have hmm := memcpy_memcpy buf nread (file_bytes K disk wl ino off c)
            (file_bytes K disk wl ino (off + c)
              (read_count K disk wl ino (sz - c) (off + c))) (by omega)
          rw [hclen] at hmm
          rw [hmm]
        · have hn : read_count K disk wl ino sz off = 0 := by
            have : ¬ off < read_end K disk wl ino off := by omega
            simp only [read_count, this, if_false]
          refine ⟨w3, ?_, hwf3, hs.trans hs3⟩
          simp only [read_loop, hsz0, if_false, hbo, hg, hboff, hb, hput, if_true, hn,
            Nat.add_zero, file_bytes, List.range_zero, List.map_nil, memcpy_nil]
      · obtain ⟨w1, hg, hwf1, hs1⟩ := hnone hc
        have hc' : ¬ (off / K.blocksize * K.blocksize < ino_field K wl ino K.ino_size ∧
            spec_block K disk wl ino (off / K.blocksize * K.blocksize) ≠ 0) := by
          rintro ⟨h1, h2⟩
          rw [heq h1] at h2
          exact hc ⟨h1, h2⟩
        have hE := read_end_no_page K disk wl ino off hB hc'
        have hn : read_count K disk wl ino sz off = 0 := by
          have : ¬ off < read_end K disk wl ino off := by omega
          simp only [read_count, this, if_false]
        refine ⟨w1, ?_, hwf1, hs.trans hs1⟩
        simp only [read_loop, hsz0, if_false, hbo, hg, hn, Nat.add_zero, file_bytes,
          List.range_zero, List.map_nil, memcpy_nil]

/-! ## An inode held and read-locked -/

theorem inode_word_in_page (K : Geometry) (inum : Nat) (hipb : 0 < K.inodesperblock)
    (hlay : K.inodesperblock * K.inodesize ≤ K.blocksize) (hml : K.ino_mlock + 4 ≤ K.inodesize) :
    inum % K.inodesperblock * K.inodesize + K.ino_mlock + 4 ≤ K.blocksize := by
  have h1 : inum % K.inodesperblock + 1 ≤ K.inodesperblock := Nat.mod_lt _ hipb
  have h2 := Nat.mul_le_mul_right K.inodesize h1
  rw [Nat.add_mul, Nat.one_mul] at h2
  omega

/-- Fetching inode `inum` and read-locking it, and undoing both later. When block 0
and the inode's block can be fetched, `inum` is valid and the lock word is
below `uint32_t(-1) - 1`, `get_inode` returns the inode in the resident page of
its block (fetched in a state `w0` with the cache contents of `w`) and
`lock_read` returns with the lock word one higher; from any later state with
the same cache contents, `unlock_read` and `put_inode` bring back the cache
contents from before `get_inode`. -/
theorem inode_bracket (K : Geometry) (disk : Nat → Nat) (w : World) (inum : Nat)
    (hwf : WF w) (hbytes : Bytes K w) (hdisk : ∀ k : Nat, disk k < 256)
    (hipb : 0 < K.inodesperblock) (hlay : K.inodesperblock * K.inodesize ≤ K.blocksize)
    (hml : K.ino_mlock + 4 ≤ K.inodesize) (h0 : can_fetch w 0)
    (hv : 0 < inum ∧ inum < superblock_ninodes K disk w)
    (h1 : can_fetch w (inode_block K disk w inum))
    (hlock : inode_word K disk w inum K.ino_mlock + 1 < MAX32) :
    ∃ (ino : inode_ptr) (w0 w1 wl : World),
      WF w0 ∧ Same w w0 ∧
      get_disk_block K disk w0 (inode_block K disk w inum) Option.none
        = some (some ino.page, w1) ∧
      get_inode K disk w inum = some (some ino, w1) ∧ lock_read K w1 ino = some wl ∧
      ino.idx = inum % K.inodesperblock ∧
      w1.holds (inode_block K disk w inum) ino.page ∧
      w1.mem ino.page = cached_block K disk w (inode_block K disk w inum) ∧
      wl = store_field K w1 ino K.ino_mlock (inode_word K disk w inum K.ino_mlock + 1) ∧
      WF wl ∧ Bytes K wl ∧ wl.pinned ino.page ∧
      ∀ w3 : World, WF w3 → Same wl w3 →
        ∃ w4 w5 : World, unlock_read K w3 ino = some w4 ∧
          put_inode K w4 (some ino) = some w5 ∧ WF w5 ∧ Same w w5 := by
  have hM : MAX32 = 4294967295 := by decide
  obtain ⟨p, w2, w1, hwf2, hs2, hg, hgi⟩ := get_inode_some K disk w inum hwf h0 hv h1
  obtain ⟨hwf1, -, -⟩ := get_spec K disk w2 _ Option.none p w1 hwf2 hg
  have hhold := (get_refs K disk w2 _ Option.none p w1 hwf2 hg).1
  have hmem : w1.mem p = cached_block K disk w (inode_block K disk w inum) := by
    rw [get_contents K disk w2 _ p w1 hwf2 hg, hs2.cached K disk]
  have hb1 : Bytes K w1 := bytes_get K disk w2 _ p w1 hwf2 hdisk (bytes_same K hs2 hbytes) hg
  have hpin1 : w1.pinned p := ⟨_, hhold⟩
  have hv1 : ino_field K w1 ⟨p, inum % K.inodesperblock⟩ K.ino_mlock
      = inode_word K disk w inum K.ino_mlock := by
    simp only [ino_field, inode_word, hmem]
  have hin := inode_word_in_page K inum hipb hlay hml
  have hlen : (w1.mem p).length = K.blocksize := (hb1 p hpin1).1
  have hlk := lock_read_eq K w1 ⟨p, inum % K.inodesperblock⟩ (by rw [hv1]; omega)
  rw [hv1, Nat.mod_eq_of_lt
    (show inode_word K disk w inum K.ino_mlock + 1 < 2 ^ 32 by omega)] at hlk
  refine ⟨⟨p, inum % K.inodesperblock⟩, w2, w1, _, hwf2, hs2, hg, hgi, hlk, rfl, hhold, hmem,
    rfl, store_field_WF K w1 _ _ _ hwf1, bytes_store K w1 _ _ _ hb1, hpin1, ?_⟩
  intro w3 hwf3 hs3
  have hmem3 : w3.mem p = write32 (w1.mem p)
      (inum % K.inodesperblock * K.inodesize + K.ino_mlock)
      (inode_word K disk w inum K.ino_mlock + 1) := by
    rw [hs3.2.2.2 p hpin1]
    exact store_field_mem K w1 ⟨p, inum % K.inodesperblock⟩ K.ino_mlock _
  have hv3 : ino_field K w3 ⟨p, inum % K.inodesperblock⟩ K.ino_mlock
      = inode_word K disk w inum K.ino_mlock + 1 := by
    simp only [ino_field, hmem3]
    rw [read32_write32 _ _ _ (by rw [hlen]; omega), Nat.mod_eq_of_lt
      (show inode_word K disk w inum K.ino_mlock + 1 < 2 ^ 32 by omega)]
  have hul := unlock_read_eq K w3 ⟨p, inum % K.inodesperblock⟩ (by rw [hv3]; omega)
    (by rw [hv3]; omega)
  rw [hv3, show (inode_word K disk w inum K.ino_mlock + 1 + 2 ^ 32 - 1) % 2 ^ 32
    = inode_word K disk w inum K.ino_mlock by omega] at hul
  have hs14 : Same w1 (store_field K w3 ⟨p, inum % K.inodesperblock⟩ K.ino_mlock
      (inode_word K disk w inum K.ino_mlock)) := by
    refine ⟨fun b => hs3.1 b, hs3.2.1, hs3.2.2.1, ?_⟩
    intro q hq
    by_cases hqp : q = p
    · subst hqp
      rw [store_field_mem K w3 ⟨q, inum % K.inodesperblock⟩ K.ino_mlock, hmem3,
        write32_write32]
      have := write32_read32 (w1.mem q) (inum % K.inodesperblock * K.inodesize + K.ino_mlock)
        (hb1 q hpin1).2 (by rw [hlen]; omega)
      simp only [ino_field] at hv1
      rw [hv1] at this
      exact this
    · rw [store_field_mem_ne K w3 ⟨p, inum % K.inodesperblock⟩ K.ino_mlock _ q hqp,
        hs3.2.2.2 q hq]
      exact store_field_mem_ne K w1 ⟨p, inum % K.inodesperblock⟩ K.ino_mlock _ q hqp
  obtain ⟨w5, hput, hwf5, hs5⟩ := release_after K disk w2 _ Option.none p w1 _ hwf2 hg
    (store_field_WF K w3 ⟨p, inum % K.inodesperblock⟩ K.ino_mlock _ hwf3) hs14
  exact ⟨_, w5, hul, hput, hwf5, hs2.trans hs5⟩

/-! ## `chickadeefs_read_file_data` -/

theorem same_superblock {w w1 : World} (K : Geometry) (disk : Nat → Nat) (h : Same w w1) :
    superblock_ninodes K disk w1 = superblock_ninodes K disk w ∧
    ∀ inum : Nat, inode_block K disk w1 inum = inode_block K disk w inum := by
  constructor
  · simp only [superblock_ninodes, h.cached K disk]
  · intro inum
    simp only [inode_block, superblock_inode_bn, h.cached K disk]

theorem same_inode_word {w w1 : World} (K : Geometry) (disk : Nat → Nat) (h : Same w w1)
    (inum fld : Nat) : inode_word K disk w1 inum fld = inode_word K disk w inum fld := by
  simp only [inode_word, (same_superblock K disk h).2, h.cached K disk]

theorem memcpy_zero (buf src : List Nat) : memcpy buf 0 src = src ++ buf.drop src.length := by
  simp [memcpy]

/-- The function `lookup` in a state in which its fetches can succeed. -/
theorem lookup_returns (K : Geometry) (D : DirentLayout) (disk : Nat → Nat) (w : World)
    (dirino : inode_ptr) (name rest : List Nat) (fuel : Nat) (hwf : WF w)
    (hpin : w.pinned dirino.page) (hB : 0 < K.blocksize) (hD : 0 < D.direntsize)
    (hname : ∀ c ∈ name, 0 < c ∧ c < 256)
    (hok : ∀ k : Nat, page_fetch_ok K disk w dirino (k * K.blocksize))
    (hpaths : paths_ok K disk w dirino 0) (hnames : names_ok K D disk w dirino)
    (hfuel : ino_field K w dirino K.ino_size / K.blocksize + 1 < fuel) :
    ∃ w' : World,
      lookup K D disk fuel w dirino (name ++ 0 :: rest)
        = some (lookup_spec K D disk w dirino name, w') ∧
      WF w' ∧ Same w w' := by
  have hsize : ino_field K w dirino K.ino_size
      ≤ (0 + (ino_field K w dirino K.ino_size / K.blocksize + 1)) * K.blocksize := by
    have := Nat.lt_mul_div_succ (ino_field K w dirino K.ino_size) hB
    rw [Nat.zero_add, Nat.mul_comm]
    omega
  obtain ⟨w', hl, hwf', hs⟩ := lookup_loop_spec K D disk w dirino name rest hpin hwf hD hname
    hok (ino_field K w dirino K.ino_size / K.blocksize + 1) 0 fuel w hfuel hsize hpaths hnames
    hwf (Same.refl w)
  rw [Nat.zero_mul] at hl
  exact ⟨w', hl, hwf', hs⟩

/-- The first half of `chickadeefs_read_file_data` (lines 320-330): the root
directory's inode is fetched and read-locked, the directory is searched, the
inode is unlocked and released, which restores the cache contents; the inode
the directory names for `name` is then fetched. -/
theorem open_file_spec (K : Geometry) (D : DirentLayout) (disk : Nat → Nat) (w : World)
    (name rest : List Nat) (fuel : Nat) (hwf : WF w) (hbytes : Bytes K w)
    (hdisk : ∀ k : Nat, disk k < 256) (hB : 0 < K.blocksize) (hD : 0 < D.direntsize)
    (hname : ∀ c ∈ name, 0 < c ∧ c < 256) (hipb : 0 < K.inodesperblock)
    (hlay : K.inodesperblock * K.inodesize ≤ K.blocksize)
    (hml : K.ino_mlock + 4 ≤ K.inodesize) (h0 : can_fetch w 0)
    (h1 : can_fetch w (inode_block K disk w 1))
    (hdir : ∀ (dirino : inode_ptr) (w2 : World), lock_root K disk w = some (dirino, w2) →
      ∀ k : Nat, page_fetch_ok K disk w2 dirino (k * K.blocksize))
    (hdirp : ∀ (dirino : inode_ptr) (w2 : World), lock_root K disk w = some (dirino, w2) →
      paths_ok K disk w2 dirino 0 ∧ names_ok K D disk w2 dirino)
    (hroot : 1 < superblock_ninodes K disk w)
    (hlock : inode_word K disk w 1 K.ino_mlock + 1 < MAX32) (hfuel : 2 ^ 32 < fuel) :
    ∃ (dirino : inode_ptr) (w2 w5 : World),
      lock_root K disk w = some (dirino, w2) ∧ WF w5 ∧ Same w w5 ∧
      open_file K D disk fuel w (name ++ 0 :: rest)
        = get_inode K disk w5 (lookup_spec K D disk w2 dirino name) := by
  obtain ⟨dirino, w0, w1, w2, -, -, -, hgi, hlk, -, -, -, -, hwf2, -, hpin2, hclose⟩ :=
    inode_bracket K disk w 1 hwf hbytes hdisk hipb hlay hml h0 ⟨by omega, hroot⟩ h1 hlock
  have hlr : lock_root K disk w = some (dirino, w2) := by
    simp only [lock_root, hgi, hlk, Option.map_some']
  have hsz := read32_lt (w2.mem dirino.page) (dirino.idx * K.inodesize + K.ino_size)
  have hf : ino_field K w2 dirino K.ino_size / K.blocksize + 1 < fuel := by
    have h1 : ino_field K w2 dirino K.ino_size / K.blocksize
        ≤ ino_field K w2 dirino K.ino_size := Nat.div_le_self _ _
    simp only [ino_field] at h1 ⊢
    omega
  obtain ⟨w3, hl, hwf3, hs3⟩ := lookup_returns K D disk w2 dirino name rest fuel hwf2 hpin2 hB
    hD hname (hdir dirino w2 hlr) (hdirp dirino w2 hlr).1 (hdirp dirino w2 hlr).2 hf
  obtain ⟨w4, w5, hul, hput, hwf5, hs5⟩ := hclose w3 hwf3 hs3
  refine ⟨dirino, w2, w5, hlr, hwf5, hs5, ?_⟩
  simp only [open_file, hlr, hl, hul, hput]

/-- The second half of `chickadeefs_read_file_data` for a valid inode number `inum`
of a file whose blocks from block `off / B` up to the first hole are reached
through non-zero index block numbers: the inode is fetched and read-locked; the
loop copies `read_count` bytes of the file, as the cache presents it with the
inode locked, to the start of `buf`; the inode is unlocked and released, which
restores the cache contents. -/
theorem read_inode_spec (K : Geometry) (disk : Nat → Nat) (w : World) (inum : Nat)
    (buf : List Nat) (sz off fuel : Nat) (hwf : WF w) (hbytes : Bytes K w)
    (hdisk : ∀ k : Nat, disk k < 256) (hB : 0 < K.blocksize) (hipb : 0 < K.inodesperblock)
    (hlay : K.inodesperblock * K.inodesize ≤ K.blocksize)
    (hml : K.ino_mlock + 4 ≤ K.inodesize) (h0 : can_fetch w 0)
    (hv : 0 < inum ∧ inum < superblock_ninodes K disk w)
    (h1 : can_fetch w (inode_block K disk w inum))
    (hfile : ∀ (ino : inode_ptr) (w6 : World), get_inode K disk w inum = some (some ino, w6) →
      ∀ k : Nat, page_fetch_ok K disk
        (store_field K w6 ino K.ino_mlock (ino_field K w6 ino K.ino_mlock + 1)) ino
        (k * K.blocksize))
    (hpaths : ∀ (ino : inode_ptr) (w6 : World), get_inode K disk w inum = some (some ino, w6) →
      paths_ok K disk (store_field K w6 ino K.ino_mlock (ino_field K w6 ino K.ino_mlock + 1))
        ino (off / K.blocksize))
    (hlock : inode_word K disk w inum K.ino_mlock + 1 < MAX32)
    (hsz : sz < fuel) (hbuf : sz ≤ buf.length) :
    ∃ (ino : inode_ptr) (w6 w' : World),
      get_inode K disk w inum = some (some ino, w6) ∧
      ino.idx = inum % K.inodesperblock ∧
      w6.holds (inode_block K disk w inum) ino.page ∧
      w6.mem ino.page = cached_block K disk w (inode_block K disk w inum) ∧
      read_inode K disk fuel w6 ino buf sz off
        = some ((read_count K disk
              (store_field K w6 ino K.ino_mlock (ino_field K w6 ino K.ino_mlock + 1)) ino sz off,
            file_bytes K disk
              (store_field K w6 ino K.ino_mlock (ino_field K w6 ino K.ino_mlock + 1)) ino off
              (read_count K disk
                (store_field K w6 ino K.ino_mlock (ino_field K w6 ino K.ino_mlock + 1))
                ino sz off)
            ++ buf.drop (read_count K disk
                (store_field K w6 ino K.ino_mlock (ino_field K w6 ino K.ino_mlock + 1))
                ino sz off)), w') ∧
      WF w' ∧ Same w w' := by
  obtain ⟨ino, w0, w6, wl, -, -, -, hgi, hlk, hidx, hhold, hmem, hwl, hwfl, hbl, hpinl,
      hclose⟩ :=
    inode_bracket K disk w inum hwf hbytes hdisk hipb hlay hml h0 hv h1 hlock
  have hv6 : ino_field K w6 ino K.ino_mlock = inode_word K disk w inum K.ino_mlock := by
    simp only [ino_field, inode_word, hmem, hidx]
  rw [← hv6] at hwl
  subst hwl
  obtain ⟨w8, hloop, hwf8, hs8⟩ := read_loop_spec K disk _ ino hwfl hpinl hB hdisk hbl
    (hfile ino w6 hgi) fuel sz off 0 buf _ hsz (by omega) (hpaths ino w6 hgi) hwfl (Same.refl _)
  obtain ⟨w9, w10, hul, hput, hwf10, hs10⟩ := hclose w8 hwf8 hs8
  refine ⟨ino, w6, w10, hgi, hidx, hhold, hmem, ?_, hwf10, hs10⟩
  simp only [read_inode, hlk, hloop, hul, hput, Option.map_some', Nat.zero_add, memcpy_zero,
    file_bytes_length]

/-- The function `chickadeefs_read_file_data` in a well-formed state with pages of
bytes, when the fetches it makes can succeed, the two inode locks can be taken,
the directory and the file are reached through non-zero index block numbers
and the fuel is enough. The first half returns; with `inum` the inode number
the spec of `lookup` gives for the root directory as the cache presents it with
its inode locked: when `inum` is not a valid inode number the call returns 0
and leaves `buf` as it was; otherwise it returns `read_count` and has copied
that many bytes of the file to the start of `buf`. In both cases the cache
contents are afterwards as before the call. -/
theorem read_file_data_spec (K : Geometry) (D : DirentLayout) (disk : Nat → Nat) (w : World)
    (name rest buf : List Nat) (sz off fuel : Nat) (hwf : WF w) (hbytes : Bytes K w)
    (hdisk : ∀ k : Nat, disk k < 256) (hB : 0 < K.blocksize) (hD : 0 < D.direntsize)
    (hname : ∀ c ∈ name, 0 < c ∧ c < 256) (hipb : 0 < K.inodesperblock)
    (hlay : K.inodesperblock * K.inodesize ≤ K.blocksize)
    (hml : K.ino_mlock + 4 ≤ K.inodesize)
    (hfetch : read_fetch_ok K D disk fuel w name rest)
    (hpath : read_paths_ok K D disk fuel w name rest off)
    (hroot : 1 < superblock_ninodes K disk w)
    (hlocks : read_locks_ok K D disk w name)
    (hfuel : 2 ^ 32 < fuel) (hsz : sz < fuel) (hbuf : sz ≤ buf.length) :
    ∃ (dirino : inode_ptr) (w2 : World) (inum : Nat) (r : Option inode_ptr) (w6 : World),
      lock_root K disk w = some (dirino, w2) ∧
      inum = lookup_spec K D disk w2 dirino name ∧
      open_file K D disk fuel w (name ++ 0 :: rest) = some (r, w6) ∧
      (¬ (0 < inum ∧ inum < superblock_ninodes K disk w) →
        r = Option.none ∧
        chickadeefs_read_file_data K D disk fuel w (name ++ 0 :: rest) buf sz off
          = some ((0, buf), w6) ∧
        WF w6 ∧ Same w w6) ∧
      (0 < inum ∧ inum < superblock_ninodes K disk w →
        ∃ (ino : inode_ptr) (w' : World),
          r = some ino ∧ ino.idx = inum % K.inodesperblock ∧
          w6.holds (inode_block K disk w inum) ino.page ∧
          w6.mem ino.page = cached_block K disk w (inode_block K disk w inum) ∧
          chickadeefs_read_file_data K D disk fuel w (name ++ 0 :: rest) buf sz off
            = some ((read_count K disk
                  (store_field K w6 ino K.ino_mlock (ino_field K w6 ino K.ino_mlock + 1))
                  ino sz off,
                file_bytes K disk
                  (store_field K w6 ino K.ino_mlock (ino_field K w6 ino K.ino_mlock + 1))
                  ino off
                  (read_count K disk
                    (store_field K w6 ino K.ino_mlock (ino_field K w6 ino K.ino_mlock + 1))
                    ino sz off)
                ++ buf.drop (read_count K disk
                    (store_field K w6 ino K.ino_mlock (ino_field K w6 ino K.ino_mlock + 1))
                    ino sz off)), w') ∧
          WF w' ∧ Same w w') := by
  obtain ⟨h0, h1, hrest⟩ := hfetch
  obtain ⟨dirino, w2, w5, hlr, hwf5, hs5, hopen⟩ := open_file_spec K D disk w name rest fuel
    hwf hbytes hdisk hB hD hname hipb hlay hml h0 h1 (fun d v h => (hrest d v h).1)
    (fun d v h => ⟨(hpath d v h).1, (hpath d v h).2.1⟩) hroot hlocks.1 hfuel
  obtain ⟨-, hino, hfile⟩ := hrest dirino w2 hlr
  obtain ⟨-, -, hfilep⟩ := hpath dirino w2 hlr
  have hlock2 := hlocks.2 dirino w2 hlr
  obtain ⟨hnin, hib⟩ := same_superblock K disk hs5
  have h05 : can_fetch w5 0 := (hs5.can_fetch 0).mpr h0
  by_cases hv : 0 < lookup_spec K D disk w2 dirino name ∧
      lookup_spec K D disk w2 dirino name < superblock_ninodes K disk w
  · obtain ⟨ino, w6, w', hgi, hidx, hhold, hmem, hri, hwf', hs'⟩ :=
      read_inode_spec K disk w5 _ buf sz off fuel hwf5 (bytes_same K hs5 hbytes) hdisk hB hipb
        hlay hml h05 (by rw [hnin]; exact hv)
        (by rw [hib, hs5.can_fetch]; exact hino)
        (fun ino w6 h => hfile ino w6 (by rw [hopen]; exact h))
        (fun ino w6 h => hfilep ino w6 (by rw [hopen]; exact h))
        (by rw [same_inode_word K disk hs5]; exact hlock2) hsz hbuf
    rw [hib] at hhold hmem
    rw [hs5.cached K disk] at hmem
    refine ⟨dirino, w2, _, some ino, w6, hlr, rfl, by rw [hopen, hgi],
      fun hc => absurd hv hc, fun _ => ⟨ino, w', rfl, hidx, hhold, hmem, ?_, hwf',
        hs5.trans hs'⟩⟩
    simp only [chickadeefs_read_file_data, hopen, hgi, hri]
  · obtain ⟨w6, hwf6, hs6, hgi⟩ := get_inode_none K disk w5 _ hwf5 h05
      (by rw [hnin]; exact hv)
    refine ⟨dirino, w2, _, Option.none, w6, hlr, rfl, by rw [hopen, hgi],
      fun _ => ⟨rfl, ?_, hwf6, hs5.trans hs6⟩, fun hc => absurd hc hv⟩
    simp only [chickadeefs_read_file_data, hopen, hgi]

/-- Three free slots and three free pages are enough for every fetch
`chickadeefs_read_file_data` makes: it pins at most the block of an inode and
two blocks of `get_data_page` at once. -/
theorem room_read_fetch_ok (K : Geometry) (D : DirentLayout) (disk : Nat → Nat) (w : World)
    (name rest : List Nat) (fuel : Nat) (hwf : WF w) (hbytes : Bytes K w)
    (hdisk : ∀ k : Nat, disk k < 256) (hB : 0 < K.blocksize) (hD : 0 < D.direntsize)
    (hname : ∀ c ∈ name, 0 < c ∧ c < 256) (hipb : 0 < K.inodesperblock)
    (hlay : K.inodesperblock * K.inodesize ≤ K.blocksize)
    (hml : K.ino_mlock + 4 ≤ K.inodesize) (hroom : room w 3)
    (hdirp : ∀ (dirino : inode_ptr) (w2 : World), lock_root K disk w = some (dirino, w2) →
      paths_ok K disk w2 dirino 0 ∧ names_ok K D disk w2 dirino)
    (hroot : 1 < superblock_ninodes K disk w)
    (hlock : inode_word K disk w 1 K.ino_mlock + 1 < MAX32) (hfuel : 2 ^ 32 < fuel) :
    read_fetch_ok K D disk fuel w name rest := by
  have hr1 : room w 1 := room_mono w 3 1 (by omega) hroom
  have h0 : can_fetch w 0 := room_can_fetch w 0 hr1
  have h1 : can_fetch w (inode_block K disk w 1) := room_can_fetch w _ hr1
  obtain ⟨dirino, w0, w1, w2, hwf0, hs0, hg, hgi, hlk, -, -, -, hw2, hwf2, -, -, -⟩ :=
    inode_bracket K disk w 1 hwf hbytes hdisk hipb hlay hml h0 ⟨by omega, hroot⟩ h1 hlock
  have hlr : lock_root K disk w = some (dirino, w2) := by
    simp only [lock_root, hgi, hlk, Option.map_some']
  have hroom2 : room w2 2 := by
    rw [hw2]
    exact room_get K disk w0 _ Option.none dirino.page w1 2 hwf0 (room_same hs0 3 hroom) hg
  have hdir : ∀ (d : inode_ptr) (v : World), lock_root K disk w = some (d, v) →
      ∀ k : Nat, page_fetch_ok K disk v d (k * K.blocksize) := by
    intro d v h k
    rw [hlr] at h
    obtain ⟨rfl, rfl⟩ := Prod.mk.inj (Option.some.inj h)
    exact room_page_fetch_ok K disk _ _ _ hwf2 hroom2
  refine ⟨h0, h1, ?_⟩
  intro d v h
  refine ⟨hdir d v h, room_can_fetch w _ hr1, ?_⟩
  intro ino w6 hopen k
  obtain ⟨d', v', w5, hlr', hwf5, hs5, hopen'⟩ := open_file_spec K D disk w name rest fuel
    hwf hbytes hdisk hB hD hname hipb hlay hml h0 h1 hdir hdirp hroot hlock hfuel
  rw [hopen'] at hopen
  have hr5 : room w5 3 := room_same hs5 3 hroom
  have h05 : can_fetch w5 0 := room_can_fetch w5 0 (room_mono w5 3 1 (by omega) hr5)
  by_cases hv : 0 < lookup_spec K D disk v' d' name ∧
      lookup_spec K D disk v' d' name < superblock_ninodes K disk w5
  · obtain ⟨p, wa, wb, hwfa, hsa, hga, hgia⟩ := get_inode_some K disk w5 _ hwf5 h05 hv
      (room_can_fetch w5 _ (room_mono w5 3 1 (by omega) hr5))
    rw [hgia] at hopen
    obtain ⟨hino, rfl⟩ := Prod.mk.inj (Option.some.inj hopen)
    obtain ⟨hwfb, -, -⟩ := get_spec K disk wa _ Option.none p wb hwfa hga
    have hrb : room wb 2 :=
      room_get K disk wa _ Option.none p wb 2 hwfa (room_same hsa 3 hr5) hga
    exact room_page_fetch_ok K disk _ _ _ (store_field_WF K wb _ _ _ hwfb) hrb
  · obtain ⟨wa, -, -, hgia⟩ := get_inode_none K disk w5 _ hwf5 h05 hv
    rw [hgia] at hopen
    obtain ⟨hino, -⟩ := Prod.mk.inj (Option.some.inj hopen)
    cases hino

theorem first_match_eq_zero (es : List (Nat × List Nat)) (name : List Nat) :
    first_match es name = 0 ↔ ∀ e ∈ es, ¬ (e.1 ≠ 0 ∧ e.2 = name) := by
  induction es with
  | nil => simp [first_match_nil]
  | cons e es ih =>
    rw [first_match_cons]
    by_cases h : e.1 ≠ 0 ∧ e.2 = name
    · rw [if_pos h]
      constructor
      · intro h0
        exact absurd h0 h.1
      · intro hall
        exact absurd h (hall e (List.mem_cons_self _ _))
    · rw [if_neg h, ih]
      constructor
      · intro hall e1 he1
        rcases List.mem_cons.mp he1 with h1 | h1
        · rw [h1]; exact h
        · exact hall e1 h1
      · intro hall e1 he1
        exact hall e1 (List.mem_cons_of_mem _ he1)

theorem find_range_first (p : Nat → Bool) :
    ∀ (n k h : Nat), (List.range' k n).find? p = some h →
      ∀ j : Nat, k ≤ j → j < h → p j = false := by
  intro n
  induction n with
  | zero => intro k h hf; simp at hf
  | succ n ih =>
    intro k h hf j hkj hjh
    rw [List.range'_succ, List.find?_cons] at hf
    cases hp : p k with
    | true =>
      rw [hp] at hf
      simp only [Option.some.injEq] at hf
      omega
    | false =>
      rw [hp] at hf
      by_cases hjk : j = k
      · rw [hjk]; exact hp
      · exact ih (k + 1) h hf j (by omega) hjh

/-- The spec's reading of `first_hole`: the block it names is a hole before the end
of the file, at or after block `k`, and no block between `k` and it is one;
when it names none, no block from `k` on is a hole before the end of the
file. -/
theorem first_hole_first (K : Geometry) (disk : Nat → Nat) (w : World) (ino : inode_ptr)
    (k : Nat) (hB : 0 < K.blocksize) :
    (∀ h : Nat, first_hole K disk w ino k = some h →
      k ≤ h ∧ h * K.blocksize < ino_field K w ino K.ino_size ∧
      spec_block K disk w ino (h * K.blocksize) = 0 ∧
      ∀ j : Nat, k ≤ j → j < h → spec_block K disk w ino (j * K.blocksize) ≠ 0) ∧
    (first_hole K disk w ino k = Option.none →
      ∀ j : Nat, k ≤ j → j * K.blocksize < ino_field K w ino K.ino_size →
        spec_block K disk w ino (j * K.blocksize) ≠ 0) := by
  constructor
  · intro h hf
    obtain ⟨h1, h2, h3⟩ := first_hole_sound K disk w ino k h hf
    refine ⟨h1, h2, h3, ?_⟩
    intro j hkj hjh
    have := find_range_first _ _ _ _ hf j hkj hjh
    have hlt : j * K.blocksize < ino_field K w ino K.ino_size := by
      have := Nat.mul_le_mul_right K.blocksize (Nat.le_of_lt hjh)
      omega
    simpa [hlt] using this
  · intro hf j hkj hlt
    unfold first_hole at hf
    rw [List.find?_eq_none] at hf
    have hj : j ≤ ino_field K w ino K.ino_size / K.blocksize :=
      (Nat.le_div_iff_mul_le hB).mpr (by omega)
    have := hf j (by rw [List.mem_range'_1]; omega)
    simpa [hlt] using this

/-! ## A read that ends at a hole -/

theorem disk1_lt (k : Nat) : disk1 k < 255 := by
  unfold disk1
  split_ifs
  · omega
  · omega
  · exact disk_of_lt _ k (by decide)

theorem read32_small (bs : List Nat) (o : Nat) (h : ∀ x ∈ bs, x < 255) :
    read32 bs o + 1 < MAX32 := by
  have hM : MAX32 = 4294967295 := by decide
  have hget : bs.getD (o + 3) 0 < 255 := by
    rw [List.getD_eq_getElem?_getD]
    cases hg : bs[o + 3]? with
    | none => simp
    | some x => exact h x (List.getElem?_mem hg)
  have h0 := Nat.mod_lt (bs.getD o 0) (by decide : 0 < 256)
  have h1 := Nat.mod_lt (bs.getD (o + 1) 0) (by decide : 0 < 256)
  have h2 := Nat.mod_lt (bs.getD (o + 2) 0) (by decide : 0 < 256)
  have h3 : bs.getD (o + 3) 0 % 256 < 255 := by omega
  simp only [read32, hM]
  omega

theorem state4_unpinned (q : Nat) : ¬ state4.pinned q := by
  rintro ⟨b, e, hs, -⟩
  have hnone : state4.slot_of b = Option.none :=
    (slot_of_eq_none state4 b).mpr (fun e he hc => by
      have h0 : ∀ e ∈ state4.e_, e.ref_ = 0 := by decide
      exact hc.1 (h0 e he))
  rw [hnone] at hs
  cases hs

theorem state4_bytes : Bytes K0 state4 :=
  fun q hq => absurd hq (state4_unpinned q)

theorem state4_locks (inum : Nat) : inode_word K0 disk1 state4 inum K0.ino_mlock + 1 < MAX32 := by
  unfold inode_word
  apply read32_small
  intro x hx
  have hb : ∀ b : Nat, cached_block K0 disk1 state4 b
      = disk_bytes disk1 K0.blocksize (b * K0.blocksize) := by
    intro b
    have hnone : state4.slot_of b = Option.none :=
      (slot_of_eq_none state4 b).mpr (fun e he hc => by
        have h0 : ∀ e ∈ state4.e_, e.ref_ = 0 := by decide
        exact hc.1 (h0 e he))
    simp only [cached_block, hnone]
  rw [hb] at hx
  simp only [disk_bytes, List.mem_map, List.mem_range] at hx
  obtain ⟨k, -, rfl⟩ := hx
  exact disk1_lt _

/-- The root directory of `disk1`, fetched and read-locked from the empty cache
`state4`: its two blocks are reached through non-zero block numbers and its
entries hold C strings. -/
theorem state4_root :
    ∀ t ∈ lock_root K0 disk1 state4,
      ino_field K0 t.2 t.1 K0.ino_size = 80 ∧ path_ok K0 disk1 t.2 t.1 0 ∧
      path_ok K0 disk1 t.2 t.1 64 ∧ names_ok K0 D0 disk1 t.2 t.1 := by
  decide

/-- The file `"z"` of `disk1` (inode 5), fetched and read-locked: `size = 130`, and its
three blocks are reached through non-zero index block numbers (block 1 is a
hole: entry 0 of the indirect block 11 is 0). -/
theorem state4_file_z :
    ∀ t ∈ open_file K0 D0 disk1 4294967297 state4 [122, 0], ∀ ino ∈ t.1,
      ino_field K0 (store_field K0 t.2 ino K0.ino_mlock (ino_field K0 t.2 ino K0.ino_mlock + 1))
        ino K0.ino_size = 130 ∧
      path_ok K0 disk1
        (store_field K0 t.2 ino K0.ino_mlock (ino_field K0 t.2 ino K0.ino_mlock + 1)) ino 0 ∧
      path_ok K0 disk1
        (store_field K0 t.2 ino K0.ino_mlock (ino_field K0 t.2 ino K0.ino_mlock + 1)) ino 64 ∧
      path_ok K0 disk1
        (store_field K0 t.2 ino K0.ino_mlock (ino_field K0 t.2 ino K0.ino_mlock + 1)) ino 128 := by
  decide

theorem state4_dir_ok (dirino : inode_ptr) (w2 : World)
    (h : lock_root K0 disk1 state4 = some (dirino, w2)) :
    paths_ok K0 disk1 w2 dirino 0 ∧ names_ok K0 D0 disk1 w2 dirino := by
  obtain ⟨hsz, hp0, hp1, hn⟩ := state4_root (dirino, w2) h
  refine ⟨?_, hn⟩
  intro k _ hlt _
  have hB : K0.blocksize = 64 := rfl
  simp only at hsz
  rw [hsz, hB] at hlt
  have hk : k = 0 ∨ k = 1 := by omega
  rcases hk with rfl | rfl
  · exact hp0
  · exact hp1

theorem state4_paths_z : read_paths_ok K0 D0 disk1 4294967297 state4 [122] [] 3 := by
  intro dirino w2 h
  refine ⟨(state4_dir_ok dirino w2 h).1, (state4_dir_ok dirino w2 h).2, ?_⟩
  intro ino w6 hopen
  obtain ⟨hsz, hp0, hp1, hp2⟩ := state4_file_z (some ino, w6) hopen ino rfl
  intro k _ hlt _
  have hB : K0.blocksize = 64 := rfl
  simp only at hsz
  rw [hsz, hB] at hlt
  have hk : k = 0 ∨ k = 1 ∨ k = 2 := by omega
  rcases hk with rfl | rfl | rfl
  · exact hp0
  · exact hp1
  · exact hp2

/-- In the empty cache `state4` every fetch of a read of `disk1` can succeed. -/
theorem state4_fetch_ok (name rest : List Nat) (fuel : Nat)
    (hname : ∀ c ∈ name, 0 < c ∧ c < 256) (hfuel : 2 ^ 32 < fuel) :
    read_fetch_ok K0 D0 disk1 fuel state4 name rest :=
  room_read_fetch_ok K0 D0 disk1 state4 name rest fuel state4_WF state4_bytes
    (fun k => Nat.lt_succ_of_lt (disk1_lt k)) (by decide) (by decide) hname (by decide)
    (by decide) (by decide) ⟨by decide, by decide⟩ state4_dir_ok (by decide) (state4_locks 1)
    hfuel

/-- The file `"z"` of `disk1` (inode 5, `size = 130`) has a hole at logical block 1,
where the data block number is 0; a read of 120 bytes at offset 3 from the
empty cache `state4` returns the 61 bytes before the hole, and the cache is
afterwards as before: an instance of `read_file_data_spec`. -/
theorem read_file_data_before_hole :
    (chickadeefs_read_file_data K0 D0 disk1 4294967297 state4 [122, 0]
        (List.replicate 120 0) 120 3).map (fun t => (t.1.1, t.1.2.take 3, t.1.2.drop 58))
      = some (61, [4, 5, 6], [62, 63, 64] ++ List.replicate 59 0) ∧
    (open_file K0 D0 disk1 4294967297 state4 [122, 0]).map (fun t => t.1.map (fun ino =>
        (read_end K0 disk1
            (store_field K0 t.2 ino K0.ino_mlock (ino_field K0 t.2 ino K0.ino_mlock + 1))
            ino 3,
          first_hole K0 disk1
            (store_field K0 t.2 ino K0.ino_mlock (ino_field K0 t.2 ino K0.ino_mlock + 1))
            ino 0)))
      = some (some (64, some 1)) ∧
    ∃ (dirino : inode_ptr) (w2 : World) (inum : Nat) (r : Option inode_ptr) (w6 : World),
      lock_root K0 disk1 state4 = some (dirino, w2) ∧
      inum = lookup_spec K0 D0 disk1 w2 dirino [122] ∧
      open_file K0 D0 disk1 4294967297 state4 ([122] ++ 0 :: []) = some (r, w6) ∧
      (0 < inum ∧ inum < superblock_ninodes K0 disk1 state4 →
        ∃ (ino : inode_ptr) (w' : World),
          r = some ino ∧
          chickadeefs_read_file_data K0 D0 disk1 4294967297 state4 ([122] ++ 0 :: [])
              (List.replicate 120 0) 120 3
            = some ((read_count K0 disk1
                  (store_field K0 w6 ino K0.ino_mlock (ino_field K0 w6 ino K0.ino_mlock + 1))
                  ino 120 3,
                file_bytes K0 disk1
                  (store_field K0 w6 ino K0.ino_mlock (ino_field K0 w6 ino K0.ino_mlock + 1))
                  ino 3
                  (read_count K0 disk1
                    (store_field K0 w6 ino K0.ino_mlock (ino_field K0 w6 ino K0.ino_mlock + 1))
                    ino 120 3)
                ++ (List.replicate 120 0).drop (read_count K0 disk1
                    (store_field K0 w6 ino K0.ino_mlock (ino_field K0 w6 ino K0.ino_mlock + 1))
                    ino 120 3)), w') ∧
          WF w' ∧ Same state4 w') := by
  refine ⟨by decide, by decide, ?_⟩
  obtain ⟨dirino, w2, inum, r, w6, hlr, hinum, hopen, -, hsome⟩ :=
    read_file_data_spec K0 D0 disk1 state4 [122] [] (List.replicate 120 0) 120 3 4294967297
      state4_WF state4_bytes (fun k => Nat.lt_succ_of_lt (disk1_lt k)) (by decide) (by decide)
      (by decide) (by decide) (by decide) (by decide)
      (state4_fetch_ok [122] [] _ (by decide) (by decide)) state4_paths_z (by decide)
      ⟨state4_locks 1, fun _ _ _ => state4_locks _⟩ (by decide) (by decide) (by decide)
  refine ⟨dirino, w2, inum, r, w6, hlr, hinum, hopen, ?_⟩
  intro hv
  obtain ⟨ino, w', hr, -, -, -, hdata, hwf', hs'⟩ := hsome hv
  exact ⟨ino, w', hr, hdata, hwf', hs'⟩

/-! ## Reads of `chickadeefs_read_file_data` that run over a hole -/

/-- C14 (evaluation). The file `"a"` of `disk1` (inode 3) has `size = 200`,
`direct[0] = 7` and `indirect == 0`: its logical block 1, the first of the
single-indirect range, is a hole, so a read from offset 0 ends at `E = 64` and
is to return `min(200, 64) = 64` bytes, the bytes of block 7. From the empty
cache `state4`, where every fetch can succeed, the call returns 192: after the
64 bytes of block 7 it copies the 64 bytes of block 6 (a block of the root
directory, which begins with the entry `(5, "z")`) and the 64 bytes of block 1
(the inode block, with `size = 80` of inode 1 at its byte 24), the blocks that
words 0 and 1 of block 0 name. -/
theorem read_file_data_past_hole :
    (open_file K0 D0 disk1 4294967297 state4 [97, 0]).map (fun t => t.1.map (fun ino =>
        (ino_field K0 t.2 ino K0.ino_size, ino_field K0 t.2 ino K0.ino_direct,
          ino_field K0 t.2 ino K0.ino_indirect)))
      = some (some (200, 7, 0)) ∧
    (open_file K0 D0 disk1 4294967297 state4 [97, 0]).map (fun t => t.1.map (fun ino =>
        (first_hole K0 disk1 t.2 ino 0, read_end K0 disk1 t.2 ino 0,
          read_count K0 disk1 t.2 ino 200 0)))
      = some (some (some 1, 64, 64)) ∧
    (chickadeefs_read_file_data K0 D0 disk1 4294967297 state4 [97, 0]
        (List.replicate 200 0) 200 0).map (fun t =>
          (t.1.1, (t.1.2.drop 60).take 10, (t.1.2.drop 150).take 4))
      = some (192, [61, 62, 63, 64, 5, 0, 0, 0, 122, 0], [0, 0, 80, 0]) ∧
    (disk_bytes disk1 8 384, disk_bytes disk1 4 88, read32 (disk_bytes disk1 64 0) 0,
      read32 (disk_bytes disk1 64 0) 4)
      = ([5, 0, 0, 0, 122, 0, 0, 0], [80, 0, 0, 0], 6, 1) := by
  decide

/-- C15 (evaluation). On `disk2` the root directory has `size = 80`, `direct[0] = 4`
and `indirect == 0`: its second block is a hole, its entries are the four of
block 4, and none of them has the name `"z"`, so that the call for `"z"` is to
return 0 and to write nothing. From the empty cache `state4`, where every fetch
can succeed, `lookup` fetches block 0 as an indirect block (the `disk_read` at
byte 0), takes its word 0, which is 6, for the number of the directory's second
block and finds the entry `(5, "z")` there; the call returns 8 and has written
the first 8 bytes of inode 5's file to the buffer. The events listed are those
of `lookup` alone. -/
theorem read_file_data_entry_past_hole :
    (lock_root K0 disk2 state4).map (fun t =>
        (ino_field K0 t.2 t.1 K0.ino_size, ino_field K0 t.2 t.1 K0.ino_indirect,
          dir_entries K0 D0 disk2 t.2 t.1))
      = some (80, 0, [(0, [98]), (2, [104, 105]), (3, [97]), (4, [98, 105, 103])]) ∧
    (lock_root K0 disk2 state4).map (fun t => lookup_spec K0 D0 disk2 t.2 t.1 [122])
      = some 0 ∧
    (lock_root K0 disk2 state4).bind (fun t =>
        (lookup K0 D0 disk2 5 t.2 t.1 [122, 0]).map (fun r =>
          (r.1, r.2.events.drop t.2.events.length)))
      = some (5, [Event.kalloc (some 200), Event.disk_read 256, Event.kfree 200,
          Event.kalloc (some 200), Event.disk_read 0, Event.kfree 200,
          Event.kalloc (some 200), Event.disk_read 384, Event.kfree 200]) ∧
    (chickadeefs_read_file_data K0 D0 disk2 4294967297 state4 [122, 0]
        (List.replicate 8 7) 8 0).map (fun t => t.1)
      = some (8, [1, 2, 3, 4, 5, 6, 7, 8]) := by
  decide

end Chickadee
